import Mathlib

/-!
SimpleFS: a shallow embedding of `simplefs.c` / `simplefs.h`.

The C program keeps one aggregate `struct simplefs` and five operations on it.
The embedding below follows the C text function by function.

Conventions of the embedding
* A `char` is a natural number below 256.  A `const char *` argument is the list of
  the characters found at the pointer; the C string it denotes ends at the first NUL
  or at the end of the list (`cstr`).
* A `char` array of a struct is the list of its bytes.  `strncpy` leaves an array of
  `MAX_NAME` characters without a NUL when the name has `MAX_NAME` characters or more;
  the C code then reads on into the next field (`inode_id` after `name`, the next entry
  after `link_path`), the embedding ends the string at the end of the array.  The two
  agree whenever the name that is looked up is shorter than `MAX_NAME`: the comparison
  is then decided inside the array.
* `fs->blocks` is the flat byte array the C declaration `char blocks[MAX_BLOCKS][BLOCK_SIZE]`
  lays out: `fs->blocks[b][j]` is the byte at address `b * BLOCK_SIZE + j`.
  The indirect block is that same memory read as 32-bit little-endian `int`s.
* The four tables are total maps from the index, each on its own.  The counters are
  exact, so an index that leaves its table shows in them; what such a write does to the
  memory that follows the table in `struct simplefs` (the inode table after the blocks,
  the log after the directory, the counters after the log) is not modelled.  The
  embedding is the C program as long as every index stays in its table and every name
  looked up is shorter than `MAX_NAME`: these are the states of `ReachableInBounds`, and
  what is proved of the program is stated over them.
* Counters, sizes, ids and indices are `Nat` (they start at zero and only grow);
  user ids, group ids, timestamps and return values are `Int`.
* `time(NULL)` is an input of each operation.
* `while` and `for` loops are recursive functions over a count of remaining
  iterations that the loop can never exceed; the loop condition is tested as in C.
* A `for` loop over the directory whose body returns at the first match is the search
  for the first match (`find_entry`) followed by the body.
* `read_file` calls itself on a soft link; its first argument bounds the depth of that
  recursion and `none` says that the bound was reached.
-/

namespace SimpleFS

/-! ## Constants (`simplefs.h`) -/

abbrev BLOCK_SIZE : Nat := 4096
abbrev MAX_BLOCKS : Nat := 1024
abbrev MAX_INODES : Nat := 128
abbrev MAX_NAME : Nat := 256
abbrev MAX_LOGS : Nat := 100

/-! ## C strings -/

/-- The characters of a string literal, as `char` values. -/
def str (s : String) : List Nat := s.toList.map Char.toNat

/-- The C string stored at a character sequence: everything before the first NUL. -/
def cstr : List Nat → List Nat
  | [] => []
  | c :: s => if c = 0 then [] else c :: cstr s

/-- `strlen`. -/
def strlen (s : List Nat) : Nat := (cstr s).length

/-- `strncpy(dst, src, n)`: the `n` bytes left in `dst`: the string, cut at `n`
characters, then NUL padding (none when the string has `n` characters or more). -/
def strncpy (src : List Nat) (n : Nat) : List Nat :=
  (cstr src).take n ++ List.replicate (n - strlen src) 0

/-- `strcmp`: the difference of the first two characters that differ, `0` when the
strings are equal. -/
def strcmp : List Nat → List Nat → Int
  | [], [] => 0
  | [], b :: _ => 0 - (b : Int)
  | a :: _, [] => (a : Int)
  | a :: s, b :: t =>
    if a ≠ b then (a : Int) - (b : Int) else if a = 0 then 0 else strcmp s t

/-- The digits `printf("%d")` prints for an `int`. -/
def fmt_d (x : Int) : List Nat :=
  if x < 0 then 45 :: (Nat.toDigits 10 x.natAbs).map Char.toNat
  else (Nat.toDigits 10 x.natAbs).map Char.toNat

/-- `snprintf(dst, n, ...)` where the formatted text is `s`: at most `n - 1`
characters of it are stored, then a NUL; the rest of `dst` keeps its bytes. -/
def snprintf (dst : List Nat) (n : Nat) (s : List Nat) : List Nat :=
  s.take (n - 1) ++ 0 :: dst.drop ((s.take (n - 1)).length + 1)

/-! ## `calculate_hash` -/

/-- The loop of `calculate_hash`: an `unsigned int` sum of the characters. -/
def hash_loop : List Nat → Nat → Nat
  | [], str_sum => str_sum
  | c :: s, str_sum => if c = 0 then str_sum else hash_loop s ((str_sum + c % 256) % 2 ^ 32)

/-- The 64-bit two's complement pattern of a `long`. -/
def bits64 (x : Int) : Nat := (x % 2 ^ 64).toNat

/-- `calculate_hash(str, id, ts)`: `(unsigned int)(id ^ ts ^ str_sum)`; the xor is
done on `long` (the type of `ts`), the cast keeps the low 32 bits. -/
def calculate_hash (s : List Nat) (id : Int) (ts : Int) : Nat :=
  (bits64 id ^^^ bits64 ts ^^^ hash_loop s 0) % 2 ^ 32

/-! ## Data model (`simplefs.h`) -/

structure inode where
  id : Nat
  size : Nat
  permissions : List Nat
  ref_count : Nat
  blocks : Nat → Nat
  indirect_block : Nat
  owner_uid : Int
  group_id : Int
  timestamp : Int

structure dir_entry where
  name : List Nat
  inode_id : Nat
  is_soft_link : Nat
  link_path : List Nat

structure log_entry where
  operation : List Nat
  related_inode_id : Int
  timestamp : Int
  hash : Nat

structure simplefs where
  blocks : Nat → Nat
  inodes : Nat → inode
  directory : Nat → dir_entry
  logs : Nat → log_entry
  block_count : Nat
  inode_count : Nat
  dir_count : Nat
  log_count : Nat

/-- An all-zero `struct inode`. -/
def zero_inode : inode :=
  { id := 0, size := 0, permissions := List.replicate 10 0, ref_count := 0,
    blocks := fun _ => 0, indirect_block := 0, owner_uid := 0, group_id := 0, timestamp := 0 }

/-- An all-zero `struct dir_entry`. -/
def zero_dir_entry : dir_entry :=
  { name := List.replicate MAX_NAME 0, inode_id := 0, is_soft_link := 0,
    link_path := List.replicate MAX_NAME 0 }

/-- An all-zero `struct log_entry`. -/
def zero_log_entry : log_entry :=
  { operation := List.replicate MAX_NAME 0, related_inode_id := 0, timestamp := 0, hash := 0 }

/-- `init_fs`: `memset` to zero, counters zero. -/
def init_fs : simplefs :=
  { blocks := fun _ => 0, inodes := fun _ => zero_inode, directory := fun _ => zero_dir_entry,
    logs := fun _ => zero_log_entry, block_count := 0, inode_count := 0, dir_count := 0,
    log_count := 0 }

/-! ## Block bytes -/

/-- The byte transform of the block store: `c ^ 0x55`, stored in a `char`. -/
def xor55 (c : Nat) : Nat := (c ^^^ 0x55) % 256

/-- `((int *)blocks)[..] = v` at byte address `a`: four little-endian bytes. -/
def write_int (mem : Nat → Nat) (a : Nat) (v : Nat) : Nat → Nat :=
  Function.update (Function.update (Function.update (Function.update mem a (v % 256))
    (a + 1) (v / 256 % 256)) (a + 2) (v / 65536 % 256)) (a + 3) (v / 16777216 % 256)

/-- The `int` read at byte address `a` (a block id, so not negative). -/
def read_int (mem : Nat → Nat) (a : Nat) : Nat :=
  mem a + 256 * mem (a + 1) + 65536 * mem (a + 2) + 16777216 * mem (a + 3)

/-! ## `create_file` -/

/-- The inner `for (j ...)` loop of `create_file`: fills block `block_id` from
`data[data_offset ..]`; returns the block memory and the new `data_offset`. -/
def write_block (data : List Nat) (size block_id : Nat) :
    Nat → Nat → (Nat → Nat) → Nat → (Nat → Nat) × Nat
  | 0, _, mem, data_offset => (mem, data_offset)
  | fuel + 1, j, mem, data_offset =>
    if j < BLOCK_SIZE ∧ data_offset < size then
      write_block data size block_id fuel (j + 1)
        (Function.update mem (block_id * BLOCK_SIZE + j) (xor55 (data.getD data_offset 0)))
        (data_offset + 1)
    else (mem, data_offset)

/-- What the allocation loops of `create_file` change. -/
structure alloc_state where
  blocks : Nat → Nat
  block_count : Nat
  ino : inode
  data_offset : Nat

/-- The loop `for (i = 0; i < num_blocks_needed && i < 12; i++)`. -/
def direct_loop (data : List Nat) (size num_blocks_needed : Nat) :
    Nat → Nat → alloc_state → alloc_state
  | 0, _, s => s
  | fuel + 1, i, s =>
    if i < num_blocks_needed ∧ i < 12 then
      let block_id := s.block_count
      let w := write_block data size block_id BLOCK_SIZE 0 s.blocks s.data_offset
      direct_loop data size num_blocks_needed fuel (i + 1)
        { blocks := w.1, block_count := s.block_count + 1,
          ino := { s.ino with blocks := Function.update s.ino.blocks i block_id },
          data_offset := w.2 }
    else s

/-- The loop `for (i = 12; i < num_blocks_needed; i++)` over the indirect block
`indirect_blk_id`. -/
def indirect_loop (data : List Nat) (size num_blocks_needed indirect_blk_id : Nat) :
    Nat → Nat → alloc_state → alloc_state
  | 0, _, s => s
  | fuel + 1, i, s =>
    if i < num_blocks_needed then
      let block_id := s.block_count
      let mem := write_int s.blocks (indirect_blk_id * BLOCK_SIZE + 4 * (i - 12)) block_id
      let w := write_block data size block_id BLOCK_SIZE 0 mem s.data_offset
      indirect_loop data size num_blocks_needed indirect_blk_id fuel (i + 1)
        { blocks := w.1, block_count := s.block_count + 1, ino := s.ino, data_offset := w.2 }
    else s

/-- The text of the log line of `create_file`. -/
def fmt_create_file (name : List Nat) (uid gid : Int) : List Nat :=
  str "Created file " ++ cstr name ++ str " (UID:" ++ fmt_d uid ++ str " GID:" ++ fmt_d gid
    ++ str ")"

/-- The log entry an operation writes over the slot `old`. -/
def make_log (old : log_entry) (text : List Nat) (related_inode_id : Int) (now : Int) :
    log_entry :=
  let operation := snprintf old.operation MAX_NAME text
  { operation := operation, related_inode_id := related_inode_id, timestamp := now,
    hash := calculate_hash operation related_inode_id now }

/-- The blocks part of `create_file` (lines 31-57): both allocation loops, run on the
inode `ino` whose header fields are already set. -/
def allocate (fs : simplefs) (ino : inode) (data : List Nat) : alloc_state :=
  let num_blocks_needed := (ino.size + BLOCK_SIZE - 1) / BLOCK_SIZE
  let s1 := direct_loop data ino.size num_blocks_needed 12 0
    { blocks := fs.blocks, block_count := fs.block_count, ino := ino, data_offset := 0 }
  if num_blocks_needed > 12 then
    let indirect_blk_id := s1.block_count
    indirect_loop data ino.size num_blocks_needed indirect_blk_id num_blocks_needed 12
      { blocks := s1.blocks, block_count := s1.block_count + 1,
        ino := { s1.ino with indirect_block := indirect_blk_id }, data_offset := s1.data_offset }
  else s1

/-- The header of the inode `create_file` fills in (lines 22-29): slot
`fs->inodes[fs->inode_count]`, whose block fields keep their bytes. -/
def new_inode (fs : simplefs) (permissions : List Nat) (uid gid : Int) (data : List Nat)
    (now_inode : Int) : inode :=
  { fs.inodes fs.inode_count with
    id := fs.inode_count, size := strlen data, permissions := strncpy permissions 10,
    ref_count := 1, owner_uid := uid, group_id := gid, timestamp := now_inode }

/-- `create_file`; `now_inode` and `now_log` are what the two `time(NULL)` calls return.
Returns the new state and the C return value. -/
def create_file (fs : simplefs) (name permissions : List Nat) (uid gid : Int)
    (data : List Nat) (now_inode now_log : Int) : simplefs × Int :=
  if fs.inode_count ≥ MAX_INODES ∨ fs.block_count ≥ MAX_BLOCKS then (fs, -1)
  else
    let ino := new_inode fs permissions uid gid data now_inode
    let s := allocate fs ino data
    let entry : dir_entry :=
      { fs.directory fs.dir_count with
        name := strncpy name MAX_NAME, inode_id := s.ino.id, is_soft_link := 0 }
    let log := make_log (fs.logs (fs.log_count % MAX_LOGS)) (fmt_create_file name uid gid)
      s.ino.id now_log
    ({ blocks := s.blocks,
       inodes := Function.update fs.inodes fs.inode_count s.ino,
       directory := Function.update fs.directory fs.dir_count entry,
       logs := Function.update fs.logs (fs.log_count % MAX_LOGS) log,
       block_count := s.block_count,
       inode_count := fs.inode_count + 1,
       dir_count := fs.dir_count + 1,
       log_count := fs.log_count + 1 }, (s.ino.id : Int))

/-! ## `read_file` -/

/-- The directory scan `for (i = 0; i < fs->dir_count; i++) if (strcmp(...) == 0)`:
the index of the first entry whose name compares equal, scanning from `i`,
`count` entries left. -/
def find_from (directory : Nat → dir_entry) (name : List Nat) : Nat → Nat → Option Nat
  | 0, _ => none
  | count + 1, i =>
    if strcmp (directory i).name name = 0 then some i
    else find_from directory name count (i + 1)

/-- The first directory entry that matches `name`, if any. -/
def find_entry (fs : simplefs) (name : List Nat) : Option Nat :=
  find_from fs.directory name fs.dir_count 0

/-- The inner `for (j ...)` loop of `read_file`: copies block `block_id` into the
buffer; returns the buffer and the new `bytes_read`. -/
def read_block (mem : Nat → Nat) (size : Nat) (max_len : Int) (block_id : Nat) :
    Nat → Nat → (Nat → Nat) → Nat → (Nat → Nat) × Nat
  | 0, _, buffer, bytes_read => (buffer, bytes_read)
  | fuel + 1, j, buffer, bytes_read =>
    if j < BLOCK_SIZE ∧ bytes_read < size ∧ (bytes_read : Int) < max_len then
      read_block mem size max_len block_id fuel (j + 1)
        (Function.update buffer bytes_read (xor55 (mem (block_id * BLOCK_SIZE + j))))
        (bytes_read + 1)
    else (buffer, bytes_read)

/-- The `while (bytes_read < inode->size && bytes_read < max_len)` loop of `read_file`. -/
def read_loop (fs : simplefs) (ino : inode) (max_len : Int) :
    Nat → Nat → (Nat → Nat) → Nat → (Nat → Nat) × Nat
  | 0, _, buffer, bytes_read => (buffer, bytes_read)
  | fuel + 1, block_idx, buffer, bytes_read =>
    if bytes_read < ino.size ∧ (bytes_read : Int) < max_len then
      let actual_block_id :=
        if block_idx < 12 then ino.blocks block_idx
        else read_int fs.blocks (ino.indirect_block * BLOCK_SIZE + 4 * (block_idx - 12))
      let r := read_block fs.blocks ino.size max_len actual_block_id BLOCK_SIZE 0 buffer bytes_read
      read_loop fs ino max_len fuel (block_idx + 1) r.1 r.2
    else (buffer, bytes_read)

/-- The permission test of `read_file` (lines 84-91). -/
def can_read (ino : inode) (uid gid : Int) : Bool :=
  if uid = ino.owner_uid then ino.permissions.getD 0 0 = 114
  else if gid = ino.group_id then ino.permissions.getD 3 0 = 114
  else ino.permissions.getD 6 0 = 114

/-- The text of the log line of `read_file`. -/
def fmt_read_file (name : List Nat) (uid gid : Int) : List Nat :=
  str "Read file " ++ cstr name ++ str " (UID:" ++ fmt_d uid ++ str " GID:" ++ fmt_d gid
    ++ str ")"

/-- What `read_file` leaves behind: the state, the caller's buffer, the return value. -/
structure read_result where
  fs : simplefs
  buffer : Nat → Nat
  ret : Int

/-- `read_file`.  The first argument bounds the depth of the recursion through soft
links: `none` means that the depth was not enough.  The `while` loop copies at least
one byte per round, so `inode->size` rounds are never exceeded. -/
def read_file : Nat → simplefs → List Nat → Int → Int → (Nat → Nat) → Int → Int →
    Option read_result
  | 0, _, _, _, _, _, _, _ => none
  | depth + 1, fs, name, uid, gid, buffer, max_len, now =>
    match find_entry fs name with
    | none => some { fs := fs, buffer := buffer, ret := -1 }
    | some i =>
      if (fs.directory i).is_soft_link ≠ 0 then
        read_file depth fs (fs.directory i).link_path uid gid buffer max_len now
      else
        let ino := fs.inodes (fs.directory i).inode_id
        if can_read ino uid gid = false then some { fs := fs, buffer := buffer, ret := -1 }
        else
          let r := read_loop fs ino max_len ino.size 0 buffer 0
          let log := make_log (fs.logs (fs.log_count % MAX_LOGS)) (fmt_read_file name uid gid)
            ino.id now
          some { fs := { fs with logs := Function.update fs.logs (fs.log_count % MAX_LOGS) log,
                                 log_count := fs.log_count + 1 },
                 buffer := Function.update r.1 r.2 0,
                 ret := (r.2 : Int) }

/-! ## Links -/

/-- The text of the log line of `create_hard_link`. -/
def fmt_hard_link (new_name existing_name : List Nat) (uid : Int) : List Nat :=
  str "Created hard link " ++ cstr new_name ++ str " to " ++ cstr existing_name
    ++ str " by UID " ++ fmt_d uid

/-- `create_hard_link`. -/
def create_hard_link (fs : simplefs) (existing_name new_name : List Nat) (uid : Int)
    (now : Int) : simplefs × Int :=
  match find_entry fs existing_name with
  | none => (fs, -1)
  | some i =>
    let k := (fs.directory i).inode_id
    let ino := fs.inodes k
    if ino.owner_uid ≠ uid ∧ ¬ (ino.permissions.getD 7 0 = 119) then (fs, -1)
    else
      let ino1 : inode := { ino with ref_count := ino.ref_count + 1 }
      let entry : dir_entry :=
        { fs.directory fs.dir_count with
          name := strncpy new_name MAX_NAME, inode_id := ino1.id, is_soft_link := 0 }
      let log := make_log (fs.logs (fs.log_count % MAX_LOGS))
        (fmt_hard_link new_name existing_name uid) ino1.id now
      ({ fs with
         inodes := Function.update fs.inodes k ino1,
         directory := Function.update fs.directory fs.dir_count entry,
         logs := Function.update fs.logs (fs.log_count % MAX_LOGS) log,
         dir_count := fs.dir_count + 1,
         log_count := fs.log_count + 1 }, 0)

/-- The text of the log line of `create_soft_link`. -/
def fmt_soft_link (new_name existing_name : List Nat) (uid : Int) : List Nat :=
  str "Created soft link " ++ cstr new_name ++ str " to " ++ cstr existing_name
    ++ str " by UID " ++ fmt_d uid

/-- `create_soft_link`. -/
def create_soft_link (fs : simplefs) (existing_name new_name : List Nat) (uid : Int)
    (now : Int) : simplefs × Int :=
  let entry : dir_entry :=
    { fs.directory fs.dir_count with
      name := strncpy new_name MAX_NAME, link_path := strncpy existing_name MAX_NAME,
      is_soft_link := 1 }
  let log := make_log (fs.logs (fs.log_count % MAX_LOGS))
    (fmt_soft_link new_name existing_name uid) (-1) now
  ({ fs with
     directory := Function.update fs.directory fs.dir_count entry,
     logs := Function.update fs.logs (fs.log_count % MAX_LOGS) log,
     dir_count := fs.dir_count + 1,
     log_count := fs.log_count + 1 }, 0)

/-! ## `print_logs` -/

/-- The verification of one log entry in `print_logs`: `true` for `OK`, `false` for
`TAMPERED!`. -/
def log_verified (log : log_entry) : Bool :=
  calculate_hash log.operation log.related_inode_id log.timestamp = log.hash

/-- One printed line of `print_logs`: timestamp, operation, hash, status. -/
def log_line (log : log_entry) : Int × List Nat × Nat × List Nat :=
  (log.timestamp, cstr log.operation, log.hash,
    if log_verified log then str "OK" else str "TAMPERED!")

/-- The loop `for (i = 0; i < fs->log_count && i < MAX_LOGS; i++)` of `print_logs`. -/
def print_logs_loop (fs : simplefs) : Nat → Nat → List (Int × List Nat × Nat × List Nat)
  | 0, _ => []
  | fuel + 1, i =>
    if i < fs.log_count ∧ i < MAX_LOGS then log_line (fs.logs i) :: print_logs_loop fs fuel (i + 1)
    else []

/-- `print_logs`: the lines it prints after the header. -/
def print_logs (fs : simplefs) : List (Int × List Nat × Nat × List Nat) :=
  print_logs_loop fs MAX_LOGS 0

/-- The test driver's attack (`fs_test.c` line 47): `strcpy(fs.logs[i].operation, text)`. -/
def tamper_log (fs : simplefs) (i : Nat) (text : List Nat) : simplefs :=
  let log : log_entry :=
    { fs.logs i with
      operation := cstr text ++ 0 :: (fs.logs i).operation.drop (strlen text + 1) }
  { fs with logs := Function.update fs.logs i log }

/-! ## Derived notions used by the statements -/

/-- Byte `k` of the little-endian encoding of `v`. -/
def le_byte (v k : Nat) : Nat := v / 256 ^ k % 256

/-- `num_blocks_needed` of `create_file` for a payload of `size` bytes:
`(size + BLOCK_SIZE - 1) / BLOCK_SIZE`. -/
def blocks_needed (size : Nat) : Nat := (size + BLOCK_SIZE - 1) / BLOCK_SIZE

/-- The number of blocks `create_file` takes from the pool for a payload of `size`
bytes: the data blocks, and the indirect block when there are more than 12. -/
def blocks_used (size : Nat) : Nat :=
  if blocks_needed size > 12 then blocks_needed size + 1 else blocks_needed size

/-- The block in which the `while` loop of `read_file` looks for file block `block_idx`
(lines 101-106). -/
def block_of (blocks : Nat → Nat) (ino : inode) (block_idx : Nat) : Nat :=
  if block_idx < 12 then ino.blocks block_idx
  else read_int blocks (ino.indirect_block * BLOCK_SIZE + 4 * (block_idx - 12))

/-- Byte `k` of the file of an inode, decoded from the block store the way `read_file`
does it (line 109). -/
def file_byte (blocks : Nat → Nat) (ino : inode) (k : Nat) : Nat :=
  xor55 (blocks (block_of blocks ino (k / BLOCK_SIZE) * BLOCK_SIZE + k % BLOCK_SIZE))

/-- The number of bytes the `while` loop of `read_file` copies: it stops at
`inode->size` or at `max_len`, whichever comes first. -/
def read_limit (size : Nat) (max_len : Int) : Nat := min size max_len.toNat

/-- A state for examples: the second `create_file` of the test driver (`fs_test.c` line 26),
run on a fresh file system. -/
def secret_fs : simplefs :=
  (create_file init_fs (str "secret.txt") (str "rw-r-----") 1000 100 (str "Group Secret Data")
    5 6).1

/-- The states the program can be in: `init_fs`, then any sequence of calls of the
four operations, with any arguments. -/
inductive Reachable : simplefs → Prop
  | init : Reachable init_fs
  | step_create_file (fs : simplefs) (name permissions : List Nat) (uid gid : Int)
      (data : List Nat) (now_inode now_log : Int) :
      Reachable fs → Reachable (create_file fs name permissions uid gid data now_inode now_log).1
  | step_read_file (depth : Nat) (fs : simplefs) (name : List Nat) (uid gid : Int)
      (buffer : Nat → Nat) (max_len now : Int) (r : read_result) :
      Reachable fs → read_file depth fs name uid gid buffer max_len now = some r →
      Reachable r.fs
  | step_create_hard_link (fs : simplefs) (existing_name new_name : List Nat) (uid now : Int) :
      Reachable fs → Reachable (create_hard_link fs existing_name new_name uid now).1
  | step_create_soft_link (fs : simplefs) (existing_name new_name : List Nat) (uid now : Int) :
      Reachable fs → Reachable (create_soft_link fs existing_name new_name uid now).1

/-- A state for examples: files `a` (payload `A`) and `b` (payload `BB`) of user 1, then
the soft link `s` to `b`. -/
def linked_fs : simplefs :=
  (create_soft_link
    (create_file
      (create_file init_fs (str "a") (str "r--------") 1 1 (str "A") 5 6).1
      (str "b") (str "r--------") 1 1 (str "BB") 7 8).1
    (str "b") (str "s") 1 9).1

/-- A state for examples: the file `a` (payload `x`) of user 1. -/
def one_file_fs : simplefs :=
  (create_file init_fs (str "a") (str "r--------") 1 1 (str "x") 5 6).1

/-- A state for examples: 128 empty files created one after the other on a fresh file
system; the inode table is full. -/
def full_inodes_fs : simplefs :=
  (fun fs => (create_file fs (str "f") (str "rw-r--r--") 1 1 [] 5 6).1)^[128] init_fs

/-- A state for examples: the file `a` of user 1 with permissions `rw-rw----` (group
write allowed, other write not). -/
def group_write_fs : simplefs :=
  (create_file init_fs (str "a") (str "rw-rw----") 1 1 (str "x") 5 6).1

/-- A state for examples: the file `a` of user 1 with permissions `rw-----w-` (other
write allowed, group write not). -/
def other_write_fs : simplefs :=
  (create_file init_fs (str "a") (str "rw-----w-") 1 1 (str "x") 5 6).1

/-- A state for examples: the file `a` of user 1, then 127 soft links to it; the
directory table is full (128 entries) and 127 inodes are free. -/
def full_dir_fs : simplefs :=
  (fun fs => (create_soft_link fs (str "a") (str "l") 1 9).1)^[127] one_file_fs

/-- A state for examples: on a fresh file system, the soft link `s` to the unbound name
`x`, then `create_hard_link(fs, "s", "h", 0)`: the entry `h` is bound to inode 0, which
no `create_file` has made yet. -/
def phantom_fs : simplefs :=
  (create_hard_link (create_soft_link init_fs (str "x") (str "s") 0 5).1 (str "s") (str "h")
    0 6).1

/-- The number of directory entries that are not soft links and hold the inode id `k`. -/
def link_count (fs : simplefs) (k : Nat) : Nat :=
  ((List.range fs.dir_count).filter
    (fun j => (fs.directory j).is_soft_link = 0 ∧ (fs.directory j).inode_id = k)).length

/-- The name `read_file` looks up after `name`: the target of the first entry that
matches `name`, when that entry is a soft link (lines 76-79). -/
def link_target (fs : simplefs) (name : List Nat) : Option (List Nat) :=
  match find_entry fs name with
  | none => none
  | some i =>
    if (fs.directory i).is_soft_link ≠ 0 then some (fs.directory i).link_path else none

/-- The names `read_file` looks up one after the other: `name`, then the target of each
soft link; `none` once the lookup has ended. -/
def link_chain (fs : simplefs) (name : List Nat) : Nat → Option (List Nat)
  | 0 => some name
  | k + 1 => (link_chain fs name k).bind (link_target fs)

/-- The states reached from `init_fs` within the block capacity: any sequence of calls
of the four operations in which every `create_file` is given a payload that fits in the
free part of the block pool. -/
inductive ReachableInPool : simplefs → Prop
  | init : ReachableInPool init_fs
  | step_create_file (fs : simplefs) (name permissions : List Nat) (uid gid : Int)
      (data : List Nat) (now_inode now_log : Int) :
      ReachableInPool fs → fs.block_count + blocks_used (strlen data) ≤ MAX_BLOCKS →
      ReachableInPool (create_file fs name permissions uid gid data now_inode now_log).1
  | step_read_file (depth : Nat) (fs : simplefs) (name : List Nat) (uid gid : Int)
      (buffer : Nat → Nat) (max_len now : Int) (r : read_result) :
      ReachableInPool fs → read_file depth fs name uid gid buffer max_len now = some r →
      ReachableInPool r.fs
  | step_create_hard_link (fs : simplefs) (existing_name new_name : List Nat) (uid now : Int) :
      ReachableInPool fs → ReachableInPool (create_hard_link fs existing_name new_name uid now).1
  | step_create_soft_link (fs : simplefs) (existing_name new_name : List Nat) (uid now : Int) :
      ReachableInPool fs → ReachableInPool (create_soft_link fs existing_name new_name uid now).1

/-- The roles in which an inode refers to a block: direct slot `slot`, the indirect
block, or entry `slot - 12` of the pointer sequence in the indirect block (file block
`slot`, from 12 on). -/
inductive block_role where
  | direct (slot : Nat) : block_role
  | indirect : block_role
  | pointer (slot : Nat) : block_role

/-- Inode `k` refers to block `x` in the given role; only the slots that the size of the
file puts in use count. -/
def references (fs : simplefs) (k : Nat) : block_role → Nat → Prop
  | block_role.direct t, x =>
    t < min (blocks_needed (fs.inodes k).size) 12 ∧ (fs.inodes k).blocks t = x
  | block_role.indirect, x =>
    12 < blocks_needed (fs.inodes k).size ∧ (fs.inodes k).indirect_block = x
  | block_role.pointer t, x =>
    12 ≤ t ∧ t < blocks_needed (fs.inodes k).size ∧
      read_int fs.blocks ((fs.inodes k).indirect_block * BLOCK_SIZE + 4 * (t - 12)) = x

/-- The position at which `create_file` draws the block of a role: direct slots first,
then the indirect block, then the blocks of the pointer sequence. -/
def role_rank : block_role → Nat
  | block_role.direct t => t
  | block_role.indirect => 12
  | block_role.pointer t => t + 1

/-- The number of blocks taken by the inodes before inode `k`. -/
def first_block (fs : simplefs) : Nat → Nat
  | 0 => 0
  | k + 1 => first_block fs k + blocks_used (fs.inodes k).size

/-- The layout that `create_file` gives the block pool: the inodes take consecutive
ranges of blocks, inode `k` from `first_block fs k` on; its direct slots hold the first
ids of its range, then comes its indirect block, whose pointer sequence holds the ids
that follow; `block_count` is the end of the last range. -/
def block_layout (fs : simplefs) : Prop :=
  fs.block_count = first_block fs fs.inode_count ∧ fs.block_count ≤ MAX_BLOCKS ∧
  ∀ k, k < fs.inode_count →
    (∀ t, t < min (blocks_needed (fs.inodes k).size) 12 →
      (fs.inodes k).blocks t = first_block fs k + t) ∧
    (12 < blocks_needed (fs.inodes k).size →
      (fs.inodes k).indirect_block = first_block fs k + 12 ∧
      ∀ t, 12 ≤ t → t < blocks_needed (fs.inodes k).size →
        read_int fs.blocks ((first_block fs k + 12) * BLOCK_SIZE + 4 * (t - 12)) =
          first_block fs k + 1 + t)

/-- The states reached from `init_fs` inside the tables by calls that never point
`create_hard_link` at a soft link: every `create_file` finds a free directory slot and is
given a payload that fits in the free part of the block pool, every link finds a free
directory slot, the names looked up are shorter than `MAX_NAME`, and the first entry
that matches the source name of a `create_hard_link`, when there is one, is a regular
entry. -/
inductive ReachableRegular : simplefs → Prop
  | init : ReachableRegular init_fs
  | step_create_file (fs : simplefs) (name permissions : List Nat) (uid gid : Int)
      (data : List Nat) (now_inode now_log : Int) :
      ReachableRegular fs → fs.dir_count < MAX_INODES →
      fs.block_count + blocks_used (strlen data) ≤ MAX_BLOCKS →
      ReachableRegular (create_file fs name permissions uid gid data now_inode now_log).1
  | step_read_file (depth : Nat) (fs : simplefs) (name : List Nat) (uid gid : Int)
      (buffer : Nat → Nat) (max_len now : Int) (r : read_result) :
      ReachableRegular fs → strlen name < MAX_NAME →
      read_file depth fs name uid gid buffer max_len now = some r →
      ReachableRegular r.fs
  | step_create_hard_link (fs : simplefs) (existing_name new_name : List Nat) (uid now : Int) :
      ReachableRegular fs → fs.dir_count < MAX_INODES → strlen existing_name < MAX_NAME →
      (∀ i, find_entry fs existing_name = some i → (fs.directory i).is_soft_link = 0) →
      ReachableRegular (create_hard_link fs existing_name new_name uid now).1
  | step_create_soft_link (fs : simplefs) (existing_name new_name : List Nat) (uid now : Int) :
      ReachableRegular fs → fs.dir_count < MAX_INODES → strlen existing_name < MAX_NAME →
      ReachableRegular (create_soft_link fs existing_name new_name uid now).1

/-- The link invariant: the inodes in use carry their index as id, every regular
directory entry holds the id of an inode in use, and the `ref_count` of every inode in
use is the number of regular entries that hold its id. -/
def link_invariant (fs : simplefs) : Prop :=
  (∀ k, k < fs.inode_count → (fs.inodes k).id = k) ∧
  (∀ j, j < fs.dir_count → (fs.directory j).is_soft_link = 0 →
    (fs.directory j).inode_id < fs.inode_count) ∧
  (∀ k, k < fs.inode_count → (fs.inodes k).ref_count = link_count fs k)

/-- The states the program reaches while every call stays inside the tables of
`struct simplefs` and looks up names that fit the name field: each `create_file` finds a
free directory slot and is given a payload that fits in the free part of the block pool,
each link finds a free directory slot, and the names that are looked up (the `name` of
`read_file`, the `existing_name` of `create_hard_link`, and the target of a soft link,
which a later `read_file` looks up) are shorter than `MAX_NAME`.  In these states the
tables of the embedding are the arrays of the C program. -/
inductive ReachableInBounds : simplefs → Prop
  | init : ReachableInBounds init_fs
  | step_create_file (fs : simplefs) (name permissions : List Nat) (uid gid : Int)
      (data : List Nat) (now_inode now_log : Int) :
      ReachableInBounds fs → fs.dir_count < MAX_INODES →
      fs.block_count + blocks_used (strlen data) ≤ MAX_BLOCKS →
      ReachableInBounds (create_file fs name permissions uid gid data now_inode now_log).1
  | step_read_file (depth : Nat) (fs : simplefs) (name : List Nat) (uid gid : Int)
      (buffer : Nat → Nat) (max_len now : Int) (r : read_result) :
      ReachableInBounds fs → strlen name < MAX_NAME →
      read_file depth fs name uid gid buffer max_len now = some r →
      ReachableInBounds r.fs
  | step_create_hard_link (fs : simplefs) (existing_name new_name : List Nat) (uid now : Int) :
      ReachableInBounds fs → fs.dir_count < MAX_INODES → strlen existing_name < MAX_NAME →
      ReachableInBounds (create_hard_link fs existing_name new_name uid now).1
  | step_create_soft_link (fs : simplefs) (existing_name new_name : List Nat) (uid now : Int) :
      ReachableInBounds fs → fs.dir_count < MAX_INODES → strlen existing_name < MAX_NAME →
      ReachableInBounds (create_soft_link fs existing_name new_name uid now).1

/-! # Lemmas -/

/-! ## States reached in bounds -/

/-- A state reached in bounds is a reachable state. -/
theorem reachable_of_in_bounds (fs : simplefs) (h : ReachableInBounds fs) : Reachable fs := by
  induction h with
  | init => exact Reachable.init
  | step_create_file fs name permissions uid gid data now_inode now_log _ _ _ ih =>
    exact Reachable.step_create_file fs name permissions uid gid data now_inode now_log ih
  | step_read_file depth fs name uid gid buffer max_len now r _ _ hr ih =>
    exact Reachable.step_read_file depth fs name uid gid buffer max_len now r ih hr
  | step_create_hard_link fs existing_name new_name uid now _ _ _ ih =>
    exact Reachable.step_create_hard_link fs existing_name new_name uid now ih
  | step_create_soft_link fs existing_name new_name uid now _ _ _ ih =>
    exact Reachable.step_create_soft_link fs existing_name new_name uid now ih

/-- The example state `one_file_fs` is reached in bounds. -/
theorem in_bounds_one_file_fs : ReachableInBounds one_file_fs :=
  ReachableInBounds.step_create_file init_fs (str "a") (str "r--------") 1 1 (str "x") 5 6
    ReachableInBounds.init (by decide) (by decide)

/-- The example state `secret_fs` is reached in bounds. -/
theorem in_bounds_secret_fs : ReachableInBounds secret_fs :=
  ReachableInBounds.step_create_file init_fs (str "secret.txt") (str "rw-r-----") 1000 100
    (str "Group Secret Data") 5 6 ReachableInBounds.init (by decide) (by decide)

/-- The example state `other_write_fs` is reached in bounds. -/
theorem in_bounds_other_write_fs : ReachableInBounds other_write_fs :=
  ReachableInBounds.step_create_file init_fs (str "a") (str "rw-----w-") 1 1 (str "x") 5 6
    ReachableInBounds.init (by decide) (by decide)

/-- The example state `linked_fs` is reached in bounds. -/
theorem in_bounds_linked_fs : ReachableInBounds linked_fs :=
  ReachableInBounds.step_create_soft_link _ (str "b") (str "s") 1 9
    (ReachableInBounds.step_create_file _ (str "b") (str "r--------") 1 1 (str "BB") 7 8
      (ReachableInBounds.step_create_file init_fs (str "a") (str "r--------") 1 1 (str "A") 5 6
        ReachableInBounds.init (by decide) (by decide))
      (by decide) (by decide))
    (by decide) (by decide)

/-- A state reached in bounds is reached within the block capacity. -/
theorem in_pool_of_in_bounds (fs : simplefs) (h : ReachableInBounds fs) :
    ReachableInPool fs := by
  induction h with
  | init => exact ReachableInPool.init
  | step_create_file fs name permissions uid gid data now_inode now_log _ _ hfit ih =>
    exact ReachableInPool.step_create_file fs name permissions uid gid data now_inode now_log
      ih hfit
  | step_read_file depth fs name uid gid buffer max_len now r _ _ hr ih =>
    exact ReachableInPool.step_read_file depth fs name uid gid buffer max_len now r ih hr
  | step_create_hard_link fs existing_name new_name uid now _ _ _ ih =>
    exact ReachableInPool.step_create_hard_link fs existing_name new_name uid now ih
  | step_create_soft_link fs existing_name new_name uid now _ _ _ ih =>
    exact ReachableInPool.step_create_soft_link fs existing_name new_name uid now ih

/-! ## C strings -/
theorem cstr_no_nul (s : List Nat) : ∀ c ∈ cstr s, c ≠ 0 := by
  induction s with
  | nil => simp [cstr]
  | cons a s ih =>
    unfold cstr
    split
    · simp
    · intro c hc
      rcases List.mem_cons.1 hc with h | h
      · subst h; assumption
      · exact ih c h

theorem cstr_of_no_nul (s : List Nat) (h : ∀ c ∈ s, c ≠ 0) : cstr s = s := by
  induction s with
  | nil => rfl
  | cons a s ih =>
    have ha : a ≠ 0 := h a (List.mem_cons_self _ _)
    have hs : ∀ c ∈ s, c ≠ 0 := fun c hc => h c (List.mem_cons_of_mem _ hc)
    simp [cstr, ha, ih hs]

theorem cstr_cstr (s : List Nat) : cstr (cstr s) = cstr s :=
  cstr_of_no_nul _ (cstr_no_nul s)

theorem cstr_append_nul (s t : List Nat) (h : ∀ c ∈ s, c ≠ 0) : cstr (s ++ 0 :: t) = s := by
  induction s with
  | nil => simp [cstr]
  | cons a s ih =>
    have ha : a ≠ 0 := h a (List.mem_cons_self _ _)
    have hs : ∀ c ∈ s, c ≠ 0 := fun c hc => h c (List.mem_cons_of_mem _ hc)
    simp [cstr, ha, ih hs]

theorem cstr_append_replicate (s : List Nat) (k : Nat) (h : ∀ c ∈ s, c ≠ 0) :
    cstr (s ++ List.replicate k 0) = s := by
  cases k with
  | zero => simpa using cstr_of_no_nul s h
  | succ k => simpa [List.replicate_succ] using cstr_append_nul s (List.replicate k 0) h

theorem cstr_strncpy (s : List Nat) (n : Nat) (h : strlen s ≤ n) : cstr (strncpy s n) = cstr s := by
  unfold strncpy
  have h1 : (cstr s).take n = cstr s := List.take_of_length_le h
  rw [h1]
  exact cstr_append_replicate _ _ (cstr_no_nul s)

theorem strcmp_eq_zero_iff (a b : List Nat) : strcmp a b = 0 ↔ cstr a = cstr b := by
  induction a generalizing b with
  | nil =>
    cases b with
    | nil => simp [strcmp, cstr]
    | cons y t =>
      by_cases hy : y = 0
      · simp [strcmp, cstr, hy]
      · simp [strcmp, cstr, hy]
  | cons x s ih =>
    cases b with
    | nil =>
      by_cases hx : x = 0
      · simp [strcmp, cstr, hx]
      · simp [strcmp, cstr, hx]
    | cons y t =>
      unfold strcmp
      by_cases hxy : x = y
      · subst hxy
        by_cases hx : x = 0
        · simp [cstr, hx]
        · simp [cstr, hx, ih]
      · have hne : (x : Int) - (y : Int) ≠ 0 := by omega
        simp only [ne_eq, hxy, not_false_eq_true, if_true, hne, false_iff]
        unfold cstr
        by_cases hx : x = 0 <;> by_cases hy : y = 0 <;> simp [hx, hy, hxy]
        · omega

/-! ## The allocation loops of `create_file` -/

/-- Closed form of the block-filling loop. -/
theorem write_block_eq (data : List Nat) (size blk : Nat) :
    ∀ (fuel j : Nat) (mem : Nat → Nat) (off : Nat), j + fuel ≤ BLOCK_SIZE →
      write_block data size blk fuel j mem off =
        (fun a => if blk * BLOCK_SIZE + j ≤ a ∧ a < blk * BLOCK_SIZE + j + min fuel (size - off)
            then xor55 (data.getD (off + (a - (blk * BLOCK_SIZE + j))) 0) else mem a,
          off + min fuel (size - off)) := by
  intro fuel
  induction fuel with
  | zero =>
    intro j mem off _
    refine Prod.ext ?_ (by simp [write_block])
    funext a
    simp only [write_block]
    rw [if_neg (by omega)]
  | succ n ih =>
    intro j mem off hj
    unfold write_block
    by_cases hoff : off < size
    · have hjb : j < BLOCK_SIZE := by omega
      rw [if_pos ⟨hjb, hoff⟩, ih (j + 1) _ (off + 1) (by omega)]
      have hmin : min (n + 1) (size - off) = min n (size - (off + 1)) + 1 := by omega
      refine Prod.ext ?_ (by simp only [hmin]; omega)
      funext a
      simp only [hmin, Function.update_apply]
      by_cases h1 : blk * BLOCK_SIZE + (j + 1) ≤ a ∧
          a < blk * BLOCK_SIZE + (j + 1) + min n (size - (off + 1))
      · have h2 : blk * BLOCK_SIZE + j ≤ a ∧
            a < blk * BLOCK_SIZE + j + (min n (size - (off + 1)) + 1) := by omega
        rw [if_pos h1, if_pos h2]
        congr 2
        omega
      · rw [if_neg h1]
        by_cases h3 : a = blk * BLOCK_SIZE + j
        · subst h3
          rw [if_pos rfl, if_pos (by omega)]
          simp
        · rw [if_neg h3, if_neg (by omega)]
    · rw [if_neg (by omega)]
      have hmin : min (n + 1) (size - off) = 0 := by omega
      refine Prod.ext ?_ (by simp [hmin])
      funext a
      simp only [hmin]
      rw [if_neg (by omega)]


/-- Closed form of the loop over the direct slots. -/
theorem direct_loop_eq (data : List Nat) (size nb : Nat) :
    ∀ (fuel i : Nat) (s : alloc_state), 12 ≤ i + fuel →
      direct_loop data size nb fuel i s =
        { blocks := fun a =>
            if s.block_count * BLOCK_SIZE ≤ a ∧
                a < s.block_count * BLOCK_SIZE +
                  min ((min nb 12 - i) * BLOCK_SIZE) (size - s.data_offset)
            then xor55 (data.getD (s.data_offset + (a - s.block_count * BLOCK_SIZE)) 0)
            else s.blocks a,
          block_count := s.block_count + (min nb 12 - i),
          ino := { s.ino with
            blocks := fun t =>
              if i ≤ t ∧ t < min nb 12 then s.block_count + (t - i) else s.ino.blocks t },
          data_offset := s.data_offset + min ((min nb 12 - i) * BLOCK_SIZE) (size - s.data_offset) } := by
  intro fuel
  induction fuel with
  | zero =>
    intro i s h
    have hm : min nb 12 - i = 0 := by omega
    obtain ⟨b, bc, ino, off⟩ := s
    simp only [direct_loop, hm, Nat.zero_mul, Nat.zero_min, add_zero, alloc_state.mk.injEq,
      true_and, and_true]
    constructor
    · funext a
      rw [if_neg (by omega)]
    · obtain ⟨a1, a2, a3, a4, a5, a6, a7, a8, a9⟩ := ino
      simp only [inode.mk.injEq, true_and, and_true]
      funext t
      rw [if_neg (by omega)]
  | succ n ih =>
    intro i s h
    obtain ⟨b, bc, ino, off⟩ := s
    unfold direct_loop
    by_cases hc : i < nb ∧ i < 12
    · rw [if_pos hc]
      simp only []
      rw [write_block_eq data size bc BLOCK_SIZE 0 b off (by omega), ih (i + 1) _ (by omega)]
      simp only [BLOCK_SIZE, alloc_state.mk.injEq, add_zero]
      refine ⟨?_, by omega, ?_, by omega⟩
      · funext a
        by_cases h1 : (bc + 1) * 4096 ≤ a ∧ a < (bc + 1) * 4096 +
            min ((min nb 12 - (i + 1)) * 4096) (size - (off + min 4096 (size - off)))
        · rw [if_pos h1, if_pos (by omega)]
          congr 2
          omega
        · rw [if_neg h1]
          by_cases h2 : bc * 4096 ≤ a ∧ a < bc * 4096 + min 4096 (size - off)
          · rw [if_pos h2, if_pos (by omega)]
          · rw [if_neg h2, if_neg (by omega)]
      · obtain ⟨a1, a2, a3, a4, a5, a6, a7, a8, a9⟩ := ino
        simp only [inode.mk.injEq, true_and, and_true]
        funext t
        simp only [Function.update_apply]
        by_cases h1 : i + 1 ≤ t ∧ t < min nb 12
        · rw [if_pos h1, if_pos (by omega)]
          omega
        · rw [if_neg h1]
          by_cases h2 : t = i
          · subst h2
            rw [if_pos rfl, if_pos (by omega)]
            omega
          · rw [if_neg h2, if_neg (by omega)]
    · rw [if_neg hc]
      have hm : min nb 12 - i = 0 := by omega
      simp only [hm, Nat.zero_mul, Nat.zero_min, add_zero, alloc_state.mk.injEq,
        true_and, and_true]
      constructor
      · funext a
        rw [if_neg (by omega)]
      · obtain ⟨a1, a2, a3, a4, a5, a6, a7, a8, a9⟩ := ino
        simp only [inode.mk.injEq, true_and, and_true]
        funext t
        rw [if_neg (by omega)]


theorem write_int_eq (mem : Nat → Nat) (p v : Nat) :
    write_int mem p v = fun a => if p ≤ a ∧ a < p + 4 then le_byte v (a - p) else mem a := by
  funext a
  unfold write_int
  simp only [Function.update_apply]
  by_cases h3 : a = p + 3
  · subst h3
    rw [if_pos rfl, if_pos (by omega)]
    have : p + 3 - p = 3 := by omega
    rw [this]; rfl
  · rw [if_neg h3]
    by_cases h2 : a = p + 2
    · subst h2
      rw [if_pos rfl, if_pos (by omega)]
      have : p + 2 - p = 2 := by omega
      rw [this]; rfl
    · rw [if_neg h2]
      by_cases h1 : a = p + 1
      · subst h1
        rw [if_pos rfl, if_pos (by omega)]
        have : p + 1 - p = 1 := by omega
        rw [this]; rfl
      · rw [if_neg h1]
        by_cases h0 : a = p
        · subst h0
          rw [if_pos rfl, if_pos (by omega)]
          have : a - a = 0 := by omega
          rw [this]; simp [le_byte]
        · rw [if_neg h0, if_neg (by omega)]

theorem read_int_of_bytes (mem : Nat → Nat) (p v : Nat) (hv : v < 2 ^ 32)
    (h : ∀ k, k < 4 → mem (p + k) = le_byte v k) : read_int mem p = v := by
  unfold read_int
  have h0 := h 0 (by omega)
  have h1 := h 1 (by omega)
  have h2 := h 2 (by omega)
  have h3 := h 3 (by omega)
  simp only [le_byte, Nat.add_zero] at h0 h1 h2 h3
  rw [h0, h1, h2, h3]
  norm_num at hv ⊢
  omega


/-- Closed form of the loop over the indirect block, when the pointer area lies below
the data blocks that the loop fills. -/
theorem indirect_loop_eq (data : List Nat) (size nb ind : Nat) :
    ∀ (fuel i : Nat) (s : alloc_state), nb ≤ i + fuel → 12 ≤ i →
      ind * BLOCK_SIZE + 4 * (nb - 12) ≤ s.block_count * BLOCK_SIZE →
      indirect_loop data size nb ind fuel i s =
        { blocks := fun a =>
            if s.block_count * BLOCK_SIZE ≤ a ∧
                a < s.block_count * BLOCK_SIZE +
                  min ((nb - i) * BLOCK_SIZE) (size - s.data_offset)
            then xor55 (data.getD (s.data_offset + (a - s.block_count * BLOCK_SIZE)) 0)
            else if ind * BLOCK_SIZE + 4 * (i - 12) ≤ a ∧ a < ind * BLOCK_SIZE + 4 * (nb - 12)
            then le_byte (s.block_count + (a - (ind * BLOCK_SIZE + 4 * (i - 12))) / 4)
              ((a - (ind * BLOCK_SIZE + 4 * (i - 12))) % 4)
            else s.blocks a,
          block_count := s.block_count + (nb - i),
          ino := s.ino,
          data_offset := s.data_offset + min ((nb - i) * BLOCK_SIZE) (size - s.data_offset) } := by
  intro fuel
  induction fuel with
  | zero =>
    intro i s h h12 _
    have hm : nb - i = 0 := by omega
    obtain ⟨b, bc, ino, off⟩ := s
    simp only [indirect_loop, hm, Nat.zero_mul, Nat.zero_min, add_zero, alloc_state.mk.injEq,
      true_and, and_true]
    funext a
    rw [if_neg (by omega), if_neg (by omega)]
  | succ n ih =>
    intro i s h h12 hdis
    obtain ⟨b, bc, ino, off⟩ := s
    unfold indirect_loop
    by_cases hc : i < nb
    · rw [if_pos hc]
      simp only [] at hdis ⊢
      rw [write_int_eq, write_block_eq data size bc BLOCK_SIZE 0 _ off (by omega),
        ih (i + 1) _ (by omega) (by omega) (by simp only [BLOCK_SIZE] at hdis ⊢; omega)]
      simp only [BLOCK_SIZE, alloc_state.mk.injEq, add_zero, true_and] at hdis ⊢
      refine ⟨?_, by omega, by omega⟩
      funext a
      by_cases h1 : (bc + 1) * 4096 ≤ a ∧ a < (bc + 1) * 4096 +
          min ((nb - (i + 1)) * 4096) (size - (off + min 4096 (size - off)))
      · rw [if_pos h1, if_pos (by omega)]
        congr 2
        omega
      · rw [if_neg h1]
        by_cases h3 : ind * 4096 + 4 * (i + 1 - 12) ≤ a ∧ a < ind * 4096 + 4 * (nb - 12)
        · rw [if_pos h3, if_neg (by omega), if_pos (by omega)]
          congr 1 <;> omega
        · rw [if_neg h3]
          by_cases h2 : bc * 4096 ≤ a ∧ a < bc * 4096 + min 4096 (size - off)
          · rw [if_pos h2, if_pos (by omega)]
          · rw [if_neg h2]
            by_cases h4 : ind * 4096 + 4 * (i - 12) ≤ a ∧ a < ind * 4096 + 4 * (i - 12) + 4
            · rw [if_pos h4, if_neg (by omega), if_pos (by omega)]
              congr 1 <;> omega
            · rw [if_neg h4, if_neg (by omega), if_neg (by omega)]
    · rw [if_neg hc]
      have hm : nb - i = 0 := by omega
      simp only [hm, Nat.zero_mul, Nat.zero_min, add_zero, alloc_state.mk.injEq,
        true_and, and_true]
      funext a
      rw [if_neg (by omega), if_neg (by omega)]


/-- Closed form of the allocation when the direct slots suffice. -/
theorem allocate_small (fs : simplefs) (ino : inode) (data : List Nat)
    (h : blocks_needed ino.size ≤ 12) :
    allocate fs ino data =
      { blocks := fun a =>
          if fs.block_count * BLOCK_SIZE ≤ a ∧ a < fs.block_count * BLOCK_SIZE + ino.size
          then xor55 (data.getD (a - fs.block_count * BLOCK_SIZE) 0) else fs.blocks a,
        block_count := fs.block_count + blocks_needed ino.size,
        ino := { ino with
          blocks := fun t =>
            if t < blocks_needed ino.size then fs.block_count + t else ino.blocks t },
        data_offset := ino.size } := by
  unfold allocate
  simp only []
  have hnb : (ino.size + BLOCK_SIZE - 1) / BLOCK_SIZE = blocks_needed ino.size := rfl
  rw [hnb, if_neg (by omega), direct_loop_eq data ino.size _ 12 0 _ (by omega)]
  have hmin : min (blocks_needed ino.size) 12 = blocks_needed ino.size := by omega
  have hC : min (blocks_needed ino.size * BLOCK_SIZE) ino.size = ino.size := by
    unfold blocks_needed at *
    simp only [BLOCK_SIZE] at *
    omega
  simp only [hmin, hC, Nat.zero_add, Nat.sub_zero, Nat.zero_le, true_and]

/-- Closed form of the allocation when the indirect block is needed and can hold all
the pointers. -/
theorem allocate_large (fs : simplefs) (ino : inode) (data : List Nat)
    (h : 12 < blocks_needed ino.size) (hcap : blocks_needed ino.size - 12 ≤ BLOCK_SIZE / 4) :
    allocate fs ino data =
      { blocks := fun a =>
          if (fs.block_count + 13) * BLOCK_SIZE ≤ a ∧
              a < (fs.block_count + 13) * BLOCK_SIZE + (ino.size - 12 * BLOCK_SIZE)
          then xor55 (data.getD (12 * BLOCK_SIZE + (a - (fs.block_count + 13) * BLOCK_SIZE)) 0)
          else if (fs.block_count + 12) * BLOCK_SIZE ≤ a ∧
              a < (fs.block_count + 12) * BLOCK_SIZE + 4 * (blocks_needed ino.size - 12)
          then le_byte (fs.block_count + 13 + (a - (fs.block_count + 12) * BLOCK_SIZE) / 4)
            ((a - (fs.block_count + 12) * BLOCK_SIZE) % 4)
          else if fs.block_count * BLOCK_SIZE ≤ a ∧
              a < fs.block_count * BLOCK_SIZE + 12 * BLOCK_SIZE
          then xor55 (data.getD (a - fs.block_count * BLOCK_SIZE) 0) else fs.blocks a,
        block_count := fs.block_count + blocks_needed ino.size + 1,
        ino := { ino with
          blocks := fun t => if t < 12 then fs.block_count + t else ino.blocks t,
          indirect_block := fs.block_count + 12 },
        data_offset := ino.size } := by
  unfold allocate
  simp only []
  have hnb : (ino.size + BLOCK_SIZE - 1) / BLOCK_SIZE = blocks_needed ino.size := rfl
  rw [hnb, if_pos (by omega), direct_loop_eq data ino.size _ 12 0 _ (by omega)]
  have hmin : min (blocks_needed ino.size) 12 = 12 := by omega
  have hsz : 12 * BLOCK_SIZE < ino.size := by
    unfold blocks_needed at h
    simp only [BLOCK_SIZE] at *
    omega
  have hC : min (12 * BLOCK_SIZE) ino.size = 12 * BLOCK_SIZE := by omega
  simp only [hmin, Nat.zero_add, Nat.sub_zero, Nat.zero_le, true_and, hC]
  rw [indirect_loop_eq data ino.size _ _ _ 12 _ (by omega) (by omega)
    (by simp only [BLOCK_SIZE] at *; omega)]
  have hC2 : min ((blocks_needed ino.size - 12) * BLOCK_SIZE) (ino.size - 12 * BLOCK_SIZE) =
      ino.size - 12 * BLOCK_SIZE := by
    unfold blocks_needed at *
    simp only [BLOCK_SIZE] at *
    omega
  simp only [hC2, Nat.sub_self, mul_zero, add_zero, alloc_state.mk.injEq, true_and]
  omega


theorem xor55_xor55 (c : Nat) (h : c < 256) : xor55 (xor55 c) = c := by
  unfold xor55
  have h1 : c ^^^ 0x55 < 2 ^ 8 := Nat.xor_lt_two_pow (by omega) (by norm_num)
  have h2 : (c ^^^ 0x55) % 256 = c ^^^ 0x55 := Nat.mod_eq_of_lt (by omega)
  rw [h2, Nat.xor_assoc, Nat.xor_self, Nat.xor_zero]
  exact Nat.mod_eq_of_lt h

theorem block_of_direct (mem : Nat → Nat) (ino : inode) (idx : Nat) (h : idx < 12) :
    block_of mem ino idx = ino.blocks idx := by
  unfold block_of; rw [if_pos h]

theorem block_of_indirect (mem : Nat → Nat) (ino : inode) (idx : Nat) (h : ¬ idx < 12) :
    block_of mem ino idx =
      read_int mem (ino.indirect_block * BLOCK_SIZE + 4 * (idx - 12)) := by
  unfold block_of; rw [if_neg h]

theorem blocks_used_small (size : Nat) (h : blocks_needed size ≤ 12) :
    blocks_used size = blocks_needed size := by
  unfold blocks_used; rw [if_neg (by omega)]

theorem blocks_used_large (size : Nat) (h : 12 < blocks_needed size) :
    blocks_used size = blocks_needed size + 1 := by
  unfold blocks_used; rw [if_pos (by omega)]

/-- The allocation takes `blocks_used` blocks from the pool. -/
theorem allocate_block_count (fs : simplefs) (ino : inode) (data : List Nat)
    (hcap : blocks_needed ino.size - 12 ≤ BLOCK_SIZE / 4) :
    (allocate fs ino data).block_count = fs.block_count + blocks_used ino.size := by
  by_cases h : blocks_needed ino.size ≤ 12
  · rw [allocate_small fs ino data h, blocks_used_small _ h]
  · rw [allocate_large fs ino data (by omega) hcap, blocks_used_large _ (by omega)]
    simp only []
    omega

/-- The allocation changes no header field of the inode. -/
theorem allocate_ino_header (fs : simplefs) (ino : inode) (data : List Nat)
    (hcap : blocks_needed ino.size - 12 ≤ BLOCK_SIZE / 4) :
    (allocate fs ino data).ino.id = ino.id ∧ (allocate fs ino data).ino.size = ino.size ∧
    (allocate fs ino data).ino.permissions = ino.permissions ∧
    (allocate fs ino data).ino.ref_count = ino.ref_count ∧
    (allocate fs ino data).ino.owner_uid = ino.owner_uid ∧
    (allocate fs ino data).ino.group_id = ino.group_id ∧
    (allocate fs ino data).ino.timestamp = ino.timestamp := by
  by_cases h : blocks_needed ino.size ≤ 12
  · rw [allocate_small fs ino data h]
    simp only [and_self]
  · rw [allocate_large fs ino data (by omega) hcap]
    simp only [and_self]

/-- The allocation writes no byte below the first block it takes. -/
theorem allocate_frame_below (fs : simplefs) (ino : inode) (data : List Nat)
    (hcap : blocks_needed ino.size - 12 ≤ BLOCK_SIZE / 4) (a : Nat)
    (ha : a < fs.block_count * BLOCK_SIZE) :
    (allocate fs ino data).blocks a = fs.blocks a := by
  by_cases h : blocks_needed ino.size ≤ 12
  · rw [allocate_small fs ino data h]
    simp only []
    rw [if_neg (by omega)]
  · rw [allocate_large fs ino data (by omega) hcap]
    simp only [BLOCK_SIZE] at ha ⊢
    rw [if_neg (by omega), if_neg (by omega), if_neg (by omega)]

/-- After the allocation, the file of the inode decodes to the payload. -/
theorem allocate_file_byte (fs : simplefs) (ino : inode) (data : List Nat)
    (hfit : fs.block_count + blocks_used ino.size ≤ MAX_BLOCKS) (k : Nat) (hk : k < ino.size) :
    file_byte (allocate fs ino data).blocks (allocate fs ino data).ino k =
      xor55 (xor55 (data.getD k 0)) := by
  have hkd : k / BLOCK_SIZE < blocks_needed ino.size := by
    unfold blocks_needed; simp only [BLOCK_SIZE]; omega
  by_cases h : blocks_needed ino.size ≤ 12
  · rw [allocate_small fs ino data h]
    unfold file_byte
    rw [block_of_direct _ _ _ (by omega)]
    simp only [BLOCK_SIZE] at hkd ⊢
    rw [if_pos hkd, if_pos (by omega)]
    congr 3
    omega
  · have h12 : 12 < blocks_needed ino.size := by omega
    have hu := blocks_used_large _ h12
    have hcap : blocks_needed ino.size - 12 ≤ BLOCK_SIZE / 4 := by
      simp only [BLOCK_SIZE, MAX_BLOCKS] at *; omega
    rw [allocate_large fs ino data h12 hcap]
    unfold file_byte
    by_cases hd : k / BLOCK_SIZE < 12
    · rw [block_of_direct _ _ _ hd]
      simp only [BLOCK_SIZE, MAX_BLOCKS] at *
      rw [if_pos hd, if_neg (by omega), if_neg (by omega), if_pos (by omega)]
      congr 3
      omega
    · rw [block_of_indirect _ _ _ hd]
      rw [read_int_of_bytes _ _ (fs.block_count + 13 + (k / BLOCK_SIZE - 12))]
      · simp only [BLOCK_SIZE, MAX_BLOCKS] at *
        rw [if_pos (by omega)]
        congr 3
        omega
      · simp only [BLOCK_SIZE, MAX_BLOCKS] at *
        norm_num
        omega
      · intro t ht
        simp only [BLOCK_SIZE, MAX_BLOCKS] at *
        rw [if_neg (by omega), if_pos (by omega)]
        congr 1 <;> omega


/-! ## The copy loops of `read_file` -/

theorem read_block_eq (mem : Nat → Nat) (size : Nat) (max_len : Int) (blk : Nat) :
    ∀ (fuel j : Nat) (buf : Nat → Nat) (br : Nat), j + fuel ≤ BLOCK_SIZE →
      read_block mem size max_len blk fuel j buf br =
        (fun k => if br ≤ k ∧ k < br + min fuel (read_limit size max_len - br)
            then xor55 (mem (blk * BLOCK_SIZE + j + (k - br))) else buf k,
          br + min fuel (read_limit size max_len - br)) := by
  intro fuel
  induction fuel with
  | zero =>
    intro j buf br _
    refine Prod.ext ?_ (by simp [read_block])
    funext k
    simp only [read_block]
    rw [if_neg (by omega)]
  | succ n ih =>
    intro j buf br hj
    unfold read_block
    by_cases hc : br < size ∧ (br : Int) < max_len
    · have hjb : j < BLOCK_SIZE := by omega
      rw [if_pos ⟨hjb, hc⟩, ih (j + 1) _ (br + 1) (by omega)]
      have hlim : br < read_limit size max_len := by unfold read_limit; omega
      have hmin : min (n + 1) (read_limit size max_len - br) =
          min n (read_limit size max_len - (br + 1)) + 1 := by omega
      refine Prod.ext ?_ (by simp only [hmin]; omega)
      funext k
      simp only [hmin, Function.update_apply]
      by_cases h1 : br + 1 ≤ k ∧ k < br + 1 + min n (read_limit size max_len - (br + 1))
      · rw [if_pos h1, if_pos (by omega)]
        congr 2
        omega
      · rw [if_neg h1]
        by_cases h3 : k = br
        · subst h3
          rw [if_pos rfl, if_pos (by omega)]
          simp
        · rw [if_neg h3, if_neg (by omega)]
    · have hlim : ¬ br < read_limit size max_len := by unfold read_limit; omega
      rw [if_neg (by tauto)]
      have hmin : min (n + 1) (read_limit size max_len - br) = 0 := by omega
      refine Prod.ext ?_ (by simp [hmin])
      funext k
      simp only [hmin]
      rw [if_neg (by omega)]

theorem read_loop_eq (fs : simplefs) (ino : inode) (max_len : Int) :
    ∀ (fuel block_idx : Nat) (buf : Nat → Nat),
      read_limit ino.size max_len ≤ block_idx * BLOCK_SIZE + fuel →
      read_loop fs ino max_len fuel block_idx buf (block_idx * BLOCK_SIZE) =
        (fun k => if block_idx * BLOCK_SIZE ≤ k ∧ k < read_limit ino.size max_len
            then file_byte fs.blocks ino k else buf k,
          max (block_idx * BLOCK_SIZE) (read_limit ino.size max_len)) := by
  intro fuel
  induction fuel with
  | zero =>
    intro bi buf h
    refine Prod.ext ?_ (by simp only [read_loop]; omega)
    funext k
    simp only [read_loop]
    rw [if_neg (by omega)]
  | succ n ih =>
    intro bi buf h
    unfold read_loop
    have hact : (if bi < 12 then ino.blocks bi
        else read_int fs.blocks (ino.indirect_block * BLOCK_SIZE + 4 * (bi - 12))) =
        block_of fs.blocks ino bi := rfl
    have hfb : ∀ k, bi * 4096 ≤ k → k < (bi + 1) * 4096 →
        xor55 (fs.blocks (block_of fs.blocks ino bi * 4096 + 0 + (k - bi * 4096))) =
          file_byte fs.blocks ino k := by
      intro k hk1 hk2
      unfold file_byte
      have hd : k / BLOCK_SIZE = bi := by simp only [BLOCK_SIZE]; omega
      have hm : k % BLOCK_SIZE = k - bi * 4096 := by simp only [BLOCK_SIZE]; omega
      rw [hd, hm, Nat.add_zero]
    have hrb := read_block_eq fs.blocks ino.size max_len (block_of fs.blocks ino bi) BLOCK_SIZE 0 buf
      (bi * BLOCK_SIZE) (by omega)
    simp only [hact]
    rw [hrb]
    simp only [BLOCK_SIZE] at h ih ⊢
    by_cases hc : bi * 4096 < ino.size ∧ ((bi * 4096 : Nat) : Int) < max_len
    · rw [if_pos hc]
      have hlim : bi * 4096 < read_limit ino.size max_len := by unfold read_limit; omega
      by_cases hfull : bi * 4096 + 4096 ≤ read_limit ino.size max_len
      · have hmin : min 4096 (read_limit ino.size max_len - bi * 4096) = 4096 := by omega
        have hnext : bi * 4096 + 4096 = (bi + 1) * 4096 := by omega
        rw [hmin, hnext, ih (bi + 1) _ (by omega)]
        refine Prod.ext ?_ (by simp only []; omega)
        funext k
        simp only []
        by_cases h1 : (bi + 1) * 4096 ≤ k ∧ k < read_limit ino.size max_len
        · rw [if_pos h1, if_pos (by omega)]
        · rw [if_neg h1]
          by_cases h2 : bi * 4096 ≤ k ∧ k < (bi + 1) * 4096
          · rw [if_pos h2, if_pos (by omega)]
            exact hfb k h2.1 h2.2
          · rw [if_neg h2, if_neg (by omega)]
      · have hmin : min 4096 (read_limit ino.size max_len - bi * 4096) =
            read_limit ino.size max_len - bi * 4096 := by omega
        rw [hmin]
        have hend : bi * 4096 + (read_limit ino.size max_len - bi * 4096) =
            read_limit ino.size max_len := by omega
        rw [hend]
        have hstop : ¬ (read_limit ino.size max_len < ino.size ∧
            ((read_limit ino.size max_len : Nat) : Int) < max_len) := by
          unfold read_limit; omega
        have hrest : ∀ b, read_loop fs ino max_len n (bi + 1) b (read_limit ino.size max_len) =
            (b, read_limit ino.size max_len) := by
          intro b
          cases n with
          | zero => rfl
          | succ m => unfold read_loop; rw [if_neg hstop]
        rw [hrest]
        refine Prod.ext ?_ (by simp only []; omega)
        funext k
        simp only []
        by_cases h2 : bi * 4096 ≤ k ∧ k < read_limit ino.size max_len
        · rw [if_pos h2, if_pos h2]
          exact hfb k h2.1 (by omega)
        · rw [if_neg h2, if_neg h2]
    · rw [if_neg hc]
      have hlim : ¬ bi * 4096 < read_limit ino.size max_len := by unfold read_limit; omega
      refine Prod.ext ?_ (by simp only []; omega)
      funext k
      simp only []
      rw [if_neg (by omega)]


/-! ## The directory scan and `read_file` -/

theorem find_from_snoc (dir : Nat → dir_entry) (name : List Nat) (e : dir_entry) :
    ∀ (count i : Nat),
      find_from (Function.update dir (i + count) e) name (count + 1) i =
        match find_from dir name count i with
        | some j => some j
        | none => if strcmp e.name name = 0 then some (i + count) else none := by
  intro count
  induction count with
  | zero =>
    intro i
    simp [find_from]
  | succ n ih =>
    intro i
    have hne : i ≠ i + (n + 1) := by omega
    have hidx : i + (n + 1) = (i + 1) + n := by omega
    rw [find_from]
    rw [Function.update_noteq hne]
    by_cases hm : strcmp (dir i).name name = 0
    · rw [if_pos hm]
      conv => rhs; rw [find_from]
      rw [if_pos hm]
    · rw [if_neg hm]
      conv => rhs; rw [find_from]
      rw [if_neg hm, hidx, ih (i + 1)]

theorem find_from_spec (dir : Nat → dir_entry) (name : List Nat) :
    ∀ (count i j : Nat), find_from dir name count i = some j →
      i ≤ j ∧ j < i + count ∧ strcmp (dir j).name name = 0 ∧
        ∀ t, i ≤ t → t < j → strcmp (dir t).name name ≠ 0 := by
  intro count
  induction count with
  | zero => intro i j h; simp [find_from] at h
  | succ n ih =>
    intro i j h
    rw [find_from] at h
    by_cases hm : strcmp (dir i).name name = 0
    · rw [if_pos hm] at h
      have hij : i = j := by simpa using h
      subst hij
      exact ⟨le_refl _, by omega, hm, fun t h1 h2 => by omega⟩
    · rw [if_neg hm] at h
      obtain ⟨h1, h2, h3, h4⟩ := ih (i + 1) j h
      refine ⟨by omega, by omega, h3, ?_⟩
      intro t ht1 ht2
      by_cases hti : t = i
      · subst hti; exact hm
      · exact h4 t (by omega) ht2

theorem find_from_none (dir : Nat → dir_entry) (name : List Nat) :
    ∀ (count i : Nat), find_from dir name count i = none ↔
      ∀ t, i ≤ t → t < i + count → strcmp (dir t).name name ≠ 0 := by
  intro count
  induction count with
  | zero => intro i; simp [find_from]; intro t h1 h2; omega
  | succ n ih =>
    intro i
    rw [find_from]
    by_cases hm : strcmp (dir i).name name = 0
    · rw [if_pos hm]
      simp only [false_iff, reduceCtorEq]
      intro h
      exact h i (le_refl _) (by omega) hm
    · rw [if_neg hm, ih (i + 1)]
      constructor
      · intro h t h1 h2
        by_cases hti : t = i
        · subst hti; exact hm
        · exact h t (by omega) (by omega)
      · intro h t h1 h2
        exact h t (by omega) (by omega)

/-- What `read_file` does when the first entry that matches is a regular one. -/
theorem read_file_regular (depth : Nat) (fs : simplefs) (name : List Nat) (uid gid : Int)
    (buffer : Nat → Nat) (max_len now : Int) (i : Nat)
    (hfind : find_entry fs name = some i) (hreg : (fs.directory i).is_soft_link = 0) :
    read_file (depth + 1) fs name uid gid buffer max_len now =
      if can_read (fs.inodes (fs.directory i).inode_id) uid gid = false then
        some { fs := fs, buffer := buffer, ret := -1 }
      else
        some
          { fs := { fs with
              logs := Function.update fs.logs (fs.log_count % MAX_LOGS)
                (make_log (fs.logs (fs.log_count % MAX_LOGS)) (fmt_read_file name uid gid)
                  (fs.inodes (fs.directory i).inode_id).id now),
              log_count := fs.log_count + 1 },
            buffer := fun k =>
              if k < read_limit (fs.inodes (fs.directory i).inode_id).size max_len then
                file_byte fs.blocks (fs.inodes (fs.directory i).inode_id) k
              else if k = read_limit (fs.inodes (fs.directory i).inode_id).size max_len then 0
              else buffer k,
            ret := (read_limit (fs.inodes (fs.directory i).inode_id).size max_len : Nat) } := by
  rw [read_file, hfind]
  simp only [hreg, ne_eq, not_true_eq_false, if_false]
  by_cases hc : can_read (fs.inodes (fs.directory i).inode_id) uid gid = false
  · rw [if_pos hc, if_pos hc]
  · rw [if_neg hc, if_neg hc]
    have hl := read_loop_eq fs (fs.inodes (fs.directory i).inode_id) max_len
      (fs.inodes (fs.directory i).inode_id).size 0 buffer (by unfold read_limit; omega)
    simp only [Nat.zero_mul, Nat.zero_le, true_and, Nat.zero_max] at hl
    rw [hl]
    simp only [Option.some.injEq, read_result.mk.injEq, true_and, and_true]
    funext k
    simp only [Function.update_apply]
    by_cases h1 : k = read_limit (fs.inodes (fs.directory i).inode_id).size max_len
    · rw [if_pos h1, if_neg (by omega), if_pos h1]
    · rw [if_neg h1, if_neg h1]


/-! ## `create_file` followed by `read_file` -/

theorem create_file_guard (fs : simplefs) (name permissions : List Nat) (uid gid : Int)
    (data : List Nat) (now_inode now_log : Int)
    (h : (create_file fs name permissions uid gid data now_inode now_log).2 ≠ -1) :
    fs.inode_count < MAX_INODES ∧ fs.block_count < MAX_BLOCKS := by
  by_contra hc
  apply h
  unfold create_file
  rw [if_pos (by omega)]

/-- The state and the return value of a `create_file` that passes the capacity test. -/
theorem create_file_ok (fs : simplefs) (name permissions : List Nat) (uid gid : Int)
    (data : List Nat) (now_inode now_log : Int)
    (h : fs.inode_count < MAX_INODES ∧ fs.block_count < MAX_BLOCKS) :
    create_file fs name permissions uid gid data now_inode now_log =
      ({ blocks := (allocate fs (new_inode fs permissions uid gid data now_inode) data).blocks,
         inodes := Function.update fs.inodes fs.inode_count
           (allocate fs (new_inode fs permissions uid gid data now_inode) data).ino,
         directory := Function.update fs.directory fs.dir_count
           { fs.directory fs.dir_count with
             name := strncpy name MAX_NAME,
             inode_id := (allocate fs (new_inode fs permissions uid gid data now_inode) data).ino.id,
             is_soft_link := 0 },
         logs := Function.update fs.logs (fs.log_count % MAX_LOGS)
           (make_log (fs.logs (fs.log_count % MAX_LOGS)) (fmt_create_file name uid gid)
             (allocate fs (new_inode fs permissions uid gid data now_inode) data).ino.id now_log),
         block_count := (allocate fs (new_inode fs permissions uid gid data now_inode) data).block_count,
         inode_count := fs.inode_count + 1,
         dir_count := fs.dir_count + 1,
         log_count := fs.log_count + 1 },
       ((allocate fs (new_inode fs permissions uid gid data now_inode) data).ino.id : Int)) := by
  unfold create_file
  rw [if_neg (by omega)]

theorem strncpy_getD_zero (s : List Nat) (n : Nat) (c : Nat) (hn : 0 < n) (hc : c ≠ 0)
    (h : s.getD 0 0 = c) : (strncpy s n).getD 0 0 = c := by
  cases s with
  | nil => simp at h; omega
  | cons a t =>
    simp only [List.getD_cons_zero] at h
    subst h
    unfold strncpy
    simp only [cstr, hc, if_false]
    cases n with
    | zero => omega
    | succ m => simp

theorem find_entry_append (fs : simplefs) (name : List Nat) (e : dir_entry) :
    find_from (Function.update fs.directory fs.dir_count e) name (fs.dir_count + 1) 0 =
      match find_entry fs name with
      | some j => some j
      | none => if strcmp e.name name = 0 then some fs.dir_count else none := by
  have h := find_from_snoc fs.directory name e fs.dir_count 0
  simp only [Nat.zero_add] at h
  exact h


theorem getD_lt_of_forall (data : List Nat) (k : Nat) (h : ∀ c ∈ data, c < 256) :
    data.getD k 0 < 256 := by
  by_cases hk : k < data.length
  · rw [List.getD_eq_getElem _ _ hk]
    exact h _ (List.getElem_mem _)
  · rw [List.getD_eq_default _ _ (by omega)]
    omega

/-- `read_file_regular`, with the inode of the entry named. -/
theorem read_file_regular_at (depth : Nat) (fs : simplefs) (name : List Nat) (uid gid : Int)
    (buffer : Nat → Nat) (max_len now : Int) (i : Nat) (ino : inode)
    (hfind : find_entry fs name = some i) (hreg : (fs.directory i).is_soft_link = 0)
    (hino : fs.inodes (fs.directory i).inode_id = ino) :
    read_file (depth + 1) fs name uid gid buffer max_len now =
      if can_read ino uid gid = false then some { fs := fs, buffer := buffer, ret := -1 }
      else
        some
          { fs := { fs with
              logs := Function.update fs.logs (fs.log_count % MAX_LOGS)
                (make_log (fs.logs (fs.log_count % MAX_LOGS)) (fmt_read_file name uid gid)
                  ino.id now),
              log_count := fs.log_count + 1 },
            buffer := fun k =>
              if k < read_limit ino.size max_len then file_byte fs.blocks ino k
              else if k = read_limit ino.size max_len then 0
              else buffer k,
            ret := (read_limit ino.size max_len : Nat) } := by
  rw [read_file_regular depth fs name uid gid buffer max_len now i hfind hreg, hino]

/-- The round trip of C1 inside the tables.  In a state reached in bounds with a free
directory slot, for a name shorter than `MAX_NAME` that no directory entry matches, a
permission string whose character 0 is `'r'`, and a NUL-free payload of bytes that fits in
the free part of the block pool: when `create_file` returns an inode id, a `read_file` of
that name by the owner `uid` (any group id) with `max_len` at least the payload length
returns the payload length, leaves the payload in the buffer followed by a NUL, and
leaves the rest of the buffer alone.  Without the free slot or the fit, `create_file`
writes past the end of a table (C10, C11), where the embedding does not follow it. -/
theorem create_file_read_file_round_trip
    (fs : simplefs) (name permissions data : List Nat) (uid gid gid2 : Int)
    (now_inode now_log now : Int) (buffer : Nat → Nat) (max_len : Int) (depth : Nat)
    (_hb : ReachableInBounds fs) (_hdir : fs.dir_count < MAX_INODES)
    (hname : strlen name < MAX_NAME)
    (hunbound : find_entry fs name = none)
    (hperm : permissions.getD 0 0 = 114)
    (hbyte : ∀ c ∈ data, c < 256) (hnul : ∀ c ∈ data, c ≠ 0)
    (hret : (create_file fs name permissions uid gid data now_inode now_log).2 ≠ -1)
    (hfit : fs.block_count + blocks_used data.length ≤ MAX_BLOCKS)
    (hmax : (data.length : Int) ≤ max_len) :
    ∃ r, read_file (depth + 1)
          (create_file fs name permissions uid gid data now_inode now_log).1
          name uid gid2 buffer max_len now = some r ∧
      r.ret = data.length ∧ (∀ k, k < data.length → r.buffer k = data.getD k 0) ∧
      r.buffer data.length = 0 ∧ (∀ k, data.length < k → r.buffer k = buffer k) := by
  have hg := create_file_guard _ _ _ _ _ _ _ _ hret
  have hlen : strlen data = data.length := by unfold strlen; rw [cstr_of_no_nul data hnul]
  have hsz : (new_inode fs permissions uid gid data now_inode).size = data.length := hlen
  have hfit2 : fs.block_count +
      blocks_used (new_inode fs permissions uid gid data now_inode).size ≤ MAX_BLOCKS := by
    rw [hsz]; exact hfit
  have hcap : blocks_needed (new_inode fs permissions uid gid data now_inode).size - 12 ≤
      BLOCK_SIZE / 4 := by
    rw [hsz]
    unfold blocks_used at hfit
    simp only [BLOCK_SIZE, MAX_BLOCKS] at *
    split at hfit <;> omega
  obtain ⟨hid, hsize, hpermf, -, hown, -, -⟩ :=
    allocate_ino_header fs (new_inode fs permissions uid gid data now_inode) data hcap
  rw [create_file_ok fs name permissions uid gid data now_inode now_log hg]
  have hfind : find_entry
      { blocks := (allocate fs (new_inode fs permissions uid gid data now_inode) data).blocks,
        inodes := Function.update fs.inodes fs.inode_count
          (allocate fs (new_inode fs permissions uid gid data now_inode) data).ino,
        directory := Function.update fs.directory fs.dir_count
          { fs.directory fs.dir_count with
            name := strncpy name MAX_NAME,
            inode_id := (allocate fs (new_inode fs permissions uid gid data now_inode) data).ino.id,
            is_soft_link := 0 },
        logs := Function.update fs.logs (fs.log_count % MAX_LOGS)
          (make_log (fs.logs (fs.log_count % MAX_LOGS)) (fmt_create_file name uid gid)
            (allocate fs (new_inode fs permissions uid gid data now_inode) data).ino.id now_log),
        block_count := (allocate fs (new_inode fs permissions uid gid data now_inode) data).block_count,
        inode_count := fs.inode_count + 1,
        dir_count := fs.dir_count + 1,
        log_count := fs.log_count + 1 } name = some fs.dir_count := by
    unfold find_entry
    simp only []
    rw [find_entry_append, hunbound]
    simp only []
    rw [if_pos]
    rw [strcmp_eq_zero_iff]
    exact cstr_strncpy name MAX_NAME (by omega)
  have hcan : can_read (allocate fs (new_inode fs permissions uid gid data now_inode) data).ino
      uid gid2 = true := by
    unfold can_read
    rw [hown, hpermf]
    have h1 : (new_inode fs permissions uid gid data now_inode).owner_uid = uid := rfl
    have h2 : (new_inode fs permissions uid gid data now_inode).permissions =
        strncpy permissions 10 := rfl
    rw [h1, h2, if_pos rfl, strncpy_getD_zero permissions 10 114 (by omega) (by omega) hperm]
    simp
  have hlim : read_limit
      (allocate fs (new_inode fs permissions uid gid data now_inode) data).ino.size max_len =
      data.length := by
    rw [hsize, hsz]; unfold read_limit; omega
  rw [read_file_regular_at depth _ name uid gid2 buffer max_len now fs.dir_count
    (allocate fs (new_inode fs permissions uid gid data now_inode) data).ino hfind
    (by simp only [Function.update_same])
    (by
      show Function.update fs.inodes fs.inode_count _
        (Function.update fs.directory fs.dir_count _ fs.dir_count).inode_id = _
      rw [Function.update_same]
      show Function.update fs.inodes fs.inode_count _
        (allocate fs (new_inode fs permissions uid gid data now_inode) data).ino.id = _
      rw [hid]
      exact Function.update_same fs.inode_count _ fs.inodes)]
  rw [if_neg (by rw [hcan]; simp), hlim]
  refine ⟨_, rfl, rfl, ?_, ?_, ?_⟩
  · intro k hk
    simp only []
    rw [if_pos hk, allocate_file_byte fs _ data hfit2 k (by rw [hsz]; exact hk)]
    exact xor55_xor55 _ (getD_lt_of_forall data k hbyte)
  · simp only []
    rw [if_neg (by omega)]
    simp
  · intro k hk
    simp only []
    rw [if_neg (by omega), if_neg (by omega)]


/-- The theorem `create_file_read_file_round_trip` at the file `a` with payload `hi` on a
fresh file system, read by its owner under another group id. -/
theorem create_file_read_file_round_trip_witness :
    ∃ r, read_file 1 (create_file init_fs [97] (str "r--------") 1 1 [104, 105] 5 6).1
          [97] 1 2 (fun _ => 7) 10 9 = some r ∧
      r.ret = ([104, 105] : List Nat).length ∧
      (∀ k, k < ([104, 105] : List Nat).length → r.buffer k = ([104, 105] : List Nat).getD k 0) ∧
      r.buffer ([104, 105] : List Nat).length = 0 ∧
      (∀ k, ([104, 105] : List Nat).length < k → r.buffer k = (fun _ => 7) k) :=
  create_file_read_file_round_trip init_fs [97] (str "r--------") [104, 105] 1 1 2 5 6 9
    (fun _ => 7) 10 0 ReachableInBounds.init (by decide) (by decide) (by decide) (by decide)
    (by decide) (by decide) (by decide) (by decide) (by decide)

/-- What `create_file` stores is the payload: after a `create_file` that passes the
capacity test, with a NUL-free payload of bytes that fits in the block pool, the new
inode has the size of the payload and its file decodes to the payload. -/
theorem create_file_stores_payload (fs : simplefs) (name permissions data : List Nat)
    (uid gid now_inode now_log : Int)
    (hguard : fs.inode_count < MAX_INODES ∧ fs.block_count < MAX_BLOCKS)
    (hbyte : ∀ c ∈ data, c < 256) (hnul : ∀ c ∈ data, c ≠ 0)
    (hfit : fs.block_count + blocks_used data.length ≤ MAX_BLOCKS) :
    ((create_file fs name permissions uid gid data now_inode now_log).1.inodes
      fs.inode_count).size = data.length ∧
    ∀ k, k < data.length →
      file_byte (create_file fs name permissions uid gid data now_inode now_log).1.blocks
        ((create_file fs name permissions uid gid data now_inode now_log).1.inodes
          fs.inode_count) k = data.getD k 0 := by
  have hlen : strlen data = data.length := by unfold strlen; rw [cstr_of_no_nul data hnul]
  have hsz : (new_inode fs permissions uid gid data now_inode).size = data.length := hlen
  have hfit2 : fs.block_count +
      blocks_used (new_inode fs permissions uid gid data now_inode).size ≤ MAX_BLOCKS := by
    rw [hsz]; exact hfit
  have hcap : blocks_needed (new_inode fs permissions uid gid data now_inode).size - 12 ≤
      BLOCK_SIZE / 4 := by
    rw [hsz]
    unfold blocks_used at hfit
    simp only [BLOCK_SIZE, MAX_BLOCKS] at *
    split at hfit <;> omega
  rw [create_file_ok fs name permissions uid gid data now_inode now_log hguard]
  simp only [Function.update_same]
  refine ⟨by rw [(allocate_ino_header fs _ data hcap).2.1, hsz], ?_⟩
  intro k hk
  rw [allocate_file_byte fs _ data hfit2 k (by rw [hsz]; exact hk)]
  exact xor55_xor55 _ (getD_lt_of_forall data k hbyte)


/-- The direct slots after the allocation. -/
theorem allocate_direct_slot (fs : simplefs) (ino : inode) (data : List Nat)
    (hcap : blocks_needed ino.size - 12 ≤ BLOCK_SIZE / 4) (t : Nat)
    (ht : t < min (blocks_needed ino.size) 12) :
    (allocate fs ino data).ino.blocks t = fs.block_count + t := by
  by_cases h : blocks_needed ino.size ≤ 12
  · rw [allocate_small fs ino data h]
    simp only []
    rw [if_pos (by omega)]
  · rw [allocate_large fs ino data (by omega) hcap]
    simp only []
    rw [if_pos (by omega)]

/-- The indirect block after the allocation. -/
theorem allocate_indirect_block (fs : simplefs) (ino : inode) (data : List Nat)
    (hcap : blocks_needed ino.size - 12 ≤ BLOCK_SIZE / 4) :
    (allocate fs ino data).ino.indirect_block =
      if 12 < blocks_needed ino.size then fs.block_count + 12 else ino.indirect_block := by
  by_cases h : blocks_needed ino.size ≤ 12
  · rw [allocate_small fs ino data h, if_neg (by omega)]
  · rw [allocate_large fs ino data (by omega) hcap, if_pos (by omega)]

/-- The pointer sequence of the indirect block after the allocation. -/
theorem allocate_pointer (fs : simplefs) (ino : inode) (data : List Nat)
    (hfit : fs.block_count + blocks_used ino.size ≤ MAX_BLOCKS) (t : Nat)
    (h12 : 12 ≤ t) (ht : t < blocks_needed ino.size) :
    read_int (allocate fs ino data).blocks ((fs.block_count + 12) * BLOCK_SIZE + 4 * (t - 12)) =
      fs.block_count + 1 + t := by
  have hu := blocks_used_large ino.size (by omega)
  have hcap : blocks_needed ino.size - 12 ≤ BLOCK_SIZE / 4 := by
    simp only [BLOCK_SIZE, MAX_BLOCKS] at *; omega
  rw [allocate_large fs ino data (by omega) hcap]
  apply read_int_of_bytes
  · simp only [BLOCK_SIZE, MAX_BLOCKS] at *
    norm_num
    omega
  · intro j hj
    simp only [BLOCK_SIZE, MAX_BLOCKS] at *
    rw [if_neg (by omega), if_pos (by omega)]
    congr 1 <;> omega

/-- The stored bytes after the allocation: byte `k` of the payload is in data block
`k / BLOCK_SIZE`, whose id is the pool position plus `k / BLOCK_SIZE`, one more past the
indirect block. -/
theorem allocate_data_byte (fs : simplefs) (ino : inode) (data : List Nat)
    (hfit : fs.block_count + blocks_used ino.size ≤ MAX_BLOCKS) (k : Nat) (hk : k < ino.size) :
    (allocate fs ino data).blocks
        ((if k / BLOCK_SIZE < 12 then fs.block_count + k / BLOCK_SIZE
          else fs.block_count + 1 + k / BLOCK_SIZE) * BLOCK_SIZE + k % BLOCK_SIZE) =
      xor55 (data.getD k 0) := by
  have hkd : k / BLOCK_SIZE < blocks_needed ino.size := by
    unfold blocks_needed; simp only [BLOCK_SIZE]; omega
  by_cases h : blocks_needed ino.size ≤ 12
  · rw [allocate_small fs ino data h]
    simp only [BLOCK_SIZE] at hkd ⊢
    have e : (if k / 4096 < 12 then fs.block_count + k / 4096 else fs.block_count + 1 + k / 4096)
        = fs.block_count + k / 4096 := by rw [if_pos (by omega)]
    rw [e, if_pos (by omega)]
    congr 2
    omega
  · have h12 : 12 < blocks_needed ino.size := by omega
    have hu := blocks_used_large _ h12
    have hcap : blocks_needed ino.size - 12 ≤ BLOCK_SIZE / 4 := by
      simp only [BLOCK_SIZE, MAX_BLOCKS] at *; omega
    rw [allocate_large fs ino data h12 hcap]
    simp only [BLOCK_SIZE, MAX_BLOCKS] at *
    by_cases hd : k / 4096 < 12
    · have e : (if k / 4096 < 12 then fs.block_count + k / 4096
          else fs.block_count + 1 + k / 4096) = fs.block_count + k / 4096 := by rw [if_pos hd]
      rw [e, if_neg (by omega), if_neg (by omega), if_pos (by omega)]
      congr 2
      omega
    · have e : (if k / 4096 < 12 then fs.block_count + k / 4096
          else fs.block_count + 1 + k / 4096) = fs.block_count + 1 + k / 4096 := by rw [if_neg hd]
      rw [e, if_pos (by omega)]
      congr 2
      omega

/-- The block layout of C2 inside the tables.  In a state with a free directory slot,
for a payload of `n = strlen data` bytes that fits in the free part of the block pool,
with `b = (n + BLOCK_SIZE - 1) / BLOCK_SIZE`, a `create_file` that passes the capacity
test: puts the ids `block_count, block_count + 1, ...` in the
first `min b 12` direct slots; takes an indirect block (the next id, `block_count + 12`)
exactly when `b > 12`, and then its `int` sequence holds the ids of data blocks
`12 .. b-1` in order; raises `block_count` by `b` when `b ≤ 12` and by `b + 1` when
`b > 12`; stores payload byte `k` in data block `k / BLOCK_SIZE`; and sets the inode's
size to `n`. -/
theorem create_file_block_layout (fs : simplefs) (name permissions data : List Nat)
    (uid gid now_inode now_log : Int)
    (hguard : fs.inode_count < MAX_INODES ∧ fs.block_count < MAX_BLOCKS)
    (_hdir : fs.dir_count < MAX_INODES)
    (hfit : fs.block_count + blocks_used (strlen data) ≤ MAX_BLOCKS) :
    (∀ t, t < min ((strlen data + BLOCK_SIZE - 1) / BLOCK_SIZE) 12 →
      ((create_file fs name permissions uid gid data now_inode now_log).1.inodes
        fs.inode_count).blocks t = fs.block_count + t) ∧
    ((strlen data + BLOCK_SIZE - 1) / BLOCK_SIZE ≤ 12 →
      (create_file fs name permissions uid gid data now_inode now_log).1.block_count =
        fs.block_count + (strlen data + BLOCK_SIZE - 1) / BLOCK_SIZE ∧
      ((create_file fs name permissions uid gid data now_inode now_log).1.inodes
        fs.inode_count).indirect_block = (fs.inodes fs.inode_count).indirect_block) ∧
    (12 < (strlen data + BLOCK_SIZE - 1) / BLOCK_SIZE →
      (create_file fs name permissions uid gid data now_inode now_log).1.block_count =
        fs.block_count + (strlen data + BLOCK_SIZE - 1) / BLOCK_SIZE + 1 ∧
      ((create_file fs name permissions uid gid data now_inode now_log).1.inodes
        fs.inode_count).indirect_block = fs.block_count + 12 ∧
      ∀ t, 12 ≤ t → t < (strlen data + BLOCK_SIZE - 1) / BLOCK_SIZE →
        read_int (create_file fs name permissions uid gid data now_inode now_log).1.blocks
          (((create_file fs name permissions uid gid data now_inode now_log).1.inodes
            fs.inode_count).indirect_block * BLOCK_SIZE + 4 * (t - 12)) =
          fs.block_count + 1 + t) ∧
    (∀ k, k < strlen data →
      (create_file fs name permissions uid gid data now_inode now_log).1.blocks
          ((if k / BLOCK_SIZE < 12 then fs.block_count + k / BLOCK_SIZE
            else fs.block_count + 1 + k / BLOCK_SIZE) * BLOCK_SIZE + k % BLOCK_SIZE) =
        xor55 (data.getD k 0)) ∧
    ((create_file fs name permissions uid gid data now_inode now_log).1.inodes
      fs.inode_count).size = strlen data := by
  have hsz : (new_inode fs permissions uid gid data now_inode).size = strlen data := rfl
  have hib : (new_inode fs permissions uid gid data now_inode).indirect_block =
      (fs.inodes fs.inode_count).indirect_block := rfl
  have hnb : (strlen data + BLOCK_SIZE - 1) / BLOCK_SIZE = blocks_needed (strlen data) := rfl
  have hfit2 : fs.block_count +
      blocks_used (new_inode fs permissions uid gid data now_inode).size ≤ MAX_BLOCKS := hfit
  have hcap : blocks_needed (new_inode fs permissions uid gid data now_inode).size - 12 ≤
      BLOCK_SIZE / 4 := by
    rw [hsz]
    unfold blocks_used at hfit
    simp only [BLOCK_SIZE, MAX_BLOCKS] at *
    split at hfit <;> omega
  rw [create_file_ok fs name permissions uid gid data now_inode now_log hguard, hnb]
  simp only [Function.update_same]
  have hbc := allocate_block_count fs _ data hcap
  have hind := allocate_indirect_block fs _ data hcap
  rw [hsz] at hbc hind
  refine ⟨?_, ?_, ?_, ?_, ?_⟩
  · intro t ht
    exact allocate_direct_slot fs _ data hcap t ht
  · intro hb
    rw [hbc, hind, blocks_used_small _ hb, if_neg (by omega)]
    exact ⟨rfl, hib⟩
  · intro hb
    rw [hbc, hind, blocks_used_large _ hb, if_pos hb]
    refine ⟨rfl, rfl, ?_⟩
    intro t h12 ht
    exact allocate_pointer fs _ data hfit2 t h12 ht
  · intro k hk
    exact allocate_data_byte fs _ data hfit2 k hk
  · exact (allocate_ino_header fs _ data hcap).2.1

theorem strlen_replicate (n c : Nat) (hc : c ≠ 0) : strlen (List.replicate n c) = n := by
  unfold strlen
  rw [cstr_of_no_nul _ (fun x hx => by rw [List.eq_of_mem_replicate hx]; exact hc),
    List.length_replicate]

/-- The theorem `create_file_block_layout` at the 49999-byte file of the test driver
(`fs_test.c` line 15): it takes 14 blocks, the indirect block being block 12. -/
theorem create_file_block_layout_witness :
    (create_file init_fs (str "largefile.txt") (str "rw-r--r--") 1000 100
      (List.replicate 49999 65) 5 6).1.block_count = 14 ∧
    ((create_file init_fs (str "largefile.txt") (str "rw-r--r--") 1000 100
      (List.replicate 49999 65) 5 6).1.inodes 0).indirect_block = 12 ∧
    ((create_file init_fs (str "largefile.txt") (str "rw-r--r--") 1000 100
      (List.replicate 49999 65) 5 6).1.inodes 0).size = 49999 := by
  have hlen : strlen (List.replicate 49999 65) = 49999 := strlen_replicate 49999 65 (by decide)
  have h := create_file_block_layout init_fs (str "largefile.txt") (str "rw-r--r--")
    (List.replicate 49999 65) 1000 100 5 6 (by decide) (by decide) (by rw [hlen]; decide)
  rw [hlen] at h
  obtain ⟨h1, h2, h3⟩ := h.2.2.1 (by decide)
  exact ⟨h1, h2, h.2.2.2.2⟩


/-! ## Links -/

/-- The soft-link case of `create_hard_link`, evaluated.  In `linked_fs` the name `s` is
a soft link to `b` (inode 1) and `h` is not bound.  `create_hard_link(fs, "s", "h", 1)`
succeeds, but it takes the `inode_id` field of the soft-link entry, which nothing ever
wrote (0): the new entry is bound to inode 0, the reference count of inode 0 grows, the
one of inode 1 does not, and reading `h` gives the file `a` (1 byte, `A`) while reading
`s` gives the file `b` (2 bytes, `BB`). -/
theorem hard_link_to_soft_link_diverges :
    find_entry linked_fs (str "s") = some 2 ∧ find_entry linked_fs (str "h") = none ∧
    (create_hard_link linked_fs (str "s") (str "h") 1 10).2 = 0 ∧
    ((create_hard_link linked_fs (str "s") (str "h") 1 10).1.directory 3).inode_id = 0 ∧
    ((create_hard_link linked_fs (str "s") (str "h") 1 10).1.inodes 0).ref_count =
      (linked_fs.inodes 0).ref_count + 1 ∧
    ((create_hard_link linked_fs (str "s") (str "h") 1 10).1.inodes 1).ref_count =
      (linked_fs.inodes 1).ref_count ∧
    (read_file 2 (create_hard_link linked_fs (str "s") (str "h") 1 10).1 (str "h") 1 1
      (fun _ => 0) 10 11).map (fun r => (r.ret, r.buffer 0, r.buffer 1)) = some (1, 65, 0) ∧
    (read_file 2 (create_hard_link linked_fs (str "s") (str "h") 1 10).1 (str "s") 1 1
      (fun _ => 0) 10 11).map (fun r => (r.ret, r.buffer 0, r.buffer 1)) = some (2, 66, 66) := by
  decide

set_option maxRecDepth 16384 in
/-- C6, counterexample: a link name of 257 characters.  `create_soft_link` stores 256 of
them (`strncpy`), so the entry never compares equal to the name: `read_file` of the
link name returns `-1` while `read_file` of the target returns 1 byte. -/
theorem long_link_name_not_found :
    find_entry one_file_fs (List.replicate 257 98) = none ∧
    cstr (str "a") ≠ cstr (List.replicate 257 98) ∧
    (read_file 2 (create_soft_link one_file_fs (str "a") (List.replicate 257 98) 1 9).1
      (List.replicate 257 98) 1 1 (fun _ => 0) 10 11).map (fun r => r.ret) = some (-1) ∧
    (read_file 2 (create_soft_link one_file_fs (str "a") (List.replicate 257 98) 1 9).1
      (str "a") 1 1 (fun _ => 0) 10 11).map (fun r => r.ret) = some 1 := by
  decide


theorem strcmp_congr (x n1 n2 : List Nat) (h : cstr n1 = cstr n2) :
    (strcmp x n1 = 0) = (strcmp x n2 = 0) := by
  rw [strcmp_eq_zero_iff, strcmp_eq_zero_iff, h]

theorem find_from_congr_name (dir : Nat → dir_entry) (n1 n2 : List Nat)
    (h : cstr n1 = cstr n2) : ∀ (count i : Nat),
      find_from dir n1 count i = find_from dir n2 count i := by
  intro count
  induction count with
  | zero => intro i; rfl
  | succ n ih =>
    intro i
    rw [find_from, find_from, ih (i + 1)]
    by_cases hm : strcmp (dir i).name n1 = 0
    · rw [if_pos hm, if_pos ((strcmp_congr _ n1 n2 h) ▸ hm)]
    · rw [if_neg hm, if_neg ((strcmp_congr _ n1 n2 h) ▸ hm)]

/-- `read_file` sees its `name` argument only as a C string. -/
theorem read_file_congr_name (fs : simplefs) (n1 n2 : List Nat) (h : cstr n1 = cstr n2)
    (uid gid : Int) (buffer : Nat → Nat) (max_len now : Int) (depth : Nat) :
    read_file depth fs n1 uid gid buffer max_len now =
      read_file depth fs n2 uid gid buffer max_len now := by
  cases depth with
  | zero => rfl
  | succ d =>
    have hf : find_entry fs n1 = find_entry fs n2 := find_from_congr_name _ n1 n2 h _ _
    have hfmt : fmt_read_file n1 uid gid = fmt_read_file n2 uid gid := by
      unfold fmt_read_file; rw [h]
    rw [read_file, read_file, hf, hfmt]

/-- C6 as amended (soft link read-through).  In a state reached in bounds with a free
directory slot, when both names are shorter than `MAX_NAME` and no directory entry
matches the link name `b`, then after
`create_soft_link(fs, a, b, uid)` a `read_file` of `b` is the `read_file` of `a` one
level of recursion deeper: for every requester and limit it returns exactly when the
read of `a` returns, with the same return value (the error value included), the same
buffer and the same state. -/
theorem soft_link_read_through (fs : simplefs) (a b : List Nat) (uid now0 : Int)
    (_hin : ReachableInBounds fs) (_hdir : fs.dir_count < MAX_INODES)
    (ha : strlen a < MAX_NAME) (hb : strlen b < MAX_NAME)
    (hunbound : find_entry fs b = none)
    (depth : Nat) (uid2 gid2 : Int) (buffer : Nat → Nat) (max_len now : Int) :
    read_file (depth + 1) (create_soft_link fs a b uid now0).1 b uid2 gid2 buffer max_len now =
      read_file depth (create_soft_link fs a b uid now0).1 a uid2 gid2 buffer max_len now := by
  have hfind : find_entry (create_soft_link fs a b uid now0).1 b = some fs.dir_count := by
    unfold find_entry create_soft_link
    simp only []
    rw [find_entry_append, hunbound]
    simp only []
    rw [if_pos]
    rw [strcmp_eq_zero_iff]
    exact cstr_strncpy b MAX_NAME (by omega)
  have hentry : (create_soft_link fs a b uid now0).1.directory fs.dir_count =
      { fs.directory fs.dir_count with
        name := strncpy b MAX_NAME, link_path := strncpy a MAX_NAME, is_soft_link := 1 } := by
    unfold create_soft_link
    simp only [Function.update_same]
  rw [read_file, hfind]
  simp only [hentry]
  rw [if_pos (by decide)]
  exact read_file_congr_name _ _ _ (cstr_strncpy a MAX_NAME (by omega)) _ _ _ _ _ _

/-- Witness of C6 as amended: the link `b` to the file `a`. -/
theorem soft_link_read_through_witness :
    read_file 2 (create_soft_link one_file_fs (str "a") (str "b") 1 9).1 (str "b") 1 1
        (fun _ => 0) 10 11 =
      read_file 1 (create_soft_link one_file_fs (str "a") (str "b") 1 9).1 (str "a") 1 1
        (fun _ => 0) 10 11 ∧
    (read_file 1 (create_soft_link one_file_fs (str "a") (str "b") 1 9).1 (str "a") 1 1
        (fun _ => 0) 10 11).map (fun r => (r.ret, r.buffer 0)) = some (1, 120) :=
  ⟨soft_link_read_through one_file_fs (str "a") (str "b") 1 9 in_bounds_one_file_fs
    (by decide) (by decide) (by decide) (by decide) 1 1 1 (fun _ => 0) 10 11, by decide⟩


/-! ## The log -/

theorem hash_loop_append_nul (s rest : List Nat) (h : ∀ c ∈ s, c ≠ 0) :
    ∀ acc, hash_loop (s ++ 0 :: rest) acc = hash_loop s acc := by
  induction s with
  | nil => intro acc; simp [hash_loop]
  | cons a s ih =>
    intro acc
    have ha : a ≠ 0 := h a (List.mem_cons_self _ _)
    have hs : ∀ c ∈ s, c ≠ 0 := fun c hc => h c (List.mem_cons_of_mem _ hc)
    simp only [List.cons_append, hash_loop, ha, if_false]
    exact ih hs _

theorem hash_loop_cstr (s : List Nat) : ∀ acc, hash_loop (cstr s) acc = hash_loop s acc := by
  induction s with
  | nil => intro acc; rfl
  | cons a s ih =>
    intro acc
    by_cases ha : a = 0
    · simp [cstr, hash_loop, ha]
    · simp only [cstr, hash_loop, ha, if_false]
      exact ih _

theorem hash_loop_lt (s : List Nat) : ∀ acc, acc < 2 ^ 32 → hash_loop s acc < 2 ^ 32 := by
  induction s with
  | nil => intro acc h; exact h
  | cons a s ih =>
    intro acc h
    unfold hash_loop
    split
    · exact h
    · exact ih _ (Nat.mod_lt _ (by norm_num))

theorem xor_mod_two_pow (a b n : Nat) : (a ^^^ b) % 2 ^ n = (a % 2 ^ n) ^^^ (b % 2 ^ n) := by
  apply Nat.eq_of_testBit_eq
  intro i
  simp only [Nat.testBit_mod_two_pow, Nat.testBit_xor]
  by_cases h : i < n <;> simp [h]

/-- Two hashes of the same inode id and timestamp agree exactly when the character sums do. -/
theorem calculate_hash_eq_iff (s t : List Nat) (id ts : Int) :
    calculate_hash s id ts = calculate_hash t id ts ↔ hash_loop s 0 = hash_loop t 0 := by
  unfold calculate_hash
  have hs := hash_loop_lt s 0 (by norm_num)
  have ht := hash_loop_lt t 0 (by norm_num)
  simp only [xor_mod_two_pow, Nat.mod_eq_of_lt hs, Nat.mod_eq_of_lt ht]
  exact Nat.xor_right_inj

/-- C7 as amended (tamper detection).  When a log entry that verifies has its operation
field overwritten (`strcpy`) without its hash being recomputed, verification reports
`TAMPERED!` exactly when the `unsigned int` character sum of the new description differs
from the sum of the stored one; a different description with the same sum still
verifies. -/
theorem tamper_detected_iff (fs : simplefs) (i : Nat) (text : List Nat)
    (hok : log_verified (fs.logs i) = true) :
    log_verified ((tamper_log fs i text).logs i) = false ↔
      hash_loop text 0 ≠ hash_loop (fs.logs i).operation 0 := by
  unfold log_verified at hok ⊢
  unfold tamper_log
  simp only [Function.update_same, decide_eq_true_eq, decide_eq_false_iff_not] at hok ⊢
  rw [← hok, calculate_hash_eq_iff, hash_loop_append_nul _ _ (cstr_no_nul text), hash_loop_cstr]

/-- Witness of C7 as amended: the attack of the test driver (`fs_test.c` line 47). -/
theorem tamper_detected_iff_witness :
    log_verified ((tamper_log secret_fs 0 (str "HACKED FILE ACCESS")).logs 0) = false ↔
      hash_loop (str "HACKED FILE ACCESS") 0 ≠ hash_loop (secret_fs.logs 0).operation 0 :=
  tamper_detected_iff secret_fs 0 (str "HACKED FILE ACCESS") (by decide)

/-- C7, counterexample: the log entry written by `create_file` for `secret.txt`, its
description replaced by one that names `terces.txt`, still verifies. -/
theorem tamper_same_sum_undetected :
    cstr (secret_fs.logs 0).operation = str "Created file secret.txt (UID:1000 GID:100)" ∧
    str "Created file terces.txt (UID:1000 GID:100)" ≠
      str "Created file secret.txt (UID:1000 GID:100)" ∧
    calculate_hash (str "Created file terces.txt (UID:1000 GID:100)")
      (secret_fs.logs 0).related_inode_id (secret_fs.logs 0).timestamp =
      (secret_fs.logs 0).hash ∧
    log_verified
      ((tamper_log secret_fs 0 (str "Created file terces.txt (UID:1000 GID:100)")).logs 0) =
      true := by
  decide


theorem log_verified_make_log (old : log_entry) (text : List Nat) (id now : Int) :
    log_verified (make_log old text id now) = true := by
  unfold log_verified make_log
  simp

/-- Appending one verifying entry at the ring position keeps every populated slot
verifying. -/
theorem append_log_verified (logs : Nat → log_entry) (cnt : Nat) (e : log_entry)
    (he : log_verified e = true)
    (h : ∀ i, i < min cnt MAX_LOGS → log_verified (logs i) = true) :
    ∀ i, i < min (cnt + 1) MAX_LOGS →
      log_verified (Function.update logs (cnt % MAX_LOGS) e i) = true := by
  intro i hi
  rw [Function.update_apply]
  by_cases hs : i = cnt % MAX_LOGS
  · rw [if_pos hs]; exact he
  · rw [if_neg hs]
    apply h
    simp only [MAX_LOGS] at *
    omega

/-- What `read_file` does to the state: nothing, or one log entry appended. -/
theorem read_file_state (depth : Nat) : ∀ (fs : simplefs) (name : List Nat) (uid gid : Int)
    (buffer : Nat → Nat) (max_len now : Int) (r : read_result),
    read_file depth fs name uid gid buffer max_len now = some r →
      r.fs = fs ∨ ∃ text id,
        r.fs = { fs with
          logs := Function.update fs.logs (fs.log_count % MAX_LOGS)
            (make_log (fs.logs (fs.log_count % MAX_LOGS)) text id now),
          log_count := fs.log_count + 1 } := by
  induction depth with
  | zero => intro fs name uid gid buffer max_len now r h; simp [read_file] at h
  | succ d ih =>
    intro fs name uid gid buffer max_len now r h
    rw [read_file] at h
    cases hf : find_entry fs name with
    | none =>
      rw [hf] at h
      simp only [Option.some.injEq] at h
      left; rw [← h]
    | some i =>
      rw [hf] at h
      simp only [] at h
      by_cases hs : (fs.directory i).is_soft_link ≠ 0
      · rw [if_pos hs] at h
        exact ih _ _ _ _ _ _ _ _ h
      · rw [if_neg hs] at h
        by_cases hc : can_read (fs.inodes (fs.directory i).inode_id) uid gid = false
        · rw [if_pos hc] at h
          simp only [Option.some.injEq] at h
          left; rw [← h]
        · rw [if_neg hc] at h
          simp only [Option.some.injEq] at h
          right
          exact ⟨_, _, by rw [← h]⟩

theorem create_hard_link_state (fs : simplefs) (existing_name new_name : List Nat)
    (uid now : Int) :
    (create_hard_link fs existing_name new_name uid now).1 = fs ∨ ∃ text id,
      (create_hard_link fs existing_name new_name uid now).1.logs =
        Function.update fs.logs (fs.log_count % MAX_LOGS)
          (make_log (fs.logs (fs.log_count % MAX_LOGS)) text id now) ∧
      (create_hard_link fs existing_name new_name uid now).1.log_count = fs.log_count + 1 := by
  unfold create_hard_link
  cases hf : find_entry fs existing_name with
  | none => left; rfl
  | some i =>
    simp only []
    split
    · left; rfl
    · right; exact ⟨_, _, rfl, rfl⟩

theorem create_file_state (fs : simplefs) (name permissions : List Nat) (uid gid : Int)
    (data : List Nat) (now_inode now_log : Int) :
    (create_file fs name permissions uid gid data now_inode now_log).1 = fs ∨ ∃ text id,
      (create_file fs name permissions uid gid data now_inode now_log).1.logs =
        Function.update fs.logs (fs.log_count % MAX_LOGS)
          (make_log (fs.logs (fs.log_count % MAX_LOGS)) text id now_log) ∧
      (create_file fs name permissions uid gid data now_inode now_log).1.log_count =
        fs.log_count + 1 := by
  unfold create_file
  split
  · left; rfl
  · right; exact ⟨_, _, rfl, rfl⟩

/-- Every populated log slot of a reachable state verifies. -/
theorem reachable_log_verified (fs : simplefs) (h : Reachable fs) :
    ∀ i, i < min fs.log_count MAX_LOGS → log_verified (fs.logs i) = true := by
  induction h with
  | init => intro i hi; simp [init_fs] at hi
  | step_create_file fs name permissions uid gid data now_inode now_log _ ih =>
    rcases create_file_state fs name permissions uid gid data now_inode now_log with h | ⟨t, id, h1, h2⟩
    · rw [h]; exact ih
    · rw [h1, h2]
      exact append_log_verified _ _ _ (log_verified_make_log _ _ _ _) ih
  | step_read_file depth fs name uid gid buffer max_len now r _ hr ih =>
    rcases read_file_state depth fs name uid gid buffer max_len now r hr with h | ⟨t, id, h⟩
    · rw [h]; exact ih
    · rw [h]
      exact append_log_verified _ _ _ (log_verified_make_log _ _ _ _) ih
  | step_create_hard_link fs existing_name new_name uid now _ ih =>
    rcases create_hard_link_state fs existing_name new_name uid now with h | ⟨t, id, h1, h2⟩
    · rw [h]; exact ih
    · rw [h1, h2]
      exact append_log_verified _ _ _ (log_verified_make_log _ _ _ _) ih
  | step_create_soft_link fs existing_name new_name uid now _ ih =>
    exact append_log_verified _ _ _ (log_verified_make_log _ _ _ _) ih

/-- The lines of `print_logs` are the populated slots, in order. -/
theorem print_logs_loop_eq (fs : simplefs) : ∀ (fuel i : Nat),
    print_logs_loop fs fuel i =
      (List.range' i (min fuel (min fs.log_count MAX_LOGS - i))).map
        (fun j => log_line (fs.logs j)) := by
  intro fuel
  induction fuel with
  | zero => intro i; simp [print_logs_loop]
  | succ n ih =>
    intro i
    rw [print_logs_loop]
    by_cases hc : i < fs.log_count ∧ i < MAX_LOGS
    · rw [if_pos hc, ih (i + 1)]
      have e : min (n + 1) (min fs.log_count MAX_LOGS - i) =
          min n (min fs.log_count MAX_LOGS - (i + 1)) + 1 := by omega
      rw [e, List.range'_succ, List.map_cons]
    · rw [if_neg hc]
      have e : min (n + 1) (min fs.log_count MAX_LOGS - i) = 0 := by omega
      rw [e]; rfl

theorem print_logs_eq (fs : simplefs) :
    print_logs fs =
      (List.range (min fs.log_count MAX_LOGS)).map (fun j => log_line (fs.logs j)) := by
  unfold print_logs
  rw [print_logs_loop_eq, List.range_eq_range']
  have e : min MAX_LOGS (min fs.log_count MAX_LOGS - 0) = min fs.log_count MAX_LOGS := by omega
  rw [e]

/-- The log invariant of C8 inside the tables.  In every state reached in bounds from
`init_fs` by `create_file`, `read_file`, `create_hard_link` and `create_soft_link` calls
(the ring buffer may have wrapped), every populated slot `i < min (log_count, MAX_LOGS)`
carries the hash of its own fields, and `print_logs` prints one line per populated slot,
each with status `OK`.  Once a directory entry has been written past the end of
`fs->directory` (C11) this is no longer so: that memory is `fs->logs`. -/
theorem reachable_logs_verify (fs : simplefs) (h : ReachableInBounds fs) :
    (∀ i, i < min fs.log_count MAX_LOGS →
      (fs.logs i).hash =
        calculate_hash (fs.logs i).operation (fs.logs i).related_inode_id (fs.logs i).timestamp) ∧
    (print_logs fs).length = min fs.log_count MAX_LOGS ∧
    ∀ line ∈ print_logs fs, line.2.2.2 = str "OK" := by
  have hv := reachable_log_verified fs (reachable_of_in_bounds fs h)
  refine ⟨?_, ?_, ?_⟩
  · intro i hi
    have := hv i hi
    unfold log_verified at this
    simp only [decide_eq_true_eq] at this
    exact this.symm
  · rw [print_logs_eq, List.length_map, List.length_range]
  · intro line hl
    rw [print_logs_eq, List.mem_map] at hl
    obtain ⟨j, hj, rfl⟩ := hl
    rw [List.mem_range] at hj
    unfold log_line
    simp only []
    rw [if_pos (hv j hj)]

/-- The theorem `reachable_logs_verify` at the state after one `create_file`. -/
theorem reachable_logs_verify_witness :
    (∀ i, i < min secret_fs.log_count MAX_LOGS →
      (secret_fs.logs i).hash =
        calculate_hash (secret_fs.logs i).operation (secret_fs.logs i).related_inode_id
          (secret_fs.logs i).timestamp) ∧
    (print_logs secret_fs).length = min secret_fs.log_count MAX_LOGS ∧
    ∀ line ∈ print_logs secret_fs, line.2.2.2 = str "OK" :=
  reachable_logs_verify secret_fs in_bounds_secret_fs


/-! ## Capacity -/

/-- C9 (full-table rejection is atomic).  Whenever `inode_count >= MAX_INODES` or
`block_count >= MAX_BLOCKS`, `create_file` returns `-1` whatever its arguments, and the
state it leaves is the state it was given. -/
theorem create_file_full_rejects (fs : simplefs) (name permissions data : List Nat)
    (uid gid now_inode now_log : Int)
    (hfull : fs.inode_count ≥ MAX_INODES ∨ fs.block_count ≥ MAX_BLOCKS) :
    create_file fs name permissions uid gid data now_inode now_log = (fs, -1) := by
  unfold create_file
  rw [if_pos hfull]

set_option maxRecDepth 100000 in
/-- Witness of C9: one more `create_file` after 128 of them. -/
theorem create_file_full_rejects_witness :
    create_file full_inodes_fs (str "g") (str "rw-r--r--") 1000 100 (str "data") 7 8 =
      (full_inodes_fs, -1) :=
  create_file_full_rejects full_inodes_fs (str "g") (str "rw-r--r--") (str "data") 1000 100 7 8
    (Or.inl (by decide))


/-- On a fresh file system, a payload of `MAX_BLOCKS * BLOCK_SIZE` bytes takes 1025
blocks: `create_file` does not reject it, and the last data block gets the id 1024. -/
theorem create_file_overflow (name permissions data : List Nat) (uid gid now_inode now_log : Int)
    (hlen : strlen data = 4194304) :
    blocks_used (strlen data) = 1025 ∧
    (create_file init_fs name permissions uid gid data now_inode now_log).2 = 0 ∧
    (create_file init_fs name permissions uid gid data now_inode now_log).1.block_count = 1025 ∧
    MAX_BLOCKS < (create_file init_fs name permissions uid gid data now_inode
      now_log).1.block_count ∧
    read_int (create_file init_fs name permissions uid gid data now_inode now_log).1.blocks
      (12 * BLOCK_SIZE + 4 * 1011) = 1024 := by
  have hsz : (new_inode init_fs permissions uid gid data now_inode).size = 4194304 := hlen
  have hbn : blocks_needed 4194304 = 1024 := by decide
  have hu : blocks_used 4194304 = 1025 := by decide
  have hcap : blocks_needed (new_inode init_fs permissions uid gid data now_inode).size - 12 ≤
      BLOCK_SIZE / 4 := by rw [hsz, hbn]; decide
  have hbc := allocate_block_count init_fs _ data hcap
  have hid := (allocate_ino_header init_fs _ data hcap).1
  have hb0 : init_fs.block_count = 0 := rfl
  have hi0 : (new_inode init_fs permissions uid gid data now_inode).id = 0 := rfl
  rw [hsz, hu, hb0] at hbc
  rw [create_file_ok init_fs _ _ _ _ _ _ _ (by decide), hlen]
  simp only []
  rw [hbc, hid, hu, hi0]
  refine ⟨rfl, rfl, rfl, by decide, ?_⟩
  rw [allocate_large init_fs _ _ (by rw [hsz, hbn]; decide) hcap]
  apply read_int_of_bytes
  · norm_num
  · intro k hk
    rw [hb0, hsz, hbn]
    show (if (0 + 13) * BLOCK_SIZE ≤ 12 * BLOCK_SIZE + 4 * 1011 + k ∧ _ then _ else
      if (0 + 12) * BLOCK_SIZE ≤ 12 * BLOCK_SIZE + 4 * 1011 + k ∧ _ then _ else _) = _
    have hB : BLOCK_SIZE = 4096 := rfl
    rw [if_neg (by rw [hB]; omega), if_pos (by rw [hB]; omega), hB]
    have e1 : 0 + 13 + (12 * 4096 + 4 * 1011 + k - (0 + 12) * 4096) / 4 = 1024 := by omega
    have e2 : (12 * 4096 + 4 * 1011 + k - (0 + 12) * 4096) % 4 = k := by omega
    rw [e1, e2]

/-- C10, the failing input evaluated: on a fresh file system, `create_file` with a
payload of `MAX_BLOCKS * BLOCK_SIZE` bytes (1024 data blocks and the indirect block, one
block more than the pool holds) passes the capacity test, returns the inode id `0` and
not `-1`, and leaves `block_count` at 1025, above `MAX_BLOCKS`: the last data block has
the id 1024, past the end of `fs->blocks`.  (The id `0` is the value in the embedding,
which keeps the inode table apart from the blocks; in C block 1024 is the memory of
`inodes[0]`, and the value returned is what the payload leaves in its `id` field.) -/
theorem create_file_overflows_pool :
    blocks_used (strlen (List.replicate 4194304 65)) = 1025 ∧
    (create_file init_fs (str "big") (str "rw-r--r--") 1000 100 (List.replicate 4194304 65)
      5 6).2 = 0 ∧
    (create_file init_fs (str "big") (str "rw-r--r--") 1000 100 (List.replicate 4194304 65)
      5 6).1.block_count = 1025 ∧
    MAX_BLOCKS < (create_file init_fs (str "big") (str "rw-r--r--") 1000 100
      (List.replicate 4194304 65) 5 6).1.block_count ∧
    read_int (create_file init_fs (str "big") (str "rw-r--r--") 1000 100
      (List.replicate 4194304 65) 5 6).1.blocks (12 * BLOCK_SIZE + 4 * 1011) = 1024 :=
  create_file_overflow (str "big") (str "rw-r--r--") (List.replicate 4194304 65) 1000 100 5 6
    (strlen_replicate 4194304 65 (by decide))


/-! ## Hard links -/

/-- The direct-slot loop changes only the `blocks` field of the inode. -/
theorem direct_loop_ino (data : List Nat) (size nb : Nat) :
    ∀ (fuel i : Nat) (s : alloc_state),
      (direct_loop data size nb fuel i s).ino.id = s.ino.id ∧
      (direct_loop data size nb fuel i s).ino.size = s.ino.size ∧
      (direct_loop data size nb fuel i s).ino.permissions = s.ino.permissions ∧
      (direct_loop data size nb fuel i s).ino.ref_count = s.ino.ref_count ∧
      (direct_loop data size nb fuel i s).ino.indirect_block = s.ino.indirect_block ∧
      (direct_loop data size nb fuel i s).ino.owner_uid = s.ino.owner_uid ∧
      (direct_loop data size nb fuel i s).ino.group_id = s.ino.group_id ∧
      (direct_loop data size nb fuel i s).ino.timestamp = s.ino.timestamp := by
  intro fuel
  induction fuel with
  | zero => intro i s; simp [direct_loop]
  | succ n ih =>
    intro i s
    rw [direct_loop]
    split
    · exact ih _ _
    · simp

/-- The indirect-block loop does not change the inode. -/
theorem indirect_loop_ino (data : List Nat) (size nb ind : Nat) :
    ∀ (fuel i : Nat) (s : alloc_state),
      (indirect_loop data size nb ind fuel i s).ino = s.ino := by
  intro fuel
  induction fuel with
  | zero => intro i s; rfl
  | succ n ih =>
    intro i s
    rw [indirect_loop]
    split
    · exact ih _ _
    · rfl

/-- The allocation keeps the id of the inode, whatever the payload. -/
theorem allocate_ino_id (fs : simplefs) (ino : inode) (data : List Nat) :
    (allocate fs ino data).ino.id = ino.id := by
  unfold allocate
  simp only []
  split
  · rw [indirect_loop_ino]
    exact (direct_loop_ino _ _ _ _ _ _).1
  · exact (direct_loop_ino _ _ _ _ _ _).1

/-- In a reachable state the inodes in use carry their index as id, the others the id 0,
and every directory slot holds the id of an inode in use or 0. -/
theorem reachable_inode_ids (fs : simplefs) (h : Reachable fs) :
    (∀ k, k < fs.inode_count → (fs.inodes k).id = k) ∧
    (∀ k, fs.inode_count ≤ k → (fs.inodes k).id = 0) ∧
    (∀ j, (fs.directory j).inode_id < fs.inode_count ∨ (fs.directory j).inode_id = 0) := by
  induction h with
  | init => exact ⟨fun k hk => by simp [init_fs] at hk, fun k _ => rfl, fun j => Or.inr rfl⟩
  | step_create_file fs name permissions uid gid data now_inode now_log _ ih =>
    obtain ⟨h1, h2, h3⟩ := ih
    by_cases hg : fs.inode_count < MAX_INODES ∧ fs.block_count < MAX_BLOCKS
    · rw [create_file_ok fs name permissions uid gid data now_inode now_log hg]
      have hid : (allocate fs (new_inode fs permissions uid gid data now_inode) data).ino.id =
          fs.inode_count := allocate_ino_id _ _ _
      refine ⟨?_, ?_, ?_⟩
      · intro k hk
        simp only [Function.update_apply] at hk ⊢
        by_cases hk2 : k = fs.inode_count
        · rw [if_pos hk2, hid, hk2]
        · rw [if_neg hk2]; exact h1 k (by omega)
      · intro k hk
        simp only [Function.update_apply] at hk ⊢
        rw [if_neg (by omega)]
        exact h2 k (by omega)
      · intro j
        simp only [Function.update_apply]
        by_cases hj : j = fs.dir_count
        · rw [if_pos hj]
          left
          simp only [hid]
          omega
        · rw [if_neg hj]
          rcases h3 j with h | h
          · left; omega
          · right; exact h
    · have : create_file fs name permissions uid gid data now_inode now_log = (fs, -1) := by
        unfold create_file; rw [if_pos (by omega)]
      rw [this]
      exact ⟨h1, h2, h3⟩
  | step_read_file depth fs name uid gid buffer max_len now r _ hr ih =>
    rcases read_file_state depth fs name uid gid buffer max_len now r hr with h | ⟨t, id, h⟩
    · rw [h]; exact ih
    · rw [h]; exact ih
  | step_create_hard_link fs existing_name new_name uid now _ ih =>
    obtain ⟨h1, h2, h3⟩ := ih
    unfold create_hard_link
    cases hf : find_entry fs existing_name with
    | none => exact ⟨h1, h2, h3⟩
    | some i =>
      simp only []
      split
      · exact ⟨h1, h2, h3⟩
      · have hidk : (fs.inodes (fs.directory i).inode_id).id = (fs.directory i).inode_id := by
          rcases h3 i with h | h
          · exact h1 _ h
          · rw [h]
            by_cases h0 : 0 < fs.inode_count
            · exact h1 0 h0
            · exact h2 0 (by omega)
        refine ⟨?_, ?_, ?_⟩
        · intro k hk
          simp only [Function.update_apply] at hk ⊢
          by_cases hk2 : k = (fs.directory i).inode_id
          · rw [if_pos hk2]
            simp only []
            rw [hidk, hk2]
          · rw [if_neg hk2]; exact h1 k hk
        · intro k hk
          simp only [Function.update_apply] at hk ⊢
          by_cases hk2 : k = (fs.directory i).inode_id
          · rw [if_pos hk2]
            simp only []
            rw [hidk, ← hk2]
            have := h2 k hk
            rcases h3 i with h | h
            · omega
            · rw [hk2, h]
          · rw [if_neg hk2]; exact h2 k hk
        · intro j
          simp only [Function.update_apply]
          by_cases hj : j = fs.dir_count
          · rw [if_pos hj]
            simp only []
            rw [hidk]
            exact h3 i
          · rw [if_neg hj]; exact h3 j
  | step_create_soft_link fs existing_name new_name uid now _ ih =>
    obtain ⟨h1, h2, h3⟩ := ih
    unfold create_soft_link
    refine ⟨h1, h2, ?_⟩
    intro j
    simp only [Function.update_apply]
    by_cases hj : j = fs.dir_count
    · rw [if_pos hj]
      exact h3 fs.dir_count
    · rw [if_neg hj]; exact h3 j


/-- The state and the return value of a `create_hard_link` that finds the name and is
not denied. -/
theorem create_hard_link_ok (fs : simplefs) (existing_name new_name : List Nat)
    (uid now : Int) (i : Nat) (hfind : find_entry fs existing_name = some i)
    (hok : (create_hard_link fs existing_name new_name uid now).2 = 0) :
    create_hard_link fs existing_name new_name uid now =
      ({ fs with
         inodes := Function.update fs.inodes (fs.directory i).inode_id
           { fs.inodes (fs.directory i).inode_id with
             ref_count := (fs.inodes (fs.directory i).inode_id).ref_count + 1 },
         directory := Function.update fs.directory fs.dir_count
           { fs.directory fs.dir_count with
             name := strncpy new_name MAX_NAME,
             inode_id := (fs.inodes (fs.directory i).inode_id).id,
             is_soft_link := 0 },
         logs := Function.update fs.logs (fs.log_count % MAX_LOGS)
           (make_log (fs.logs (fs.log_count % MAX_LOGS))
             (fmt_hard_link new_name existing_name uid)
             (fs.inodes (fs.directory i).inode_id).id now),
         dir_count := fs.dir_count + 1,
         log_count := fs.log_count + 1 }, 0) := by
  unfold create_hard_link at hok ⊢
  rw [hfind] at hok ⊢
  simp only [] at hok ⊢
  by_cases hd : (fs.inodes (fs.directory i).inode_id).owner_uid ≠ uid ∧
      ¬ ((fs.inodes (fs.directory i).inode_id).permissions.getD 7 0 = 119)
  · rw [if_pos hd] at hok
    simp at hok
  · rw [if_neg hd]


/-- C5 as amended (hard link to a regular entry).  In a state reached in bounds with a
free directory slot, when both names are shorter than `MAX_NAME`, the first entry that
matches `existing_name` is a regular entry (inode `k`), `new_name` matches no entry, and
`create_hard_link` returns success: reading
`new_name` and reading `existing_name` both return, with the same value and the same
buffer, for every requester and limit; the new directory entry is a regular entry bound
to inode `k`; the `ref_count` of inode `k` is one more than before; no other inode
changes; and the blocks and the block and inode counters are unchanged. -/
theorem hard_link_regular (fs : simplefs) (hin : ReachableInBounds fs)
    (existing_name new_name : List Nat) (uid now : Int) (i : Nat)
    (_hdir : fs.dir_count < MAX_INODES) (_hex : strlen existing_name < MAX_NAME)
    (hfind : find_entry fs existing_name = some i)
    (hreg : (fs.directory i).is_soft_link = 0)
    (hnew : strlen new_name < MAX_NAME) (hunbound : find_entry fs new_name = none)
    (hok : (create_hard_link fs existing_name new_name uid now).2 = 0) :
    (∀ (depth : Nat) (uid2 gid2 : Int) (buffer : Nat → Nat) (max_len now2 : Int),
      ∃ r1 r2,
        read_file (depth + 1) (create_hard_link fs existing_name new_name uid now).1
          new_name uid2 gid2 buffer max_len now2 = some r1 ∧
        read_file (depth + 1) (create_hard_link fs existing_name new_name uid now).1
          existing_name uid2 gid2 buffer max_len now2 = some r2 ∧
        r1.ret = r2.ret ∧ r1.buffer = r2.buffer) ∧
    ((create_hard_link fs existing_name new_name uid now).1.directory fs.dir_count).inode_id =
      (fs.directory i).inode_id ∧
    ((create_hard_link fs existing_name new_name uid now).1.directory fs.dir_count).is_soft_link =
      0 ∧
    (create_hard_link fs existing_name new_name uid now).1.dir_count = fs.dir_count + 1 ∧
    ((create_hard_link fs existing_name new_name uid now).1.inodes
      (fs.directory i).inode_id).ref_count =
      (fs.inodes (fs.directory i).inode_id).ref_count + 1 ∧
    (∀ k, k ≠ (fs.directory i).inode_id →
      (create_hard_link fs existing_name new_name uid now).1.inodes k = fs.inodes k) ∧
    (create_hard_link fs existing_name new_name uid now).1.blocks = fs.blocks ∧
    (create_hard_link fs existing_name new_name uid now).1.block_count = fs.block_count ∧
    (create_hard_link fs existing_name new_name uid now).1.inode_count = fs.inode_count := by
  obtain ⟨h1, h2, h3⟩ := reachable_inode_ids fs (reachable_of_in_bounds fs hin)
  have hidk : (fs.inodes (fs.directory i).inode_id).id = (fs.directory i).inode_id := by
    rcases h3 i with h | h
    · exact h1 _ h
    · rw [h]
      by_cases h0 : 0 < fs.inode_count
      · exact h1 0 h0
      · exact h2 0 (by omega)
  have hi : i < fs.dir_count := by
    have := (find_from_spec _ _ _ _ _ hfind).2.1
    omega
  rw [create_hard_link_ok fs existing_name new_name uid now i hfind hok, hidk]
  simp only [Function.update_same]
  refine ⟨?_, trivial, trivial, trivial, trivial, ?_, trivial, trivial, trivial⟩
  · intro depth uid2 gid2 buffer max_len now2
    have hfn : find_entry
        { fs with
          inodes := Function.update fs.inodes (fs.directory i).inode_id
            { fs.inodes (fs.directory i).inode_id with
              ref_count := (fs.inodes (fs.directory i).inode_id).ref_count + 1 },
          directory := Function.update fs.directory fs.dir_count
            { fs.directory fs.dir_count with
              name := strncpy new_name MAX_NAME,
              inode_id := (fs.directory i).inode_id,
              is_soft_link := 0 },
          logs := Function.update fs.logs (fs.log_count % MAX_LOGS)
            (make_log (fs.logs (fs.log_count % MAX_LOGS))
              (fmt_hard_link new_name existing_name uid)
              ((fs.directory i).inode_id : Int) now),
          dir_count := fs.dir_count + 1,
          log_count := fs.log_count + 1 } new_name = some fs.dir_count := by
      unfold find_entry
      simp only []
      rw [find_entry_append, hunbound]
      simp only []
      rw [if_pos]
      rw [strcmp_eq_zero_iff]
      exact cstr_strncpy new_name MAX_NAME (by omega)
    have hfe : find_entry
        { fs with
          inodes := Function.update fs.inodes (fs.directory i).inode_id
            { fs.inodes (fs.directory i).inode_id with
              ref_count := (fs.inodes (fs.directory i).inode_id).ref_count + 1 },
          directory := Function.update fs.directory fs.dir_count
            { fs.directory fs.dir_count with
              name := strncpy new_name MAX_NAME,
              inode_id := (fs.directory i).inode_id,
              is_soft_link := 0 },
          logs := Function.update fs.logs (fs.log_count % MAX_LOGS)
            (make_log (fs.logs (fs.log_count % MAX_LOGS))
              (fmt_hard_link new_name existing_name uid)
              ((fs.directory i).inode_id : Int) now),
          dir_count := fs.dir_count + 1,
          log_count := fs.log_count + 1 } existing_name = some i := by
      unfold find_entry
      simp only []
      rw [find_entry_append, hfind]
    have hdi : ∀ e : dir_entry, Function.update fs.directory fs.dir_count e i = fs.directory i :=
      fun e => Function.update_noteq (Nat.ne_of_lt hi) e fs.directory
    rw [read_file_regular_at depth _ new_name uid2 gid2 buffer max_len now2 fs.dir_count
      { fs.inodes (fs.directory i).inode_id with
        ref_count := (fs.inodes (fs.directory i).inode_id).ref_count + 1 } hfn
      (by simp only [Function.update_same])
      (by
        show Function.update fs.inodes (fs.directory i).inode_id _
          (Function.update fs.directory fs.dir_count _ fs.dir_count).inode_id = _
        rw [Function.update_same]
        exact Function.update_same _ _ _)]
    rw [read_file_regular_at depth _ existing_name uid2 gid2 buffer max_len now2 i
      { fs.inodes (fs.directory i).inode_id with
        ref_count := (fs.inodes (fs.directory i).inode_id).ref_count + 1 } hfe
      (by
        show (Function.update fs.directory fs.dir_count _ i).is_soft_link = 0
        rw [hdi]
        exact hreg)
      (by
        show Function.update fs.inodes (fs.directory i).inode_id _
          (Function.update fs.directory fs.dir_count _ i).inode_id = _
        rw [hdi]
        exact Function.update_same _ _ _)]
    split
    · exact ⟨_, _, rfl, rfl, rfl, rfl⟩
    · exact ⟨_, _, rfl, rfl, rfl, rfl⟩
  · intro k hk
    exact Function.update_noteq hk _ _


/-- Witness of C5 as amended: the owner links `h` to the file `a`. -/
theorem hard_link_regular_witness :
    (∃ r1 r2,
      read_file 1 (create_hard_link one_file_fs (str "a") (str "h") 1 9).1 (str "h") 2 2
        (fun _ => 0) 10 11 = some r1 ∧
      read_file 1 (create_hard_link one_file_fs (str "a") (str "h") 1 9).1 (str "a") 2 2
        (fun _ => 0) 10 11 = some r2 ∧
      r1.ret = r2.ret ∧ r1.buffer = r2.buffer) ∧
    ((create_hard_link one_file_fs (str "a") (str "h") 1 9).1.inodes 0).ref_count = 2 :=
  have h := hard_link_regular one_file_fs in_bounds_one_file_fs
    (str "a") (str "h") 1 9 0 (by decide) (by decide) (by decide) (by decide) (by decide)
    (by decide) (by decide)
  ⟨h.1 0 2 2 (fun _ => 0) 10 11, h.2.2.2.2.1⟩

set_option maxRecDepth 16384 in
/-- C5, counterexample: a new name of 257 characters.  `create_hard_link` succeeds and
stores 256 of them (`strncpy`), so the new entry never compares equal to the name:
`read_file` of the new name returns `-1` while `read_file` of the existing name returns
1 byte. -/
theorem hard_link_long_name_not_found :
    find_entry one_file_fs (str "a") = some 0 ∧
    find_entry one_file_fs (List.replicate 257 98) = none ∧
    (create_hard_link one_file_fs (str "a") (List.replicate 257 98) 1 9).2 = 0 ∧
    (read_file 2 (create_hard_link one_file_fs (str "a") (List.replicate 257 98) 1 9).1
      (List.replicate 257 98) 1 1 (fun _ => 0) 10 11).map (fun r => r.ret) = some (-1) ∧
    (read_file 2 (create_hard_link one_file_fs (str "a") (List.replicate 257 98) 1 9).1
      (str "a") 1 1 (fun _ => 0) 10 11).map (fun r => r.ret) = some 1 := by
  decide


/-! ## The frame of `read_file` -/

/-- What a `read_file` that returns does: either it fails (`-1`) and changes nothing, or
it has found the regular entry `j` behind the name `nm` at the end of the soft links,
copied `read_limit` bytes and appended the log entry of inode `j`. -/
theorem read_file_effect (depth : Nat) : ∀ (fs : simplefs) (name : List Nat) (uid gid : Int)
    (buffer : Nat → Nat) (max_len now : Int) (r : read_result),
    read_file depth fs name uid gid buffer max_len now = some r →
      (r.fs = fs ∧ r.buffer = buffer ∧ r.ret = -1) ∨
      ∃ j nm, find_entry fs nm = some j ∧ j < fs.dir_count ∧
        (fs.directory j).is_soft_link = 0 ∧
        can_read (fs.inodes (fs.directory j).inode_id) uid gid = true ∧
        r.fs = { fs with
          logs := Function.update fs.logs (fs.log_count % MAX_LOGS)
            (make_log (fs.logs (fs.log_count % MAX_LOGS)) (fmt_read_file nm uid gid)
              (fs.inodes (fs.directory j).inode_id).id now),
          log_count := fs.log_count + 1 } ∧
        r.ret = (read_limit (fs.inodes (fs.directory j).inode_id).size max_len : Nat) := by
  induction depth with
  | zero => intro fs name uid gid buffer max_len now r h; simp [read_file] at h
  | succ d ih =>
    intro fs name uid gid buffer max_len now r h
    cases hf : find_entry fs name with
    | none =>
      rw [read_file, hf] at h
      simp only [Option.some.injEq] at h
      left; rw [← h]; exact ⟨rfl, rfl, rfl⟩
    | some i =>
      by_cases hs : (fs.directory i).is_soft_link = 0
      · rw [read_file_regular d fs name uid gid buffer max_len now i hf hs] at h
        by_cases hc : can_read (fs.inodes (fs.directory i).inode_id) uid gid = false
        · rw [if_pos hc] at h
          simp only [Option.some.injEq] at h
          left; rw [← h]; exact ⟨rfl, rfl, rfl⟩
        · rw [if_neg hc] at h
          simp only [Option.some.injEq] at h
          right
          have hi : i < fs.dir_count := by
            have := (find_from_spec _ _ _ _ _ hf).2.1
            omega
          exact ⟨i, name, hf, hi, hs, by simpa using hc, by rw [← h], by rw [← h]⟩
      · rw [read_file, hf] at h
        simp only [] at h
        rw [if_pos hs] at h
        exact ih _ _ _ _ _ _ _ _ h

/-- The frame of C20 inside the tables.  In a state reached in bounds, for a name shorter
than `MAX_NAME` and any other arguments, when `read_file` returns, the state it leaves
has the same blocks, inodes, directory and block, inode and directory counters; every
log slot other than `log_count mod MAX_LOGS` is unchanged and `log_count` is unchanged
or one more; and when the result is the error value `-1` the whole state, log included,
and the caller's buffer are unchanged.  Once a directory entry has been written past the
end of `fs->directory` (C11) the log slot can be the memory of that entry. -/
theorem read_file_frame (depth : Nat) (fs : simplefs) (name : List Nat) (uid gid : Int)
    (buffer : Nat → Nat) (max_len now : Int) (r : read_result)
    (_hin : ReachableInBounds fs) (_hname : strlen name < MAX_NAME)
    (h : read_file depth fs name uid gid buffer max_len now = some r) :
    r.fs.blocks = fs.blocks ∧ r.fs.inodes = fs.inodes ∧ r.fs.directory = fs.directory ∧
    r.fs.block_count = fs.block_count ∧ r.fs.inode_count = fs.inode_count ∧
    r.fs.dir_count = fs.dir_count ∧
    (∀ s, s ≠ fs.log_count % MAX_LOGS → r.fs.logs s = fs.logs s) ∧
    (r.fs.log_count = fs.log_count ∨ r.fs.log_count = fs.log_count + 1) ∧
    (r.ret = -1 → r.fs = fs ∧ r.buffer = buffer) := by
  rcases read_file_effect depth fs name uid gid buffer max_len now r h with
    ⟨h1, h2, h3⟩ | ⟨j, nm, -, -, -, -, h1, h2⟩
  · rw [h1]
    exact ⟨rfl, rfl, rfl, rfl, rfl, rfl, fun _ _ => rfl, Or.inl rfl, fun _ => ⟨rfl, h2⟩⟩
  · rw [h1]
    refine ⟨rfl, rfl, rfl, rfl, rfl, rfl, ?_, Or.inr rfl, ?_⟩
    · intro s hs
      exact Function.update_noteq hs _ _
    · intro hr
      rw [h2] at hr
      omega

/-- The theorem `read_file_frame` at the owner's read of `secret.txt`. -/
theorem read_file_frame_witness :
    ∃ r, read_file 1 secret_fs (str "secret.txt") 1000 999 (fun _ => 0) 60000 7 = some r ∧
      r.fs.blocks = secret_fs.blocks ∧ r.fs.inodes = secret_fs.inodes ∧
      r.fs.directory = secret_fs.directory ∧
      (∀ s, s ≠ secret_fs.log_count % MAX_LOGS → r.fs.logs s = secret_fs.logs s) ∧
      (r.ret = -1 → r.fs = secret_fs ∧ r.buffer = fun _ => 0) := by
  have hs : (read_file 1 secret_fs (str "secret.txt") 1000 999 (fun _ => 0) 60000 7).isSome =
      true := by decide
  obtain ⟨r, hr⟩ := Option.isSome_iff_exists.1 hs
  have h := read_file_frame 1 secret_fs (str "secret.txt") 1000 999 (fun _ => 0) 60000 7 r
    in_bounds_secret_fs (by decide) hr
  exact ⟨r, hr, h.1, h.2.1, h.2.2.1, h.2.2.2.2.2.2.1, h.2.2.2.2.2.2.2.2⟩

/-! ## The log append -/

/-- The id an inode carries is the id a directory entry holds for it, in a reachable
state. -/
theorem reachable_entry_inode_id (fs : simplefs) (h : Reachable fs) (i : Nat) :
    (fs.inodes (fs.directory i).inode_id).id = (fs.directory i).inode_id := by
  obtain ⟨h1, h2, h3⟩ := reachable_inode_ids fs h
  rcases h3 i with h | h
  · exact h1 _ h
  · rw [h]
    by_cases h0 : 0 < fs.inode_count
    · exact h1 0 h0
    · exact h2 0 (by omega)

/-! ## Link creation and the block transform -/

/-- C13 as amended (hard-link write check).  In a state reached in bounds with a free
directory slot, for an `existing_name` shorter than `MAX_NAME`: when the first entry that
matches `existing_name` holds the inode id of `I`, `create_hard_link` succeeds exactly
when the requester is the owner of `I` or the permission character at index 7 (the
other-write position) is `'w'`; otherwise it returns `-1` and leaves the whole state
unchanged. -/
theorem hard_link_write_check (fs : simplefs) (existing_name new_name : List Nat)
    (uid now : Int) (i : Nat) (_hin : ReachableInBounds fs) (_hdir : fs.dir_count < MAX_INODES)
    (_hex : strlen existing_name < MAX_NAME)
    (hfind : find_entry fs existing_name = some i) :
    ((create_hard_link fs existing_name new_name uid now).2 = 0 ↔
      ((fs.inodes (fs.directory i).inode_id).owner_uid = uid ∨
        (fs.inodes (fs.directory i).inode_id).permissions.getD 7 0 = 119)) ∧
    ((create_hard_link fs existing_name new_name uid now).2 ≠ 0 →
      create_hard_link fs existing_name new_name uid now = (fs, -1)) := by
  unfold create_hard_link
  rw [hfind]
  simp only []
  by_cases hd : (fs.inodes (fs.directory i).inode_id).owner_uid ≠ uid ∧
      ¬ ((fs.inodes (fs.directory i).inode_id).permissions.getD 7 0 = 119)
  · rw [if_pos hd]
    refine ⟨⟨fun h => by simp at h, fun h => ?_⟩, fun _ => rfl⟩
    rcases h with h | h
    · exact absurd h hd.1
    · exact absurd h hd.2
  · rw [if_neg hd]
    refine ⟨⟨fun _ => ?_, fun _ => rfl⟩, fun h => absurd rfl h⟩
    by_cases ho : (fs.inodes (fs.directory i).inode_id).owner_uid = uid
    · exact Or.inl ho
    · right
      by_contra hp
      exact hd ⟨ho, hp⟩

/-- Witness of C13 as amended: user 2 links to the file of user 1 in `other_write_fs`. -/
theorem hard_link_write_check_witness :
    (create_hard_link other_write_fs (str "a") (str "h") 2 9).2 = 0 :=
  (hard_link_write_check other_write_fs (str "a") (str "h") 2 9 0 in_bounds_other_write_fs
    (by decide) (by decide) (by decide)).1.2 (Or.inr (by decide))

/-- C13, counterexample.  In `group_write_fs` the group-write character (index 4) of
the file `a` is `'w'`, and `create_hard_link` by user 2, who is not the owner, is
denied; in `other_write_fs` the group-write character is `'-'`, and the same call
succeeds. -/
theorem hard_link_group_write_not_tested :
    find_entry group_write_fs (str "a") = some 0 ∧
    (group_write_fs.inodes 0).owner_uid ≠ 2 ∧
    (group_write_fs.inodes 0).permissions.getD 4 0 = 119 ∧
    (create_hard_link group_write_fs (str "a") (str "h") 2 9).2 = -1 ∧
    find_entry other_write_fs (str "a") = some 0 ∧
    (other_write_fs.inodes 0).owner_uid ≠ 2 ∧
    (other_write_fs.inodes 0).permissions.getD 4 0 ≠ 119 ∧
    (create_hard_link other_write_fs (str "a") (str "h") 2 9).2 = 0 := by
  decide

/-- C14 (soft-link creation).  In a state with a free directory slot, for two names
shorter than `MAX_NAME`, `create_soft_link` returns `0` whether or not `existing_name`
is bound; it appends one directory entry, in slot `dir_count`, whose name is `new_name`,
whose soft-link flag is set and whose target is `existing_name`, and changes no other
slot; the inode and block counters, every inode and every block are unchanged; the log
entry it writes carries the inode id `-1`. -/
theorem create_soft_link_effect (fs : simplefs) (existing_name new_name : List Nat)
    (uid now : Int) (_hfree : fs.dir_count < MAX_INODES)
    (hex : strlen existing_name < MAX_NAME) (hnew : strlen new_name < MAX_NAME) :
    (create_soft_link fs existing_name new_name uid now).2 = 0 ∧
    (create_soft_link fs existing_name new_name uid now).1.dir_count = fs.dir_count + 1 ∧
    cstr ((create_soft_link fs existing_name new_name uid now).1.directory fs.dir_count).name =
      cstr new_name ∧
    ((create_soft_link fs existing_name new_name uid now).1.directory fs.dir_count).is_soft_link
      = 1 ∧
    cstr ((create_soft_link fs existing_name new_name uid now).1.directory
      fs.dir_count).link_path = cstr existing_name ∧
    (∀ j, j ≠ fs.dir_count →
      (create_soft_link fs existing_name new_name uid now).1.directory j = fs.directory j) ∧
    (create_soft_link fs existing_name new_name uid now).1.inode_count = fs.inode_count ∧
    (create_soft_link fs existing_name new_name uid now).1.block_count = fs.block_count ∧
    (create_soft_link fs existing_name new_name uid now).1.inodes = fs.inodes ∧
    (create_soft_link fs existing_name new_name uid now).1.blocks = fs.blocks ∧
    ((create_soft_link fs existing_name new_name uid now).1.logs
      (fs.log_count % MAX_LOGS)).related_inode_id = -1 ∧
    (create_soft_link fs existing_name new_name uid now).1.log_count = fs.log_count + 1 := by
  unfold create_soft_link
  simp only [Function.update_same]
  refine ⟨trivial, trivial, cstr_strncpy new_name MAX_NAME (by omega), trivial,
    cstr_strncpy existing_name MAX_NAME (by omega), ?_, trivial, trivial, trivial, trivial,
    rfl, trivial⟩
  intro j hj
  exact Function.update_noteq hj _ _

/-- Witness of C14: a soft link to a name that is not bound, on a fresh file system. -/
theorem create_soft_link_effect_witness :
    (create_soft_link init_fs (str "nowhere") (str "l") 1 9).2 = 0 ∧
    (create_soft_link init_fs (str "nowhere") (str "l") 1 9).1.dir_count = 1 ∧
    ((create_soft_link init_fs (str "nowhere") (str "l") 1 9).1.directory 0).is_soft_link = 1 :=
  have h := create_soft_link_effect init_fs (str "nowhere") (str "l") 1 9 (by decide)
    (by decide) (by decide)
  ⟨h.1, h.2.1, h.2.2.2.1⟩

/-- C15 (the block transform is an involution).  For every byte `b`: `(b ^ 0x55) ^ 0x55`
is `b`; the transform `xor55` that both allocation loops of `create_file` apply through
`write_block`, and that `read_file` applies through `read_block`, is `b ^ 0x55` and is
its own inverse; and a byte that `write_block` stores in any block is the byte
`read_block` gives back from that block. -/
theorem block_transform_involution (b : Nat) (hb : b < 256) :
    (b ^^^ 0x55) ^^^ 0x55 = b ∧ xor55 b = b ^^^ 0x55 ∧ xor55 (xor55 b) = b ∧
    ∀ (block_id : Nat) (mem buffer : Nat → Nat),
      (read_block (write_block [b] 1 block_id BLOCK_SIZE 0 mem 0).1 1 1 block_id BLOCK_SIZE 0
        buffer 0).1 0 = b := by
  have h1 : b ^^^ 0x55 < 2 ^ 8 := Nat.xor_lt_two_pow (by omega) (by norm_num)
  refine ⟨by rw [Nat.xor_assoc, Nat.xor_self, Nat.xor_zero], ?_, xor55_xor55 b hb, ?_⟩
  · unfold xor55
    exact Nat.mod_eq_of_lt (by omega)
  · intro block_id mem buffer
    rw [write_block_eq [b] 1 block_id BLOCK_SIZE 0 mem 0 (by omega),
      read_block_eq _ 1 1 block_id BLOCK_SIZE 0 buffer 0 (by omega)]
    have hl : read_limit 1 1 = 1 := by decide
    simp only [hl, BLOCK_SIZE]
    rw [if_pos (by omega), if_pos (by omega)]
    have e : 0 + (block_id * 4096 + 0 + (0 - 0) - (block_id * 4096 + 0)) = 0 := by omega
    rw [e]
    exact xor55_xor55 b hb

/-- Witness of C15: the byte `'A'`. -/
theorem block_transform_involution_witness :
    (65 ^^^ 0x55) ^^^ 0x55 = 65 ∧ xor55 65 = 65 ^^^ 0x55 ∧ xor55 (xor55 65) = 65 ∧
    ∀ (block_id : Nat) (mem buffer : Nat → Nat),
      (read_block (write_block [65] 1 block_id BLOCK_SIZE 0 mem 0).1 1 1 block_id BLOCK_SIZE 0
        buffer 0).1 0 = 65 :=
  block_transform_involution 65 (by decide)

/-! ## Failing inputs of the capacity and link claims -/

theorem reachable_iterate_soft_link (existing_name new_name : List Nat) (uid now : Int) :
    ∀ (n : Nat) (fs : simplefs), Reachable fs →
      Reachable ((fun fs => (create_soft_link fs existing_name new_name uid now).1)^[n] fs) := by
  intro n
  induction n with
  | zero => intro fs h; exact h
  | succ m ih =>
    intro fs h
    rw [Function.iterate_succ_apply]
    exact ih _ (Reachable.step_create_soft_link fs existing_name new_name uid now h)

theorem reachable_one_file_fs : Reachable one_file_fs :=
  Reachable.step_create_file init_fs (str "a") (str "r--------") 1 1 (str "x") 5 6
    Reachable.init

theorem reachable_full_dir_fs : Reachable full_dir_fs :=
  reachable_iterate_soft_link (str "a") (str "l") 1 9 127 one_file_fs reachable_one_file_fs

set_option maxRecDepth 100000 in
/-- C11, the failing input evaluated.  `full_dir_fs` is reachable and its directory
table is full (`dir_count = MAX_INODES`) while 127 inodes are free.  On it
`create_soft_link`, `create_hard_link` and `create_file` all return without an error
(`0`, `0` and the inode id `1`) and each leaves `dir_count` at 129: the entry is written
to slot 128, past the end of `fs->directory`. -/
theorem directory_table_overflows :
    Reachable full_dir_fs ∧
    full_dir_fs.dir_count = MAX_INODES ∧ full_dir_fs.inode_count = 1 ∧
    (create_soft_link full_dir_fs (str "a") (str "m") 1 10).2 = 0 ∧
    (create_soft_link full_dir_fs (str "a") (str "m") 1 10).1.dir_count = 129 ∧
    (create_hard_link full_dir_fs (str "a") (str "h") 1 10).2 = 0 ∧
    (create_hard_link full_dir_fs (str "a") (str "h") 1 10).1.dir_count = 129 ∧
    (create_file full_dir_fs (str "f") (str "rw-r--r--") 1 1 (str "y") 10 11).2 = 1 ∧
    (create_file full_dir_fs (str "f") (str "rw-r--r--") 1 1 (str "y") 10 11).1.dir_count =
      129 ∧
    MAX_INODES <
      (create_soft_link full_dir_fs (str "a") (str "m") 1 10).1.dir_count := by
  refine ⟨reachable_full_dir_fs, ?_⟩
  decide

theorem reachable_phantom_fs : Reachable phantom_fs :=
  Reachable.step_create_hard_link _ (str "s") (str "h") 0 6
    (Reachable.step_create_soft_link init_fs (str "x") (str "s") 0 5 Reachable.init)

/-- C16, the failing input evaluated.  In the reachable state `phantom_fs` the name `h`
is bound (entry 1, a regular entry holding the inode id 0, made by `create_hard_link` on
the soft link `s` while no inode existed) and `read_file` of `h` by user 0 is denied.
`create_file(fs, "h", "r--------", 0, 0, "new")` succeeds and becomes inode 0; the first
match for `h` is still entry 1, and `read_file` of `h` now returns the 3 bytes `new` of
the newly created file. -/
theorem earlier_entry_reads_new_file :
    Reachable phantom_fs ∧
    find_entry phantom_fs (str "h") = some 1 ∧
    (phantom_fs.directory 1).is_soft_link = 0 ∧ (phantom_fs.directory 1).inode_id = 0 ∧
    phantom_fs.inode_count = 0 ∧
    (read_file 1 phantom_fs (str "h") 0 0 (fun _ => 0) 10 7).map (fun r => r.ret) =
      some (-1) ∧
    (create_file phantom_fs (str "h") (str "r--------") 0 0 (str "new") 8 9).2 = 0 ∧
    find_entry (create_file phantom_fs (str "h") (str "r--------") 0 0 (str "new") 8 9).1
      (str "h") = some 1 ∧
    (read_file 1 (create_file phantom_fs (str "h") (str "r--------") 0 0 (str "new") 8 9).1
      (str "h") 0 0 (fun _ => 0) 10 10).map
        (fun r => (r.ret, r.buffer 0, r.buffer 1, r.buffer 2)) =
      some (3, 110, 101, 119) := by
  refine ⟨reachable_phantom_fs, ?_⟩
  decide

/-- C18, the failing input evaluated.  From the reachable state `phantom_fs` (table
sizes far from their limits), `create_file(fs, "f", ...)` makes inode 0 with
`ref_count = 1`, while two directory entries that are not soft links hold the inode id
0: `h` (entry 1) and `f` (entry 2). -/
theorem ref_count_below_link_count :
    Reachable (create_file phantom_fs (str "f") (str "r--------") 0 0 (str "new") 8 9).1 ∧
    (create_file phantom_fs (str "f") (str "r--------") 0 0 (str "new") 8 9).1.inode_count
      = 1 ∧
    (create_file phantom_fs (str "f") (str "r--------") 0 0 (str "new") 8 9).1.dir_count
      = 3 ∧
    (create_file phantom_fs (str "f") (str "r--------") 0 0 (str "new") 8 9).1.block_count
      = 1 ∧
    ((create_file phantom_fs (str "f") (str "r--------") 0 0 (str "new") 8 9).1.inodes
      0).id = 0 ∧
    ((create_file phantom_fs (str "f") (str "r--------") 0 0 (str "new") 8 9).1.inodes
      0).ref_count = 1 ∧
    link_count (create_file phantom_fs (str "f") (str "r--------") 0 0 (str "new") 8 9).1 0
      = 2 := by
  refine ⟨Reachable.step_create_file _ _ _ _ _ _ _ _ reachable_phantom_fs, ?_⟩
  decide

/-! ## Termination of the link resolution -/

/-- One level of `read_file` on a soft link. -/
theorem read_file_follow (fs : simplefs) (name t : List Nat) (uid gid : Int)
    (buffer : Nat → Nat) (max_len now : Int) (d : Nat) (h : link_target fs name = some t) :
    read_file (d + 1) fs name uid gid buffer max_len now =
      read_file d fs t uid gid buffer max_len now := by
  unfold link_target at h
  rw [read_file]
  cases hf : find_entry fs name with
  | none => rw [hf] at h; simp at h
  | some i =>
    rw [hf] at h
    simp only [] at h ⊢
    by_cases hs : (fs.directory i).is_soft_link ≠ 0
    · rw [if_pos hs] at h ⊢
      simp only [Option.some.injEq] at h
      rw [h]
    · rw [if_neg hs] at h
      simp at h

/-- The chain from `name` after its first hop is the chain from the target. -/
theorem link_chain_shift (fs : simplefs) (name t : List Nat)
    (h : link_target fs name = some t) :
    ∀ k, link_chain fs name (k + 1) = link_chain fs t k := by
  intro k
  induction k with
  | zero => rw [link_chain, link_chain, link_chain]; exact h
  | succ n ih => rw [link_chain, ih, link_chain]

theorem first_block_congr (fs fs2 : simplefs) : ∀ k,
    (∀ j, j < k → (fs2.inodes j).size = (fs.inodes j).size) →
    first_block fs2 k = first_block fs k := by
  intro k
  induction k with
  | zero => intro _; rfl
  | succ n ih =>
    intro h
    rw [first_block, first_block, ih (fun j hj => h j (by omega)), h n (by omega)]

theorem first_block_mono (fs : simplefs) (k m : Nat) (h : k ≤ m) :
    first_block fs k ≤ first_block fs m := by
  induction m with
  | zero =>
    have : k = 0 := by omega
    rw [this]
  | succ n ih =>
    by_cases hk : k = n + 1
    · rw [hk]
    · have := ih (by omega)
      rw [first_block]
      omega

/-- Every block below `first_block n` lies in the range of one inode below `n`. -/
theorem first_block_interval (fs : simplefs) (x : Nat) : ∀ n, x < first_block fs n →
    ∃ k, k < n ∧ first_block fs k ≤ x ∧ x < first_block fs (k + 1) := by
  intro n
  induction n with
  | zero => intro h; simp [first_block] at h
  | succ m ih =>
    intro h
    by_cases hx : x < first_block fs m
    · obtain ⟨k, hk, h1, h2⟩ := ih hx
      exact ⟨k, by omega, h1, h2⟩
    · exact ⟨m, by omega, by omega, h⟩

/-- The fields of the inodes that `create_hard_link` leaves alone. -/
theorem create_hard_link_inode_fields (fs : simplefs) (existing_name new_name : List Nat)
    (uid now : Int) (k : Nat) :
    ((create_hard_link fs existing_name new_name uid now).1.inodes k).size =
      (fs.inodes k).size ∧
    ((create_hard_link fs existing_name new_name uid now).1.inodes k).blocks =
      (fs.inodes k).blocks ∧
    ((create_hard_link fs existing_name new_name uid now).1.inodes k).indirect_block =
      (fs.inodes k).indirect_block ∧
    (create_hard_link fs existing_name new_name uid now).1.blocks = fs.blocks ∧
    (create_hard_link fs existing_name new_name uid now).1.block_count = fs.block_count ∧
    (create_hard_link fs existing_name new_name uid now).1.inode_count = fs.inode_count := by
  unfold create_hard_link
  cases hf : find_entry fs existing_name with
  | none => exact ⟨rfl, rfl, rfl, rfl, rfl, rfl⟩
  | some i =>
    simp only []
    split
    · exact ⟨rfl, rfl, rfl, rfl, rfl, rfl⟩
    · by_cases hk : k = (fs.directory i).inode_id
      · subst hk
        simp only [Function.update_same, and_self]
      · simp only [Function.update_noteq hk, and_self]

/-- The layout only depends on the blocks, the two counters and the size and block
fields of the inodes. -/
theorem block_layout_transfer (fs fs2 : simplefs) (h : block_layout fs)
    (hb : fs2.blocks = fs.blocks) (hbc : fs2.block_count = fs.block_count)
    (hic : fs2.inode_count = fs.inode_count)
    (hino : ∀ k, (fs2.inodes k).size = (fs.inodes k).size ∧
      (fs2.inodes k).blocks = (fs.inodes k).blocks ∧
      (fs2.inodes k).indirect_block = (fs.inodes k).indirect_block) :
    block_layout fs2 := by
  have hfb : ∀ k, first_block fs2 k = first_block fs k :=
    fun k => first_block_congr fs fs2 k (fun j _ => (hino j).1)
  obtain ⟨h1, h2, h3⟩ := h
  refine ⟨by rw [hbc, hic, hfb]; exact h1, by rw [hbc]; exact h2, ?_⟩
  intro k hk
  rw [hic] at hk
  rw [(hino k).1, (hino k).2.1, (hino k).2.2, hfb, hb]
  exact h3 k hk

/-- The layout holds in every state reached within the block capacity. -/
theorem reachable_block_layout (fs : simplefs) (h : ReachableInPool fs) : block_layout fs := by
  induction h with
  | init =>
    exact ⟨rfl, by decide, fun k hk => by simp [init_fs] at hk⟩
  | step_create_file fs name permissions uid gid data now_inode now_log _ hfit ih =>
    by_cases hg : fs.inode_count < MAX_INODES ∧ fs.block_count < MAX_BLOCKS
    · obtain ⟨h1, h2, h3⟩ := ih
      have hsz : (new_inode fs permissions uid gid data now_inode).size = strlen data := rfl
      have hfit2 : fs.block_count +
          blocks_used (new_inode fs permissions uid gid data now_inode).size ≤ MAX_BLOCKS := hfit
      have hcap : blocks_needed (new_inode fs permissions uid gid data now_inode).size - 12 ≤
          BLOCK_SIZE / 4 := by
        unfold blocks_used at hfit2
        simp only [BLOCK_SIZE, MAX_BLOCKS] at *
        split at hfit2 <;> omega
      have hbc := allocate_block_count fs _ data hcap
      have hasz := (allocate_ino_header fs _ data hcap).2.1
      rw [create_file_ok fs name permissions uid gid data now_inode now_log hg]
      have hfb : ∀ k, k ≤ fs.inode_count →
          first_block
            { blocks := (allocate fs (new_inode fs permissions uid gid data now_inode) data).blocks,
              inodes := Function.update fs.inodes fs.inode_count
                (allocate fs (new_inode fs permissions uid gid data now_inode) data).ino,
              directory := Function.update fs.directory fs.dir_count
                { fs.directory fs.dir_count with
                  name := strncpy name MAX_NAME,
                  inode_id :=
                    (allocate fs (new_inode fs permissions uid gid data now_inode) data).ino.id,
                  is_soft_link := 0 },
              logs := Function.update fs.logs (fs.log_count % MAX_LOGS)
                (make_log (fs.logs (fs.log_count % MAX_LOGS)) (fmt_create_file name uid gid)
                  (allocate fs (new_inode fs permissions uid gid data now_inode) data).ino.id
                  now_log),
              block_count :=
                (allocate fs (new_inode fs permissions uid gid data now_inode) data).block_count,
              inode_count := fs.inode_count + 1,
              dir_count := fs.dir_count + 1,
              log_count := fs.log_count + 1 } k = first_block fs k := by
        intro k hk
        apply first_block_congr
        intro j hj
        show (Function.update fs.inodes fs.inode_count _ j).size = _
        rw [Function.update_noteq (by omega)]
      refine ⟨?_, ?_, ?_⟩
      · show (allocate fs (new_inode fs permissions uid gid data now_inode) data).block_count = _
        rw [first_block, hfb _ (le_refl _), hbc, h1]
        show _ = _ + blocks_used (Function.update fs.inodes fs.inode_count _ fs.inode_count).size
        rw [Function.update_same, hasz]
      · show (allocate fs (new_inode fs permissions uid gid data now_inode) data).block_count ≤ _
        rw [hbc]; exact hfit2
      · intro k hk
        have hk2 : k ≤ fs.inode_count := by
          have : k < fs.inode_count + 1 := hk
          omega
        rw [hfb k hk2]
        show (∀ t, t < min (blocks_needed (Function.update fs.inodes fs.inode_count _ k).size) 12 →
            (Function.update fs.inodes fs.inode_count _ k).blocks t = _) ∧
          (12 < blocks_needed (Function.update fs.inodes fs.inode_count _ k).size →
            (Function.update fs.inodes fs.inode_count _ k).indirect_block = _ ∧
            ∀ t, 12 ≤ t → t < blocks_needed (Function.update fs.inodes fs.inode_count _ k).size →
              read_int (allocate fs (new_inode fs permissions uid gid data now_inode) data).blocks
                ((first_block fs k + 12) * BLOCK_SIZE + 4 * (t - 12)) = _)
        by_cases hkn : k = fs.inode_count
        · subst hkn
          rw [Function.update_same, hasz, ← h1]
          refine ⟨fun t ht => allocate_direct_slot fs _ data hcap t ht, fun hb => ?_⟩
          refine ⟨by rw [allocate_indirect_block fs _ data hcap, if_pos hb], ?_⟩
          intro t h12 ht
          exact allocate_pointer fs _ data hfit2 t h12 ht
        · rw [Function.update_noteq hkn]
          have hk3 : k < fs.inode_count := by omega
          obtain ⟨hd, hi⟩ := h3 k hk3
          refine ⟨hd, fun hb => ⟨(hi hb).1, ?_⟩⟩
          intro t h12 ht
          have hmono := first_block_mono fs (k + 1) fs.inode_count (by omega)
          rw [first_block, blocks_used_large _ hb, ← h1] at hmono
          rw [← (hi hb).2 t h12 ht]
          unfold read_int
          have hfr : ∀ a, a < fs.block_count * BLOCK_SIZE →
              (allocate fs (new_inode fs permissions uid gid data now_inode) data).blocks a =
                fs.blocks a := fun a ha => allocate_frame_below fs _ data hcap a ha
          rw [hfr _ (by simp only [BLOCK_SIZE, MAX_BLOCKS] at *; omega),
            hfr _ (by simp only [BLOCK_SIZE, MAX_BLOCKS] at *; omega),
            hfr _ (by simp only [BLOCK_SIZE, MAX_BLOCKS] at *; omega),
            hfr _ (by simp only [BLOCK_SIZE, MAX_BLOCKS] at *; omega)]
    · have : create_file fs name permissions uid gid data now_inode now_log = (fs, -1) := by
        unfold create_file; rw [if_pos (by omega)]
      rw [this]
      exact ih
  | step_read_file depth fs name uid gid buffer max_len now r _ hr ih =>
    rcases read_file_state depth fs name uid gid buffer max_len now r hr with h | ⟨t, id, h⟩
    · rw [h]; exact ih
    · rw [h]
      exact block_layout_transfer fs _ ih rfl rfl rfl (fun k => ⟨rfl, rfl, rfl⟩)
  | step_create_hard_link fs existing_name new_name uid now _ ih =>
    have hf := create_hard_link_inode_fields fs existing_name new_name uid now
    exact block_layout_transfer fs _ ih (hf 0).2.2.2.1 (hf 0).2.2.2.2.1 (hf 0).2.2.2.2.2
      (fun k => ⟨(hf k).1, (hf k).2.1, (hf k).2.2.1⟩)
  | step_create_soft_link fs existing_name new_name uid now _ ih =>
    exact block_layout_transfer fs _ ih rfl rfl rfl (fun k => ⟨rfl, rfl, rfl⟩)


/-- In the layout, a reference of inode `k` is to the block at the rank of its role in
the range of the inode, and the rank is inside the range. -/
theorem references_layout (fs : simplefs) (h : block_layout fs) (k : Nat)
    (hk : k < fs.inode_count) (role : block_role) (x : Nat) (hr : references fs k role x) :
    x = first_block fs k + role_rank role ∧
      role_rank role < blocks_used (fs.inodes k).size := by
  obtain ⟨-, -, h3⟩ := h
  obtain ⟨hd, hi⟩ := h3 k hk
  cases role with
  | direct t =>
    obtain ⟨ht, hx⟩ := hr
    refine ⟨by rw [← hx, hd t ht]; rfl, ?_⟩
    show t < _
    unfold blocks_used
    split <;> omega
  | indirect =>
    obtain ⟨hb, hx⟩ := hr
    refine ⟨by rw [← hx, (hi hb).1]; rfl, ?_⟩
    show 12 < _
    rw [blocks_used_large _ hb]
    omega
  | pointer t =>
    obtain ⟨h12, ht, hx⟩ := hr
    have hb : 12 < blocks_needed (fs.inodes k).size := by omega
    refine ⟨?_, ?_⟩
    · rw [← hx, (hi hb).1, (hi hb).2 t h12 ht]
      show _ = _ + (t + 1)
      omega
    · show t + 1 < _
      rw [blocks_used_large _ hb]
      omega

/-- In the layout, every rank inside the range of inode `k` is the rank of one role in
which the inode refers to the block at that rank. -/
theorem layout_references (fs : simplefs) (h : block_layout fs) (k : Nat)
    (hk : k < fs.inode_count) (o : Nat) (ho : o < blocks_used (fs.inodes k).size) :
    ∃ role, role_rank role = o ∧ references fs k role (first_block fs k + o) := by
  obtain ⟨-, -, h3⟩ := h
  obtain ⟨hd, hi⟩ := h3 k hk
  by_cases hb : 12 < blocks_needed (fs.inodes k).size
  · rw [blocks_used_large _ hb] at ho
    by_cases h1 : o < 12
    · exact ⟨block_role.direct o, rfl, by omega, hd o (by omega)⟩
    · by_cases h2 : o = 12
      · exact ⟨block_role.indirect, h2.symm, hb, by rw [h2]; exact (hi hb).1⟩
      · refine ⟨block_role.pointer (o - 1), ?_, by omega, by omega, ?_⟩
        · show o - 1 + 1 = o
          omega
        · rw [(hi hb).1, (hi hb).2 (o - 1) (by omega) (by omega)]
          omega
  · rw [blocks_used_small _ (by omega)] at ho
    exact ⟨block_role.direct o, rfl, by omega, hd o (by omega)⟩

theorem role_rank_injective (fs : simplefs) (k : Nat) (r1 r2 : block_role) (x1 x2 : Nat)
    (h1 : references fs k r1 x1) (h2 : references fs k r2 x2)
    (h : role_rank r1 = role_rank r2) : r1 = r2 := by
  cases r1 with
  | direct t1 =>
    cases r2 with
    | direct t2 => simp only [role_rank] at h; rw [h]
    | indirect => simp only [role_rank] at h; have := h1.1; omega
    | pointer t2 => simp only [role_rank] at h; have := h1.1; have := h2.1; omega
  | indirect =>
    cases r2 with
    | direct t2 => simp only [role_rank] at h; have := h2.1; omega
    | indirect => rfl
    | pointer t2 => simp only [role_rank] at h; have := h2.1; omega
  | pointer t1 =>
    cases r2 with
    | direct t2 => simp only [role_rank] at h; have := h1.1; have := h2.1; omega
    | indirect => simp only [role_rank] at h; have := h1.1; omega
    | pointer t2 =>
      simp only [role_rank] at h
      have : t1 = t2 := by omega
      rw [this]

/-- The block ownership of C19 inside the tables.  In every state reached in bounds from
`init_fs`: every block id below `block_count` is referred to by exactly one inode in
exactly one role (a direct slot in use, the indirect block, or an entry in use of the
pointer sequence); every id referred to is below `block_count`; the ids of an inode are
the consecutive ids from `first_block` on, in the order direct slots, indirect block,
pointer sequence, and the ids of an earlier inode are all below those of a later one; and
a later `create_file` whose payload fits in the pool writes no byte of the blocks below
`block_count`.  Once a soft link has been written past the end of `fs->directory` (C11)
this is no longer so: entry 181 of that array lies over the four counters. -/
theorem exclusive_block_ownership (fs : simplefs) (h : ReachableInBounds fs) :
    (∀ x, x < fs.block_count →
      ∃! p : Nat × block_role, p.1 < fs.inode_count ∧ references fs p.1 p.2 x) ∧
    (∀ k role x, k < fs.inode_count → references fs k role x → x < fs.block_count) ∧
    (∀ k role x, k < fs.inode_count → references fs k role x →
      x = first_block fs k + role_rank role) ∧
    (∀ k k2 role role2 x x2, k < k2 → k2 < fs.inode_count →
      references fs k role x → references fs k2 role2 x2 → x < x2) ∧
    (∀ (name permissions : List Nat) (uid gid : Int) (data : List Nat) (now_inode now_log : Int),
      fs.block_count + blocks_used (strlen data) ≤ MAX_BLOCKS →
      ∀ a, a < fs.block_count * BLOCK_SIZE →
        (create_file fs name permissions uid gid data now_inode now_log).1.blocks a =
          fs.blocks a) := by
  have hl := reachable_block_layout fs (in_pool_of_in_bounds fs h)
  have hbc := hl.1
  have hrange : ∀ k role x, k < fs.inode_count → references fs k role x →
      first_block fs k ≤ x ∧ x < first_block fs (k + 1) := by
    intro k role x hk hr
    obtain ⟨h1, h2⟩ := references_layout fs hl k hk role x hr
    rw [first_block]
    omega
  refine ⟨?_, ?_, ?_, ?_, ?_⟩
  · intro x hx
    rw [hbc] at hx
    obtain ⟨k, hk, h1, h2⟩ := first_block_interval fs x _ hx
    rw [first_block] at h2
    obtain ⟨role, hrank, href⟩ := layout_references fs hl k hk (x - first_block fs k) (by omega)
    have hxe : first_block fs k + (x - first_block fs k) = x := by omega
    rw [hxe] at href
    refine ⟨(k, role), ⟨hk, href⟩, ?_⟩
    rintro ⟨k2, role2⟩ ⟨hk2, href2⟩
    simp only [] at hk2 href2
    obtain ⟨h3, h4⟩ := hrange k2 role2 x hk2 href2
    have hkk : k2 = k := by
      by_contra hne
      rcases Nat.lt_or_gt_of_ne hne with hlt | hgt
      · have := first_block_mono fs (k2 + 1) k (by omega)
        omega
      · have := first_block_mono fs (k + 1) k2 (by omega)
        rw [first_block] at this
        omega
    subst hkk
    have e1 := (references_layout fs hl k2 hk2 role2 x href2).1
    have e2 := (references_layout fs hl k2 hk2 role x href).1
    have hrr : role2 = role :=
      role_rank_injective fs k2 role2 role x x href2 href (by omega)
    rw [hrr]
  · intro k role x hk hr
    obtain ⟨-, h2⟩ := hrange k role x hk hr
    have := first_block_mono fs (k + 1) fs.inode_count (by omega)
    omega
  · intro k role x hk hr
    exact (references_layout fs hl k hk role x hr).1
  · intro k k2 role role2 x x2 hkk hk2 hr hr2
    obtain ⟨-, h2⟩ := hrange k role x (by omega) hr
    obtain ⟨h3, -⟩ := hrange k2 role2 x2 hk2 hr2
    have := first_block_mono fs (k + 1) k2 (by omega)
    omega
  · intro name permissions uid gid data now_inode now_log hfit a ha
    by_cases hg : fs.inode_count < MAX_INODES ∧ fs.block_count < MAX_BLOCKS
    · have hfit2 : fs.block_count +
          blocks_used (new_inode fs permissions uid gid data now_inode).size ≤ MAX_BLOCKS := hfit
      have hcap : blocks_needed (new_inode fs permissions uid gid data now_inode).size - 12 ≤
          BLOCK_SIZE / 4 := by
        unfold blocks_used at hfit2
        simp only [BLOCK_SIZE, MAX_BLOCKS] at *
        split at hfit2 <;> omega
      rw [create_file_ok fs name permissions uid gid data now_inode now_log hg]
      exact allocate_frame_below fs _ data hcap a ha
    · have : create_file fs name permissions uid gid data now_inode now_log = (fs, -1) := by
        unfold create_file; rw [if_pos (by omega)]
      rw [this]

/-- The theorem `exclusive_block_ownership` at `one_file_fs`: block 0 has exactly one
owner and role. -/
theorem exclusive_block_ownership_witness :
    ∃! p : Nat × block_role,
      p.1 < one_file_fs.inode_count ∧ references one_file_fs p.1 p.2 0 :=
  (exclusive_block_ownership one_file_fs in_bounds_one_file_fs).1 0 (by decide)

/-! ## A second file under a bound name -/

/-- In the layout, the block that holds file block `idx` of inode `k`. -/
theorem block_of_layout (fs : simplefs) (h : block_layout fs) (k : Nat)
    (hk : k < fs.inode_count) (idx : Nat) (hidx : idx < blocks_needed (fs.inodes k).size) :
    block_of fs.blocks (fs.inodes k) idx =
      if idx < 12 then first_block fs k + idx else first_block fs k + 1 + idx := by
  obtain ⟨-, -, h3⟩ := h
  obtain ⟨hd, hi⟩ := h3 k hk
  by_cases h12 : idx < 12
  · rw [block_of_direct _ _ _ h12, if_pos h12]
    exact hd idx (by omega)
  · rw [block_of_indirect _ _ _ h12, if_neg h12]
    have hb : 12 < blocks_needed (fs.inodes k).size := by omega
    rw [(hi hb).1]
    exact (hi hb).2 idx (by omega) hidx

/-- A `create_file` whose payload fits in the pool leaves the files of the inodes in use
as they were. -/
theorem create_file_keeps_files (fs : simplefs) (h : ReachableInPool fs)
    (name permissions : List Nat) (uid gid : Int) (data : List Nat) (now_inode now_log : Int)
    (hfit : fs.block_count + blocks_used (strlen data) ≤ MAX_BLOCKS)
    (k : Nat) (hk : k < fs.inode_count) :
    (create_file fs name permissions uid gid data now_inode now_log).1.inodes k = fs.inodes k ∧
    ∀ t, t < (fs.inodes k).size →
      file_byte (create_file fs name permissions uid gid data now_inode now_log).1.blocks
        (fs.inodes k) t = file_byte fs.blocks (fs.inodes k) t := by
  have hl := reachable_block_layout fs h
  have hl2 := reachable_block_layout _
    (ReachableInPool.step_create_file fs name permissions uid gid data now_inode now_log h hfit)
  by_cases hg : fs.inode_count < MAX_INODES ∧ fs.block_count < MAX_BLOCKS
  · have hfit2 : fs.block_count +
        blocks_used (new_inode fs permissions uid gid data now_inode).size ≤ MAX_BLOCKS := hfit
    have hcap : blocks_needed (new_inode fs permissions uid gid data now_inode).size - 12 ≤
        BLOCK_SIZE / 4 := by
      unfold blocks_used at hfit2
      simp only [BLOCK_SIZE, MAX_BLOCKS] at *
      split at hfit2 <;> omega
    have hino : (create_file fs name permissions uid gid data now_inode now_log).1.inodes k =
        fs.inodes k := by
      rw [create_file_ok fs name permissions uid gid data now_inode now_log hg]
      exact Function.update_noteq (by omega) _ _
    have hic : (create_file fs name permissions uid gid data now_inode now_log).1.inode_count =
        fs.inode_count + 1 := by
      rw [create_file_ok fs name permissions uid gid data now_inode now_log hg]
    have hblk : ∀ a, a < fs.block_count * BLOCK_SIZE →
        (create_file fs name permissions uid gid data now_inode now_log).1.blocks a =
          fs.blocks a := by
      intro a ha
      rw [create_file_ok fs name permissions uid gid data now_inode now_log hg]
      exact allocate_frame_below fs _ data hcap a ha
    have hfb : first_block (create_file fs name permissions uid gid data now_inode now_log).1 k =
        first_block fs k := by
      apply first_block_congr
      intro j hj
      rw [create_file_ok fs name permissions uid gid data now_inode now_log hg]
      show (Function.update fs.inodes fs.inode_count _ j).size = _
      rw [Function.update_noteq (by omega)]
    refine ⟨hino, ?_⟩
    intro t ht
    have hidx : t / BLOCK_SIZE < blocks_needed (fs.inodes k).size := by
      unfold blocks_needed; simp only [BLOCK_SIZE]; omega
    have b1 := block_of_layout fs hl k hk (t / BLOCK_SIZE) hidx
    have b2 := block_of_layout _ hl2 k (by rw [hic]; omega) (t / BLOCK_SIZE)
      (by rw [hino]; exact hidx)
    rw [hino, hfb] at b2
    unfold file_byte
    rw [b1, b2]
    congr 1
    apply hblk
    have hmono := first_block_mono fs (k + 1) fs.inode_count (by omega)
    rw [first_block, ← hl.1] at hmono
    have hused : (if t / BLOCK_SIZE < 12 then first_block fs k + t / BLOCK_SIZE
        else first_block fs k + 1 + t / BLOCK_SIZE) < first_block fs k +
          blocks_used (fs.inodes k).size := by
      unfold blocks_used
      split <;> split <;> omega
    have hmod : t % BLOCK_SIZE < BLOCK_SIZE := Nat.mod_lt _ (by decide)
    generalize (if t / BLOCK_SIZE < 12 then first_block fs k + t / BLOCK_SIZE
        else first_block fs k + 1 + t / BLOCK_SIZE) = blk at hused ⊢
    simp only [BLOCK_SIZE] at *
    omega
  · have : create_file fs name permissions uid gid data now_inode now_log = (fs, -1) := by
      unfold create_file; rw [if_pos (by omega)]
    rw [this]
    exact ⟨rfl, fun _ _ => rfl⟩

/-- The companion of the failing input of C16.  In a state reached in bounds with a free
directory slot, for a name shorter than `MAX_NAME`: when the first entry that matches
`name` is a regular entry whose inode is in use, a `create_file` under the same name that
succeeds (its payload fitting in the pool) leaves that entry the first match, and
`read_file` of `name` returns the same value and the same bytes as before, for every
requester and limit. -/
theorem earlier_entry_in_use_keeps_content (fs : simplefs) (h : ReachableInBounds fs)
    (name permissions : List Nat) (uid gid : Int) (data : List Nat) (now_inode now_log : Int)
    (_hdir : fs.dir_count < MAX_INODES) (_hname : strlen name < MAX_NAME)
    (hfit : fs.block_count + blocks_used (strlen data) ≤ MAX_BLOCKS)
    (hg : fs.inode_count < MAX_INODES ∧ fs.block_count < MAX_BLOCKS)
    (i : Nat) (hfind : find_entry fs name = some i)
    (hreg : (fs.directory i).is_soft_link = 0)
    (huse : (fs.directory i).inode_id < fs.inode_count)
    (depth : Nat) (uid2 gid2 : Int) (buffer : Nat → Nat) (max_len now now2 : Int) :
    find_entry (create_file fs name permissions uid gid data now_inode now_log).1 name =
      some i ∧
    (read_file (depth + 1) (create_file fs name permissions uid gid data now_inode now_log).1
        name uid2 gid2 buffer max_len now2).map (fun r => (r.ret, r.buffer)) =
      (read_file (depth + 1) fs name uid2 gid2 buffer max_len now).map
        (fun r => (r.ret, r.buffer)) := by
  obtain ⟨hino, hbytes⟩ := create_file_keeps_files fs (in_pool_of_in_bounds fs h) name
    permissions uid gid data now_inode now_log hfit _ huse
  have hi : i < fs.dir_count := by
    have := (find_from_spec fs.directory name fs.dir_count 0 i hfind).2.1
    omega
  have hdir : (create_file fs name permissions uid gid data now_inode now_log).1.directory i =
      fs.directory i := by
    rw [create_file_ok fs name permissions uid gid data now_inode now_log hg]
    exact Function.update_noteq (by omega) _ _
  have hfind2 : find_entry (create_file fs name permissions uid gid data now_inode now_log).1
      name = some i := by
    rw [create_file_ok fs name permissions uid gid data now_inode now_log hg]
    show find_from (Function.update fs.directory fs.dir_count _) name (fs.dir_count + 1) 0 = _
    rw [find_entry_append, hfind]
  refine ⟨hfind2, ?_⟩
  rw [read_file_regular_at depth _ name uid2 gid2 buffer max_len now2 i
      (fs.inodes (fs.directory i).inode_id) hfind2 (by rw [hdir]; exact hreg)
      (by rw [hdir]; exact hino),
    read_file_regular depth fs name uid2 gid2 buffer max_len now i hfind hreg]
  by_cases hc : can_read (fs.inodes (fs.directory i).inode_id) uid2 gid2 = false
  · rw [if_pos hc, if_pos hc]; rfl
  · rw [if_neg hc, if_neg hc]
    simp only [Option.map_some', Option.some.injEq, Prod.mk.injEq, true_and]
    funext k
    by_cases hk : k < read_limit (fs.inodes (fs.directory i).inode_id).size max_len
    · rw [if_pos hk, if_pos hk]
      apply hbytes
      unfold read_limit at hk
      omega
    · rw [if_neg hk, if_neg hk]

/-- The theorem `earlier_entry_in_use_keeps_content` at `one_file_fs`: a second file
created under the name `a` leaves entry 0 the first match, and user 1 reads the same from
`a` as before. -/
theorem earlier_entry_in_use_keeps_content_witness :
    find_entry (create_file one_file_fs (str "a") (str "rw-------") 2 2 (str "yy") 7 8).1
      (str "a") = some 0 ∧
    (read_file 1 (create_file one_file_fs (str "a") (str "rw-------") 2 2 (str "yy") 7 8).1
        (str "a") 1 1 (fun _ => 0) 10 9).map (fun r => (r.ret, r.buffer)) =
      (read_file 1 one_file_fs (str "a") 1 1 (fun _ => 0) 10 9).map
        (fun r => (r.ret, r.buffer)) :=
  earlier_entry_in_use_keeps_content one_file_fs in_bounds_one_file_fs
    (str "a") (str "rw-------") 2 2 (str "yy") 7 8 (by decide) (by decide) (by decide)
    (by decide) 0 (by decide) (by decide) (by decide) 0 1 1 (fun _ => 0) 10 9 9

/-! ## Reference counts -/

/-- The allocation keeps the `ref_count` of the inode, whatever the payload. -/
theorem allocate_ino_ref_count (fs : simplefs) (ino : inode) (data : List Nat) :
    (allocate fs ino data).ino.ref_count = ino.ref_count := by
  unfold allocate
  simp only []
  split
  · rw [indirect_loop_ino]
    exact (direct_loop_ino _ _ _ _ _ _).2.2.2.1
  · exact (direct_loop_ino _ _ _ _ _ _).2.2.2.1

/-- The count of an id when the directory has not changed. -/
theorem link_count_congr (fs fs2 : simplefs) (hdc : fs2.dir_count = fs.dir_count)
    (hdir : ∀ j, j < fs.dir_count → fs2.directory j = fs.directory j) (k : Nat) :
    link_count fs2 k = link_count fs k := by
  unfold link_count
  rw [hdc]
  congr 1
  apply List.filter_congr
  intro j hj
  rw [hdir j (List.mem_range.1 hj)]

/-- The count of an id after one entry has been appended to the directory. -/
theorem link_count_append (fs fs2 : simplefs) (hdc : fs2.dir_count = fs.dir_count + 1)
    (hdir : ∀ j, j < fs.dir_count → fs2.directory j = fs.directory j) (k : Nat) :
    link_count fs2 k = link_count fs k +
      if (fs2.directory fs.dir_count).is_soft_link = 0 ∧
        (fs2.directory fs.dir_count).inode_id = k then 1 else 0 := by
  unfold link_count
  rw [hdc, List.range_succ, List.filter_append, List.length_append]
  congr 1
  · congr 1
    apply List.filter_congr
    intro j hj
    rw [hdir j (List.mem_range.1 hj)]
  · by_cases hc : (fs2.directory fs.dir_count).is_soft_link = 0 ∧
        (fs2.directory fs.dir_count).inode_id = k
    · rw [if_pos hc, List.filter_cons_of_pos (by simpa using hc)]
      rfl
    · rw [if_neg hc, List.filter_cons_of_neg (by simpa using hc)]
      rfl

/-- No regular entry holds an id that is not in use: its count is 0. -/
theorem link_count_unused (fs : simplefs)
    (h : ∀ j, j < fs.dir_count → (fs.directory j).is_soft_link = 0 →
      (fs.directory j).inode_id < fs.inode_count) (k : Nat) (hk : fs.inode_count ≤ k) :
    link_count fs k = 0 := by
  unfold link_count
  rw [List.length_eq_zero, List.filter_eq_nil_iff]
  intro j hj
  have := h j (List.mem_range.1 hj)
  simp only [decide_eq_true_eq, not_and]
  intro hs
  have := this hs
  omega

/-- The link invariant holds in every state reached without a hard link to a soft link. -/
theorem reachable_link_invariant (fs : simplefs) (h : ReachableRegular fs) :
    link_invariant fs := by
  induction h with
  | init =>
    exact ⟨fun k hk => by simp [init_fs] at hk, fun j hj => by simp [init_fs] at hj,
      fun k hk => by simp [init_fs] at hk⟩
  | step_create_file fs name permissions uid gid data now_inode now_log _ _ _ ih =>
    by_cases hg : fs.inode_count < MAX_INODES ∧ fs.block_count < MAX_BLOCKS
    · obtain ⟨h1, h2, h3⟩ := ih
      have hid : (allocate fs (new_inode fs permissions uid gid data now_inode) data).ino.id =
          fs.inode_count := allocate_ino_id _ _ _
      have hrc : (allocate fs (new_inode fs permissions uid gid data now_inode)
          data).ino.ref_count = 1 := allocate_ino_ref_count _ _ _
      have hfacts : (create_file fs name permissions uid gid data now_inode now_log).1.inode_count
            = fs.inode_count + 1 ∧
          (create_file fs name permissions uid gid data now_inode now_log).1.dir_count
            = fs.dir_count + 1 ∧
          (∀ j, j ≠ fs.dir_count →
            (create_file fs name permissions uid gid data now_inode now_log).1.directory j =
              fs.directory j) ∧
          ((create_file fs name permissions uid gid data now_inode now_log).1.directory
            fs.dir_count).is_soft_link = 0 ∧
          ((create_file fs name permissions uid gid data now_inode now_log).1.directory
            fs.dir_count).inode_id = fs.inode_count ∧
          (∀ k, k ≠ fs.inode_count →
            (create_file fs name permissions uid gid data now_inode now_log).1.inodes k =
              fs.inodes k) ∧
          ((create_file fs name permissions uid gid data now_inode now_log).1.inodes
            fs.inode_count).id = fs.inode_count ∧
          ((create_file fs name permissions uid gid data now_inode now_log).1.inodes
            fs.inode_count).ref_count = 1 := by
        rw [create_file_ok fs name permissions uid gid data now_inode now_log hg]
        refine ⟨rfl, rfl, fun j hj => Function.update_noteq hj _ _, ?_, ?_,
          fun k hk => Function.update_noteq hk _ _, ?_, ?_⟩
        · show (Function.update fs.directory fs.dir_count _ fs.dir_count).is_soft_link = 0
          rw [Function.update_same]
        · show (Function.update fs.directory fs.dir_count _ fs.dir_count).inode_id = _
          rw [Function.update_same]; exact hid
        · show (Function.update fs.inodes fs.inode_count _ fs.inode_count).id = _
          rw [Function.update_same]; exact hid
        · show (Function.update fs.inodes fs.inode_count _ fs.inode_count).ref_count = _
          rw [Function.update_same]; exact hrc
      generalize (create_file fs name permissions uid gid data now_inode now_log).1 = fs2
        at hfacts ⊢
      obtain ⟨f1, f2, f3, f4, f5, f6, f7, f8⟩ := hfacts
      have hlc := link_count_append fs fs2 f2 (fun j hj => f3 j (by omega))
      rw [f4, f5] at hlc
      refine ⟨?_, ?_, ?_⟩
      · intro k hk
        by_cases hk2 : k = fs.inode_count
        · rw [hk2]; exact f7
        · rw [f6 k hk2]; exact h1 k (by omega)
      · intro j hj hs
        by_cases hj2 : j = fs.dir_count
        · rw [hj2, f5]; omega
        · rw [f3 j hj2] at hs ⊢
          have := h2 j (by omega) hs
          omega
      · intro k hk
        rw [hlc k]
        by_cases hk2 : k = fs.inode_count
        · rw [hk2, f8, link_count_unused fs h2 _ (le_refl _), if_pos ⟨rfl, rfl⟩]
        · rw [f6 k hk2, if_neg (fun e => hk2 e.2.symm), h3 k (by omega)]
          rfl
    · have : create_file fs name permissions uid gid data now_inode now_log = (fs, -1) := by
        unfold create_file; rw [if_pos (by omega)]
      rw [this]
      exact ih
  | step_read_file depth fs name uid gid buffer max_len now r _ _ hr ih =>
    rcases read_file_state depth fs name uid gid buffer max_len now r hr with h | ⟨t, id, h⟩
    · rw [h]; exact ih
    · rw [h]
      obtain ⟨h1, h2, h3⟩ := ih
      exact ⟨h1, h2, fun k hk => (h3 k hk).trans (link_count_congr fs _ rfl (fun _ _ => rfl) k).symm⟩
  | step_create_hard_link fs existing_name new_name uid now _ _ _ hreg ih =>
    cases hf : find_entry fs existing_name with
    | none =>
      have : create_hard_link fs existing_name new_name uid now = (fs, -1) := by
        unfold create_hard_link; rw [hf]
      rw [this]; exact ih
    | some i =>
      by_cases hok : (create_hard_link fs existing_name new_name uid now).2 = 0
      · obtain ⟨h1, h2, h3⟩ := ih
        have hi : i < fs.dir_count := by
          have := (find_from_spec fs.directory existing_name fs.dir_count 0 i hf).2.1
          omega
        have hk0 := h2 i hi (hreg i hf)
        have hid := h1 _ hk0
        have hfacts : (create_hard_link fs existing_name new_name uid now).1.inode_count
              = fs.inode_count ∧
            (create_hard_link fs existing_name new_name uid now).1.dir_count
              = fs.dir_count + 1 ∧
            (∀ j, j ≠ fs.dir_count →
              (create_hard_link fs existing_name new_name uid now).1.directory j =
                fs.directory j) ∧
            ((create_hard_link fs existing_name new_name uid now).1.directory
              fs.dir_count).is_soft_link = 0 ∧
            ((create_hard_link fs existing_name new_name uid now).1.directory
              fs.dir_count).inode_id = (fs.directory i).inode_id ∧
            (∀ k, k ≠ (fs.directory i).inode_id →
              (create_hard_link fs existing_name new_name uid now).1.inodes k =
                fs.inodes k) ∧
            ((create_hard_link fs existing_name new_name uid now).1.inodes
              (fs.directory i).inode_id).id = (fs.directory i).inode_id ∧
            ((create_hard_link fs existing_name new_name uid now).1.inodes
              (fs.directory i).inode_id).ref_count =
                (fs.inodes (fs.directory i).inode_id).ref_count + 1 := by
          rw [create_hard_link_ok fs existing_name new_name uid now i hf hok]
          refine ⟨rfl, rfl, fun j hj => Function.update_noteq hj _ _, ?_, ?_,
            fun k hk => Function.update_noteq hk _ _, ?_, ?_⟩
          · show (Function.update fs.directory fs.dir_count _ fs.dir_count).is_soft_link = 0
            rw [Function.update_same]
          · show (Function.update fs.directory fs.dir_count _ fs.dir_count).inode_id = _
            rw [Function.update_same]; exact hid
          · show (Function.update fs.inodes (fs.directory i).inode_id _
              (fs.directory i).inode_id).id = _
            rw [Function.update_same]; exact hid
          · show (Function.update fs.inodes (fs.directory i).inode_id _
              (fs.directory i).inode_id).ref_count = _
            rw [Function.update_same]
        generalize (create_hard_link fs existing_name new_name uid now).1 = fs2 at hfacts ⊢
        obtain ⟨f1, f2, f3, f4, f5, f6, f7, f8⟩ := hfacts
        have hlc := link_count_append fs fs2 f2 (fun j hj => f3 j (by omega))
        rw [f4, f5] at hlc
        refine ⟨?_, ?_, ?_⟩
        · intro k hk
          by_cases hk2 : k = (fs.directory i).inode_id
          · rw [hk2]; exact f7
          · rw [f6 k hk2]; exact h1 k (by omega)
        · intro j hj hs
          by_cases hj2 : j = fs.dir_count
          · rw [hj2, f5, f1]; exact hk0
          · rw [f3 j hj2] at hs ⊢
            have := h2 j (by omega) hs
            omega
        · intro k hk
          rw [hlc k]
          by_cases hk2 : k = (fs.directory i).inode_id
          · rw [hk2, f8, if_pos ⟨rfl, rfl⟩, h3 _ hk0]
          · rw [f6 k hk2, if_neg (fun e => hk2 e.2.symm), h3 k (by omega)]
            rfl
      · have : (create_hard_link fs existing_name new_name uid now).1 = fs := by
          unfold create_hard_link at hok ⊢
          rw [hf] at hok ⊢
          simp only [] at hok ⊢
          split
          · rfl
          · rename_i hd
            rw [if_neg hd] at hok
            exact absurd rfl hok
        rw [this]; exact ih
  | step_create_soft_link fs existing_name new_name uid now _ _ _ ih =>
    obtain ⟨h1, h2, h3⟩ := ih
    have hlc := link_count_append fs (create_soft_link fs existing_name new_name uid now).1
      rfl (fun j hj => Function.update_noteq (by omega) _ _)
    have hnew : ((create_soft_link fs existing_name new_name uid now).1.directory
        fs.dir_count).is_soft_link = 1 := by
      show (Function.update fs.directory fs.dir_count _ fs.dir_count).is_soft_link = 1
      rw [Function.update_same]
    refine ⟨h1, ?_, ?_⟩
    · intro j hj hs
      have hj1 : j < fs.dir_count + 1 := hj
      by_cases hj2 : j = fs.dir_count
      · rw [hj2, hnew] at hs
        exact absurd hs (by decide)
      · have e : (create_soft_link fs existing_name new_name uid now).1.directory j =
            fs.directory j := Function.update_noteq hj2 _ _
        rw [e] at hs ⊢
        exact h2 j (by omega) hs
    · intro k hk
      rw [hlc k, hnew, if_neg (by simp)]
      exact h3 k hk

/-- The companion of the failing input of C18.  Inside the tables and without a hard link
made to a soft link, the `ref_count` of every inode in use is the number of regular
directory entries that hold its id. -/
theorem ref_count_is_link_count (fs : simplefs) (h : ReachableRegular fs) (k : Nat)
    (hk : k < fs.inode_count) : (fs.inodes k).ref_count = link_count fs k :=
  (reachable_link_invariant fs h).2.2 k hk

/-- The theorem `ref_count_is_link_count` at the file `a` with one hard link `b`: inode 0
has `ref_count = 2` and two regular entries hold its id. -/
theorem ref_count_is_link_count_witness :
    ((create_hard_link one_file_fs (str "a") (str "b") 1 7).1.inodes 0).ref_count =
        link_count (create_hard_link one_file_fs (str "a") (str "b") 1 7).1 0 ∧
      link_count (create_hard_link one_file_fs (str "a") (str "b") 1 7).1 0 = 2 :=
  ⟨ref_count_is_link_count (create_hard_link one_file_fs (str "a") (str "b") 1 7).1
    (ReachableRegular.step_create_hard_link one_file_fs (str "a") (str "b") 1 7
      (ReachableRegular.step_create_file init_fs (str "a") (str "r--------") 1 1 (str "x") 5 6
        ReachableRegular.init (by decide) (by decide))
      (by decide) (by decide)
      (by
        intro i hi
        have h0 : find_entry one_file_fs (str "a") = some 0 := by decide
        rw [h0] at hi
        cases hi
        decide))
    0 (by decide), by decide⟩

/-! ## The tables of a state reached in bounds -/

/-- The counters `create_hard_link` changes. -/
theorem create_hard_link_dir_count (fs : simplefs) (existing_name new_name : List Nat)
    (uid now : Int) :
    (create_hard_link fs existing_name new_name uid now).1.dir_count = fs.dir_count ∨
    (create_hard_link fs existing_name new_name uid now).1.dir_count = fs.dir_count + 1 := by
  unfold create_hard_link
  cases find_entry fs existing_name with
  | none => exact Or.inl rfl
  | some i =>
    simp only []
    split
    · exact Or.inl rfl
    · exact Or.inr rfl

/-- In a state reached in bounds every counter is within its table. -/
theorem in_bounds_counters (fs : simplefs) (h : ReachableInBounds fs) :
    fs.block_count ≤ MAX_BLOCKS ∧ fs.inode_count ≤ MAX_INODES ∧ fs.dir_count ≤ MAX_INODES := by
  refine ⟨(reachable_block_layout fs (in_pool_of_in_bounds fs h)).2.1, ?_⟩
  induction h with
  | init => exact ⟨by decide, by decide⟩
  | step_create_file fs name permissions uid gid data now_inode now_log _ hdir _ ih =>
    by_cases hg : fs.inode_count < MAX_INODES ∧ fs.block_count < MAX_BLOCKS
    · rw [create_file_ok fs name permissions uid gid data now_inode now_log hg]
      simp only [MAX_INODES] at *
      exact ⟨by omega, by omega⟩
    · have : create_file fs name permissions uid gid data now_inode now_log = (fs, -1) := by
        unfold create_file; rw [if_pos (by omega)]
      rw [this]
      exact ih
  | step_read_file depth fs name uid gid buffer max_len now r _ _ hr ih =>
    rcases read_file_state depth fs name uid gid buffer max_len now r hr with h | ⟨t, id, h⟩
    · rw [h]; exact ih
    · rw [h]; exact ih
  | step_create_hard_link fs existing_name new_name uid now _ hdir _ ih =>
    have hic := (create_hard_link_inode_fields fs existing_name new_name uid now 0).2.2.2.2.2
    rw [hic]
    rcases create_hard_link_dir_count fs existing_name new_name uid now with h | h
    · rw [h]; exact ih
    · rw [h]; exact ⟨ih.1, by omega⟩
  | step_create_soft_link fs existing_name new_name uid now _ hdir _ ih =>
    exact ⟨ih.1, by show fs.dir_count + 1 ≤ MAX_INODES; omega⟩

/-- In a state reached in bounds the target of every soft link is shorter than
`MAX_NAME`: the `link_path` field holds it with its NUL. -/
theorem in_bounds_link_paths (fs : simplefs) (h : ReachableInBounds fs) :
    ∀ j, j < fs.dir_count → (fs.directory j).is_soft_link ≠ 0 →
      strlen (fs.directory j).link_path < MAX_NAME := by
  induction h with
  | init => intro j hj; simp [init_fs] at hj
  | step_create_file fs name permissions uid gid data now_inode now_log _ _ _ ih =>
    by_cases hg : fs.inode_count < MAX_INODES ∧ fs.block_count < MAX_BLOCKS
    · rw [create_file_ok fs name permissions uid gid data now_inode now_log hg]
      intro j hj hs
      have hj1 : j < fs.dir_count + 1 := hj
      by_cases hj2 : j = fs.dir_count
      · subst hj2
        have : (Function.update fs.directory fs.dir_count
            { fs.directory fs.dir_count with
              name := strncpy name MAX_NAME,
              inode_id := (allocate fs (new_inode fs permissions uid gid data now_inode)
                data).ino.id,
              is_soft_link := 0 } fs.dir_count).is_soft_link = 0 := by
          rw [Function.update_same]
        exact absurd this hs
      · have e : ∀ x, Function.update fs.directory fs.dir_count x j = fs.directory j :=
          fun x => Function.update_noteq hj2 x fs.directory
        simp only [e] at hs ⊢
        exact ih j (by omega) hs
    · have : create_file fs name permissions uid gid data now_inode now_log = (fs, -1) := by
        unfold create_file; rw [if_pos (by omega)]
      rw [this]
      exact ih
  | step_read_file depth fs name uid gid buffer max_len now r _ _ hr ih =>
    rcases read_file_state depth fs name uid gid buffer max_len now r hr with h | ⟨t, id, h⟩
    · rw [h]; exact ih
    · rw [h]; exact ih
  | step_create_hard_link fs existing_name new_name uid now _ _ _ ih =>
    cases hf : find_entry fs existing_name with
    | none =>
      have : create_hard_link fs existing_name new_name uid now = (fs, -1) := by
        unfold create_hard_link; rw [hf]
      rw [this]; exact ih
    | some i =>
      by_cases hok : (create_hard_link fs existing_name new_name uid now).2 = 0
      · rw [create_hard_link_ok fs existing_name new_name uid now i hf hok]
        intro j hj hs
        have hj1 : j < fs.dir_count + 1 := hj
        by_cases hj2 : j = fs.dir_count
        · subst hj2
          have : (Function.update fs.directory fs.dir_count
              { fs.directory fs.dir_count with
                name := strncpy new_name MAX_NAME,
                inode_id := (fs.inodes (fs.directory i).inode_id).id,
                is_soft_link := 0 } fs.dir_count).is_soft_link = 0 := by
            rw [Function.update_same]
          exact absurd this hs
        · have e : ∀ x, Function.update fs.directory fs.dir_count x j = fs.directory j :=
            fun x => Function.update_noteq hj2 x fs.directory
          simp only [e] at hs ⊢
          exact ih j (by omega) hs
      · have : (create_hard_link fs existing_name new_name uid now).1 = fs := by
          unfold create_hard_link at hok ⊢
          rw [hf] at hok ⊢
          simp only [] at hok ⊢
          split
          · rfl
          · rename_i hd
            rw [if_neg hd] at hok
            exact absurd rfl hok
        rw [this]; exact ih
  | step_create_soft_link fs existing_name new_name uid now _ _ hex ih =>
    intro j hj hs
    have hj1 : j < fs.dir_count + 1 := hj
    by_cases hj2 : j = fs.dir_count
    · subst hj2
      have e : ((create_soft_link fs existing_name new_name uid now).1.directory
          fs.dir_count).link_path = strncpy existing_name MAX_NAME := by
        show (Function.update fs.directory fs.dir_count _ fs.dir_count).link_path = _
        rw [Function.update_same]
      rw [e]
      unfold strlen
      rw [cstr_strncpy existing_name MAX_NAME (by omega)]
      exact hex
    · have e : (create_soft_link fs existing_name new_name uid now).1.directory j =
          fs.directory j := Function.update_noteq hj2 _ _
      rw [e] at hs ⊢
      exact ih j (by omega) hs

/-! ## Names longer than the name field -/

/-- A `read_file` that returns a byte count has followed the soft links from `name` for
some number `k` of hops to the name `nm`, whose first match `j` is a regular entry; it
has appended the log entry of the inode of that entry. -/
theorem read_file_resolves (depth : Nat) : ∀ (fs : simplefs) (name : List Nat) (uid gid : Int)
    (buffer : Nat → Nat) (max_len now : Int) (r : read_result),
    read_file depth fs name uid gid buffer max_len now = some r → r.ret ≠ -1 →
      ∃ k nm j, link_chain fs name k = some nm ∧ find_entry fs nm = some j ∧
        (fs.directory j).is_soft_link = 0 ∧
        r.fs = { fs with
          logs := Function.update fs.logs (fs.log_count % MAX_LOGS)
            (make_log (fs.logs (fs.log_count % MAX_LOGS)) (fmt_read_file nm uid gid)
              (fs.inodes (fs.directory j).inode_id).id now),
          log_count := fs.log_count + 1 } := by
  induction depth with
  | zero => intro fs name uid gid buffer max_len now r h; simp [read_file] at h
  | succ d ih =>
    intro fs name uid gid buffer max_len now r h hret
    cases hf : find_entry fs name with
    | none =>
      rw [read_file, hf] at h
      simp only [Option.some.injEq] at h
      rw [← h] at hret
      exact absurd rfl hret
    | some i =>
      by_cases hs : (fs.directory i).is_soft_link = 0
      · rw [read_file_regular d fs name uid gid buffer max_len now i hf hs] at h
        by_cases hc : can_read (fs.inodes (fs.directory i).inode_id) uid gid = false
        · rw [if_pos hc] at h
          simp only [Option.some.injEq] at h
          rw [← h] at hret
          exact absurd rfl hret
        · rw [if_neg hc] at h
          simp only [Option.some.injEq] at h
          exact ⟨0, name, i, rfl, hf, hs, by rw [← h]⟩
      · have ht : link_target fs name = some (fs.directory i).link_path := by
          unfold link_target
          rw [hf]
          simp only []
          rw [if_pos hs]
        rw [read_file_follow fs name _ uid gid buffer max_len now d ht] at h
        obtain ⟨k, nm, j, hk, hj, hreg, hfs⟩ := ih _ _ _ _ _ _ _ _ h hret
        exact ⟨k + 1, nm, j, by rw [link_chain_shift fs name _ ht]; exact hk, hj, hreg, hfs⟩

/-- The log append of C12 inside the tables.  In a state reached in bounds, each operation
that stays in bounds and completes successfully raises `log_count` by one and writes one
log entry, at slot `log_count mod MAX_LOGS` (the old count), leaving every other slot as
it was.  The entry carries: for `create_file` the id of the new inode (the return value);
for `read_file` the inode id of the entry that was read, that is of the regular entry
that is the first match of the name at the end of the soft links followed from `name`;
for `create_hard_link` the inode id of the entry found for `existing_name`; for
`create_soft_link` the value `-1`.  Once `log_count` has reached `MAX_LOGS`, that slot is
the one written `MAX_LOGS` operations before. -/
theorem log_append (fs : simplefs) (hin : ReachableInBounds fs) :
    (∀ (name permissions : List Nat) (uid gid : Int) (data : List Nat) (now_inode now_log : Int),
      fs.dir_count < MAX_INODES →
      fs.block_count + blocks_used (strlen data) ≤ MAX_BLOCKS →
      (create_file fs name permissions uid gid data now_inode now_log).2 ≠ -1 →
      (create_file fs name permissions uid gid data now_inode now_log).1.log_count =
        fs.log_count + 1 ∧
      ((create_file fs name permissions uid gid data now_inode now_log).1.logs
        (fs.log_count % MAX_LOGS)).related_inode_id =
        (create_file fs name permissions uid gid data now_inode now_log).2 ∧
      (create_file fs name permissions uid gid data now_inode now_log).2 = fs.inode_count ∧
      ∀ s, s ≠ fs.log_count % MAX_LOGS →
        (create_file fs name permissions uid gid data now_inode now_log).1.logs s = fs.logs s) ∧
    (∀ (depth : Nat) (name : List Nat) (uid gid : Int) (buffer : Nat → Nat) (max_len now : Int)
      (r : read_result), strlen name < MAX_NAME →
      read_file depth fs name uid gid buffer max_len now = some r → r.ret ≠ -1 →
      r.fs.log_count = fs.log_count + 1 ∧
      (∃ k nm j, link_chain fs name k = some nm ∧ find_entry fs nm = some j ∧
        (fs.directory j).is_soft_link = 0 ∧
        (r.fs.logs (fs.log_count % MAX_LOGS)).related_inode_id = (fs.directory j).inode_id) ∧
      ∀ s, s ≠ fs.log_count % MAX_LOGS → r.fs.logs s = fs.logs s) ∧
    (∀ (existing_name new_name : List Nat) (uid now : Int),
      fs.dir_count < MAX_INODES → strlen existing_name < MAX_NAME →
      (create_hard_link fs existing_name new_name uid now).2 = 0 →
      (create_hard_link fs existing_name new_name uid now).1.log_count = fs.log_count + 1 ∧
      (∃ i, find_entry fs existing_name = some i ∧
        ((create_hard_link fs existing_name new_name uid now).1.logs
          (fs.log_count % MAX_LOGS)).related_inode_id = (fs.directory i).inode_id) ∧
      ∀ s, s ≠ fs.log_count % MAX_LOGS →
        (create_hard_link fs existing_name new_name uid now).1.logs s = fs.logs s) ∧
    (∀ (existing_name new_name : List Nat) (uid now : Int),
      fs.dir_count < MAX_INODES → strlen existing_name < MAX_NAME →
      (create_soft_link fs existing_name new_name uid now).2 = 0 ∧
      (create_soft_link fs existing_name new_name uid now).1.log_count = fs.log_count + 1 ∧
      ((create_soft_link fs existing_name new_name uid now).1.logs
        (fs.log_count % MAX_LOGS)).related_inode_id = -1 ∧
      ∀ s, s ≠ fs.log_count % MAX_LOGS →
        (create_soft_link fs existing_name new_name uid now).1.logs s = fs.logs s) ∧
    (MAX_LOGS ≤ fs.log_count →
      fs.log_count % MAX_LOGS = (fs.log_count - MAX_LOGS) % MAX_LOGS) := by
  have hreach := reachable_of_in_bounds fs hin
  refine ⟨?_, ?_, ?_, ?_, ?_⟩
  · intro name permissions uid gid data now_inode now_log _ _ hret
    have hg := create_file_guard _ _ _ _ _ _ _ _ hret
    rw [create_file_ok fs name permissions uid gid data now_inode now_log hg]
    have hid : (allocate fs (new_inode fs permissions uid gid data now_inode) data).ino.id =
        fs.inode_count := allocate_ino_id _ _ _
    refine ⟨rfl, ?_, by simp only [hid], ?_⟩
    · simp only [Function.update_same]
      rfl
    · intro s hs
      exact Function.update_noteq hs _ _
  · intro depth name uid gid buffer max_len now r _ h hret
    obtain ⟨k, nm, j, hk, hj, hreg, h1⟩ :=
      read_file_resolves depth fs name uid gid buffer max_len now r h hret
    rw [h1]
    refine ⟨rfl, ⟨k, nm, j, hk, hj, hreg, ?_⟩, ?_⟩
    · simp only [Function.update_same]
      show ((fs.inodes (fs.directory j).inode_id).id : Int) = _
      rw [reachable_entry_inode_id fs hreach j]
    · intro s hs
      exact Function.update_noteq hs _ _
  · intro existing_name new_name uid now _ _ hok
    cases hf : find_entry fs existing_name with
    | none =>
      unfold create_hard_link at hok
      rw [hf] at hok
      simp at hok
    | some i =>
      rw [create_hard_link_ok fs existing_name new_name uid now i hf hok]
      refine ⟨rfl, ⟨i, rfl, ?_⟩, ?_⟩
      · simp only [Function.update_same]
        show ((fs.inodes (fs.directory i).inode_id).id : Int) = _
        rw [reachable_entry_inode_id fs hreach i]
      · intro s hs
        exact Function.update_noteq hs _ _
  · intro existing_name new_name uid now _ _
    unfold create_soft_link
    refine ⟨rfl, rfl, ?_, ?_⟩
    · simp only [Function.update_same]
      rfl
    · intro s hs
      exact Function.update_noteq hs _ _
  · intro h
    simp only [MAX_LOGS] at *
    omega

/-- The theorem `log_append` at `linked_fs`: user 1 reads the soft link `s`, which leads to
the file `b`; the read raises `log_count` from 3 to 4 and writes slot 3, and the entry
carries the inode id 1 of `b`, found after one hop. -/
theorem log_append_witness :
    ∃ r, read_file 2 linked_fs (str "s") 1 1 (fun _ => 0) 10 11 = some r ∧
      r.fs.log_count = linked_fs.log_count + 1 ∧
      (∃ k nm j, link_chain linked_fs (str "s") k = some nm ∧
        find_entry linked_fs nm = some j ∧ (linked_fs.directory j).is_soft_link = 0 ∧
        (r.fs.logs (linked_fs.log_count % MAX_LOGS)).related_inode_id =
          (linked_fs.directory j).inode_id) ∧
      (r.fs.logs 3).related_inode_id = 1 := by
  have hs : (read_file 2 linked_fs (str "s") 1 1 (fun _ => 0) 10 11).isSome = true := by decide
  obtain ⟨r, hr⟩ := Option.isSome_iff_exists.1 hs
  have hret : r.ret ≠ -1 := by
    have h2 : (read_file 2 linked_fs (str "s") 1 1 (fun _ => 0) 10 11).map (fun r => r.ret) =
        some 2 := by decide
    rw [hr] at h2
    simp only [Option.map_some', Option.some.injEq] at h2
    rw [h2]; decide
  have h := (log_append linked_fs in_bounds_linked_fs).2.1 2 (str "s") 1 1 (fun _ => 0) 10 11 r
    (by decide) hr hret
  have h3 : (read_file 2 linked_fs (str "s") 1 1 (fun _ => 0) 10 11).map
      (fun r => (r.fs.logs 3).related_inode_id) = some 1 := by decide
  rw [hr] at h3
  simp only [Option.map_some', Option.some.injEq] at h3
  exact ⟨r, hr, h.1, h.2.1, h3⟩

end SimpleFS
